import Mathlib

/-!
Verification of the skipmap package: a sequential shallow embedding of
src/skipmap/skipmap.go. Go node pointers become stable indices into an
arena list (nil becomes none); each Go loop becomes a fuel-bounded
recursion returning Option, where a none result models an index panic, a
nil dereference, or divergence on a corrupted structure - all of which are
proved unreachable from well-formed states. The mutex has no sequential
content and is omitted; the reusable update cache is modelled as a
per-call scratch list (the design document states a fresh scratch list per
call is observably equivalent, and every entry the code reads is written
earlier in the same call).
-/

set_option linter.unusedVariables false

namespace SkipVerify

/-- A pointer in the skip list: nil or the arena index of a node. -/
abbrev Ptr := Option Nat

/-- One skip-list node (Go struct Node): key, value, and one forward
pointer per level it participates in (slice length = assigned level + 1). -/
structure Node (K V : Type) where
  key : K
  value : V
  forward : List Ptr

/-- A traversal cursor: the sentinel header or an arena node. Go uses a
node pointer for both; the header is a separate allocation. -/
inductive Pos where
  | header : Pos
  | node : Nat → Pos
deriving DecidableEq, Repr

/-- The engine state (Go struct SkipMap). -/
structure SkipMap (K V : Type) where
  headerF : List Ptr
  arena : List (Node K V)
  maxLevel : Nat
  level : Nat
  length : Nat
  comparator : K → K → Int

variable {K V : Type}

/-- Go constant DefaultMaxLevel. -/
def DefaultMaxLevel : Nat := 32

/-- Go NewWithComparator: empty engine, header with maxLevel nil slots. -/
def NewWithComparator (comparator : K → K → Int) : SkipMap K V :=
  { headerF := List.replicate DefaultMaxLevel none
    arena := []
    maxLevel := DefaultMaxLevel
    level := 0
    length := 0
    comparator := comparator }

/-- Go defaultComparator (and cmp.Compare as used by New): the three-way
comparison induced by the natural order of the key type. -/
def defaultComparator [LT K] [DecidableRel (LT.lt (α := K))] (a b : K) : Int :=
  if a < b then -1 else if b < a then 1 else 0

/-- Go New: natural-order construction. -/
def New (K V : Type) [LT K] [DecidableRel (LT.lt (α := K))] : SkipMap K V :=
  NewWithComparator defaultComparator

/-- The key stored at arena index j, when j is a live index. -/
def keyAt (s : SkipMap K V) (j : Nat) : Option K :=
  (s.arena[j]?).map Node.key

/-- Length of the forward slice of the node at arena index j (0 when j is
not an arena index). -/
def fLen (s : SkipMap K V) (j : Nat) : Nat :=
  ((s.arena[j]?).map fun nd => nd.forward.length).getD 0

/-- Read position p's forward pointer at level i. A none result models a
Go index-out-of-range panic (or a dangling arena index, which a Go
pointer cannot be). -/
def SkipMap.fwdGet (s : SkipMap K V) (p : Pos) (i : Nat) : Option Ptr :=
  match p with
  | .header => s.headerF[i]?
  | .node j => (s.arena[j]?).bind fun nd => nd.forward[i]?

/-- Write position p's forward pointer at level i (Go x.forward[i] = q). -/
def SkipMap.fwdSet (s : SkipMap K V) (p : Pos) (i : Nat) (q : Ptr) :
    Option (SkipMap K V) :=
  match p with
  | .header =>
      if i < s.headerF.length then some { s with headerF := s.headerF.set i q }
      else none
  | .node j =>
      match s.arena[j]? with
      | none => none
      | some nd =>
          if i < nd.forward.length then
            some { s with arena := s.arena.set j { nd with forward := nd.forward.set i q } }
          else none

/-- Go randomLevel loop: level starts at 0 and is incremented while the
coin comes up true and level < maxLevel - 1. coins n is the outcome of
the n-th comparison rand.Float32() < s.probability; fuel only bounds the
recursion and fuel = maxLevel is enough, since the level bound stops the
loop after at most maxLevel - 1 increments. -/
def rlLoop (coins : Nat → Bool) (maxLevel : Nat) : Nat → Nat → Nat
  | level, 0 => level
  | level, fuel + 1 =>
      if coins level ∧ level < maxLevel - 1 then rlLoop coins maxLevel (level + 1) fuel
      else level

/-- Go randomLevel. -/
def randomLevel (maxLevel : Nat) (coins : Nat → Bool) : Nat :=
  rlLoop coins maxLevel 0 maxLevel

/-- The inner advance loop shared by every search: at level i, step
forward while the next node exists and its key compares below the
target (Go: for current.forward[i] != nil && cmp(current.forward[i].key, key) < 0). -/
def advanceLoop (s : SkipMap K V) (key : K) (i : Nat) : Pos → Nat → Option Pos
  | _, 0 => none
  | p, fuel + 1 => do
      let q ← s.fwdGet p i
      match q with
      | none => pure p
      | some j => do
          let nd ← s.arena[j]?
          if s.comparator nd.key key < 0 then advanceLoop s key i (.node j) fuel
          else pure p

/-- The search descent of Get, Range and RangeFunc (each spells out this
same nested loop in Go): from level i down to 0, advance at each level. -/
def searchNoUpd (s : SkipMap K V) (key : K) : Nat → Pos → Option Pos
  | 0, p => advanceLoop s key 0 p (s.arena.length + 1)
  | i + 1, p => do
      let p1 ← advanceLoop s key (i + 1) p (s.arena.length + 1)
      searchNoUpd s key i p1

/-- Write slot i of the update scratch list (Go update[i] = current). -/
def setPos (upd : List Pos) (i : Nat) (p : Pos) : Option (List Pos) :=
  if i < upd.length then some (upd.set i p) else none

/-- The search descent of Put and Remove: as searchNoUpd, but recording
the last node visited at each level into the update buffer. -/
def searchDown (s : SkipMap K V) (key : K) : Nat → Pos → List Pos → Option (Pos × List Pos)
  | 0, p, upd => do
      let p1 ← advanceLoop s key 0 p (s.arena.length + 1)
      let u1 ← setPos upd 0 p1
      pure (p1, u1)
  | i + 1, p, upd => do
      let p1 ← advanceLoop s key (i + 1) p (s.arena.length + 1)
      let u1 ← setPos upd (i + 1) p1
      searchDown s key i p1 u1

/-- Go Put raise loop: for i := s.level+1; i <= newLevel; i++ set
update[i] = header. r is the remaining iteration count. -/
def raiseUpd (upd : List Pos) : Nat → Nat → Option (List Pos)
  | _, 0 => some upd
  | i, r + 1 => do
      let u1 ← setPos upd i .header
      raiseUpd u1 (i + 1) r

/-- Go Put splice loop, for i = 0 .. newLevel:
newNode.forward[i] = update[i].forward[i]; update[i].forward[i] = newNode. -/
def spliceUp (s : SkipMap K V) (upd : List Pos) (jNew : Nat) : Nat → Nat → Option (SkipMap K V)
  | _, 0 => some s
  | i, r + 1 => do
      let u ← upd[i]?
      let p ← s.fwdGet u i
      let s1 ← s.fwdSet (.node jNew) i p
      let s2 ← s1.fwdSet u i (some jNew)
      spliceUp s2 upd jNew (i + 1) r

/-- Go Put after the failed duplicate check: draw a level, extend the
frontier and raise the current level if needed, allocate the node at the
next free arena index, splice it at levels 0..newLevel, bump length. -/
def putFresh (s : SkipMap K V) (key : K) (value : V) (coins : Nat → Bool)
    (upd : List Pos) : Option (SkipMap K V) := do
  let newLevel := randomLevel s.maxLevel coins
  let (s1, upd1) ←
    if s.level < newLevel then do
      let u ← raiseUpd upd (s.level + 1) (newLevel - s.level)
      pure ({ s with level := newLevel }, u)
    else pure (s, upd)
  let jNew := s1.arena.length
  let s2 := { s1 with
    arena := s1.arena ++ [{ key := key, value := value,
                            forward := List.replicate (newLevel + 1) none }] }
  let s3 ← spliceUp s2 upd1 jNew 0 (newLevel + 1)
  pure { s3 with length := s3.length + 1 }

/-- Go Put: search with frontier recording; overwrite the value in place
when the level-0 successor has an equal key, insert a fresh node otherwise. -/
def SkipMap.Put (s : SkipMap K V) (key : K) (value : V) (coins : Nat → Bool) :
    Option (SkipMap K V) := do
  let upd0 := List.replicate s.maxLevel Pos.header
  let (cur, upd) ← searchDown s key s.level .header upd0
  let c0 ← s.fwdGet cur 0
  match c0 with
  | some j => do
      let nd ← s.arena[j]?
      if s.comparator nd.key key = 0 then
        pure { s with arena := s.arena.set j { nd with value := value } }
      else putFresh s key value coins upd
  | none => putFresh s key value coins upd

/-- Go Get. The inner Option V is the found result (none = not found,
reported in Go as a zero value plus false). -/
def SkipMap.Get (s : SkipMap K V) (key : K) : Option (Option V) := do
  let cur ← searchNoUpd s key s.level .header
  let c0 ← s.fwdGet cur 0
  match c0 with
  | some j => do
      let nd ← s.arena[j]?
      if s.comparator nd.key key = 0 then pure (some nd.value) else pure none
  | none => pure none

/-- Go Remove splice loop with its break: for i = 0 .. s.level, stop at
the first level whose frontier no longer points at the doomed node j,
else rewire update[i].forward[i] to current.forward[i]. -/
def removeSplice (s : SkipMap K V) (upd : List Pos) (j : Nat) : Nat → Nat → Option (SkipMap K V)
  | _, 0 => some s
  | i, r + 1 => do
      let u ← upd[i]?
      let p ← s.fwdGet u i
      if p = some j then do
        let q ← s.fwdGet (.node j) i
        let s1 ← s.fwdSet u i q
        removeSplice s1 upd j (i + 1) r
      else some s

/-- Go Remove shrink loop: while level > 0 and header.forward[level] is
nil, decrement level. A none result is the out-of-range panic. -/
def shrinkLoop (headerF : List Ptr) : Nat → Option Nat
  | 0 => some 0
  | l + 1 =>
      match headerF[l + 1]? with
      | none => none
      | some none => shrinkLoop headerF l
      | some (some _) => some (l + 1)

/-- Go Remove. Note the Go length field is an int decremented by one;
under the structural invariant a successful Remove always has length at
least one, so Nat subtraction is exact on every reachable state. -/
def SkipMap.Remove (s : SkipMap K V) (key : K) : Option (SkipMap K V × Bool) := do
  let upd0 := List.replicate s.maxLevel Pos.header
  let (cur, upd) ← searchDown s key s.level .header upd0
  let c0 ← s.fwdGet cur 0
  match c0 with
  | some j => do
      let nd ← s.arena[j]?
      if s.comparator nd.key key = 0 then do
        let s1 ← removeSplice s upd j 0 (s.level + 1)
        let l1 ← shrinkLoop s1.headerF s1.level
        pure ({ s1 with level := l1, length := s1.length - 1 }, true)
      else pure (s, false)
  | none => pure (s, false)

/-- Go Range collection loop: walk the level-0 chain appending values
while the key compares at most endKey. -/
def collectLoop (s : SkipMap K V) (endKey : K) : Ptr → Nat → List V → Option (List V)
  | _, 0, _ => none
  | none, _ + 1, acc => some acc
  | some j, fuel + 1, acc => do
      let nd ← s.arena[j]?
      if s.comparator nd.key endKey ≤ 0 then do
        let q ← nd.forward[0]?
        collectLoop s endKey q fuel (acc ++ [nd.value])
      else some acc

/-- Go Range: search for the lower bound of start, then collect. -/
def SkipMap.Range (s : SkipMap K V) (start endKey : K) : Option (List V) := do
  let cur ← searchNoUpd s start s.level .header
  let c0 ← s.fwdGet cur 0
  collectLoop s endKey c0 (s.arena.length + 1) []

/-- Go RangeFunc loop. The returned list is the trace of visitor
invocations in order - the observable behaviour of RangeFunc; a false
visitor result breaks out of the loop after that invocation. -/
def visitLoop (s : SkipMap K V) (endKey : K) (f : K → V → Bool) :
    Ptr → Nat → List (K × V) → Option (List (K × V))
  | _, 0, _ => none
  | none, _ + 1, acc => some acc
  | some j, fuel + 1, acc => do
      let nd ← s.arena[j]?
      if s.comparator nd.key endKey ≤ 0 then
        if f nd.key nd.value then do
          let q ← nd.forward[0]?
          visitLoop s endKey f q fuel (acc ++ [(nd.key, nd.value)])
        else some (acc ++ [(nd.key, nd.value)])
      else some acc

/-- Go RangeFunc: identical search to Range, then the visiting loop. -/
def SkipMap.RangeFunc (s : SkipMap K V) (start endKey : K) (f : K → V → Bool) :
    Option (List (K × V)) := do
  let cur ← searchNoUpd s start s.level .header
  let c0 ← s.fwdGet cur 0
  visitLoop s endKey f c0 (s.arena.length + 1) []

/-- Go Min: not-found on length 0; otherwise dereference the header's
level-0 forward target (a nil target would be a Go nil-pointer panic,
modelled as the outer none). -/
def SkipMap.Min (s : SkipMap K V) : Option (Option (K × V)) :=
  if s.length = 0 then some none
  else
    match s.headerF[0]? with
    | none => none
    | some none => none
    | some (some j) =>
        match s.arena[j]? with
        | none => none
        | some nd => some (some (nd.key, nd.value))

/-- Go Max inner loop at one level: advance while a forward reference
exists. -/
def lastLoop (s : SkipMap K V) (i : Nat) : Pos → Nat → Option Pos
  | _, 0 => none
  | p, fuel + 1 => do
      let q ← s.fwdGet p i
      match q with
      | none => pure p
      | some j => lastLoop s i (.node j) fuel

/-- Go Max descent: from s.level down to 0, run to the end of each chain. -/
def maxDown (s : SkipMap K V) : Nat → Pos → Option Pos
  | 0, p => lastLoop s 0 p (s.arena.length + 1)
  | i + 1, p => do
      let p1 ← lastLoop s (i + 1) p (s.arena.length + 1)
      maxDown s i p1

/-- Go Max. When the descent ends on the header with a nonzero length
the Go code would return the header's zero-valued key with found true;
arbitrary K has no zero value, so the model returns the outer none there.
The case is unreachable from well-formed states. -/
def SkipMap.Max (s : SkipMap K V) : Option (Option (K × V)) :=
  if s.length = 0 then some none
  else do
    let p ← maxDown s s.level .header
    match p with
    | .header => none
    | .node j => do
        let nd ← s.arena[j]?
        pure (some (nd.key, nd.value))

/-- Go Len. -/
def SkipMap.Len (s : SkipMap K V) : Nat := s.length

/-- Go IsEmpty. -/
def SkipMap.IsEmpty (s : SkipMap K V) : Bool := s.length == 0

/-- In-range test on a model entry: start at most the key, and the key
at most endKey, under the comparator. -/
def inRangeB (c : K → K → Int) (start endKey : K) (p : K × V) : Bool :=
  decide (0 ≤ c p.1 start) && decide (c p.1 endKey ≤ 0)

/-- The pairs the Range walk visits: the longest prefix whose keys
compare at most endKey. -/
def mCollectP (c : K → K → Int) (endKey : K) : List (K × V) → List (K × V)
  | [] => []
  | p :: t => if c p.1 endKey ≤ 0 then p :: mCollectP c endKey t else []

/-- The prefix of xs up to and including the first pair the visitor
rejects. -/
def takeUntil (f : K → V → Bool) : List (K × V) → List (K × V)
  | [] => []
  | p :: t => if f p.1 p.2 then p :: takeUntil f t else [p]

/-- One driver operation for whole-trace statements. -/
inductive Op (K V : Type) where
  | put (k : K) (v : V)
  | remove (k : K)

/-- Run a trace of operations from a state, recording the key of every
Remove that reported success. -/
def runOpsR (coins : Nat → Bool) :
    SkipMap K V → List (Op K V) → Option (SkipMap K V × List K)
  | s, [] => some (s, [])
  | s, .put k v :: t => do
      let s1 ← s.Put k v coins
      runOpsR coins s1 t
  | s, .remove k :: t => do
      let (s1, b) ← s.Remove k
      let (s2, r) ← runOpsR coins s1 t
      pure (s2, if b then k :: r else r)

/-- The keys passed to Put by a trace, in order. -/
def putKeysOf : List (Op K V) → List K
  | [] => []
  | .put k _ :: t => k :: putKeysOf t
  | .remove _ :: t => putKeysOf t

/-! ### The comparator contract -/

/-- The comparator contract of the design document: a strict total order
(irreflexive, transitive, total), under which comparator equality
coincides with equality of keys. -/
structure IsSTO (c : K → K → Int) : Prop where
  eq_iff : ∀ a b, c a b = 0 ↔ a = b
  asymm : ∀ a b, c a b < 0 ↔ 0 < c b a
  trans : ∀ a b d, c a b < 0 → c b d < 0 → c a d < 0

namespace IsSTO

variable {c : K → K → Int}

lemma refl (hc : IsSTO c) (a : K) : c a a = 0 := (hc.eq_iff a a).mpr rfl

lemma gt_of_not (hc : IsSTO c) {a b : K} (h1 : ¬ c a b < 0) (h2 : ¬ c a b = 0) :
    c b a < 0 := (hc.asymm b a).mpr (by omega)

lemma not_lt_of_lt (hc : IsSTO c) {a b : K} (h : c a b < 0) : ¬ c b a < 0 := by
  intro h2
  have := (hc.asymm b a).mp h2
  omega

lemma ne_of_lt (hc : IsSTO c) {a b : K} (h : c a b < 0) : ¬ c a b = 0 := by omega

lemma lt_of_le_of_lt (hc : IsSTO c) {a b d : K} (h1 : c a b ≤ 0) (h2 : c b d < 0) :
    c a d < 0 := by
  rcases lt_or_eq_of_le h1 with h | h
  · exact hc.trans a b d h h2
  · rcases (hc.eq_iff a b).mp h with rfl
    exact h2

lemma lt_of_lt_of_le (hc : IsSTO c) {a b d : K} (h1 : c a b < 0) (h2 : c b d ≤ 0) :
    c a d < 0 := by
  rcases lt_or_eq_of_le h2 with h | h
  · exact hc.trans a b d h1 h
  · rcases (hc.eq_iff b d).mp h with rfl
    exact h1

end IsSTO

/-- Case analysis on the value of the natural-order comparator. -/
lemma defaultComparator_cases [LinearOrder K] (a b : K) :
    (a < b ∧ defaultComparator a b = -1) ∨ (b < a ∧ defaultComparator a b = 1) ∨
      (a = b ∧ defaultComparator a b = 0) := by
  unfold defaultComparator
  rcases lt_trichotomy a b with h | h | h
  · exact Or.inl ⟨h, by rw [if_pos h]⟩
  · subst h
    exact Or.inr (Or.inr ⟨rfl, by rw [if_neg (lt_irrefl a), if_neg (lt_irrefl a)]⟩)
  · exact Or.inr (Or.inl ⟨h, by rw [if_neg (lt_asymm h), if_pos h]⟩)

/-- The natural-order comparator satisfies the contract on any linearly
ordered key type; this covers every instantiation built by New. -/
lemma defaultComparator_isSTO [LinearOrder K] :
    IsSTO (defaultComparator (K := K)) := by
  constructor
  · intro a b
    rcases defaultComparator_cases a b with ⟨h, he⟩ | ⟨h, he⟩ | ⟨h, he⟩ <;> rw [he]
    · exact ⟨fun hh => absurd hh (by norm_num), fun hh => absurd hh (ne_of_lt h)⟩
    · exact ⟨fun hh => absurd hh (by norm_num), fun hh => absurd hh (ne_of_gt h)⟩
    · exact ⟨fun _ => h, fun _ => rfl⟩
  · intro a b
    rcases defaultComparator_cases a b with ⟨h, he⟩ | ⟨h, he⟩ | ⟨h, he⟩
    · rcases defaultComparator_cases b a with ⟨h2, he2⟩ | ⟨h2, he2⟩ | ⟨h2, he2⟩
      · exact absurd (lt_trans h h2) (lt_irrefl a)
      · rw [he, he2]
        norm_num
      · exact absurd h2.symm (ne_of_lt h)
    · rcases defaultComparator_cases b a with ⟨h2, he2⟩ | ⟨h2, he2⟩ | ⟨h2, he2⟩
      · rw [he, he2]
        norm_num
      · exact absurd (lt_trans h h2) (lt_irrefl b)
      · exact absurd h2 (ne_of_lt h)
    · subst h
      rcases defaultComparator_cases a a with ⟨h2, he2⟩ | ⟨h2, he2⟩ | ⟨h2, he2⟩
      · exact absurd h2 (lt_irrefl a)
      · exact absurd h2 (lt_irrefl a)
      · constructor <;> (intro hh; rw [he2] at hh; exact absurd hh (by norm_num))
  · intro a b d hab hbd
    rcases defaultComparator_cases a b with ⟨h, he⟩ | ⟨h, he⟩ | ⟨h, he⟩ <;>
      rw [he] at hab
    · rcases defaultComparator_cases b d with ⟨h2, he2⟩ | ⟨h2, he2⟩ | ⟨h2, he2⟩ <;>
        rw [he2] at hbd
      · rcases defaultComparator_cases a d with ⟨h3, he3⟩ | ⟨h3, he3⟩ | ⟨h3, he3⟩
        · rw [he3]
          norm_num
        · exact absurd (lt_trans (lt_trans h h2) h3) (lt_irrefl a)
        · exact absurd h3 (ne_of_lt (lt_trans h h2))
      · exact absurd hbd (by norm_num)
      · exact absurd hbd (by norm_num)
    · exact absurd hab (by norm_num)
    · exact absurd hab (by norm_num)

/-! ### Derived read accessors and frame lemmas -/

/-- The key-value entry at arena index j. -/
def entryAt (s : SkipMap K V) (j : Nat) : Option (K × V) :=
  (s.arena[j]?).map fun nd => (nd.key, nd.value)

lemma keyAt_entryAt (s : SkipMap K V) (j : Nat) :
    keyAt s j = (entryAt s j).map Prod.fst := by
  unfold keyAt entryAt
  cases s.arena[j]? <;> rfl

/-- What a successful forward-pointer write does to every observation of
the state: scalar fields, entries and slice lengths are untouched; the
written slot reads back the new pointer; every other slot is unchanged. -/
lemma fwdSet_spec {s s1 : SkipMap K V} {p : Pos} {i : Nat} {q : Ptr}
    (h : s.fwdSet p i q = some s1) :
    s1.maxLevel = s.maxLevel ∧ s1.level = s.level ∧ s1.length = s.length ∧
    s1.comparator = s.comparator ∧ s1.arena.length = s.arena.length ∧
    s1.headerF.length = s.headerF.length ∧
    (∀ j, entryAt s1 j = entryAt s j) ∧ (∀ j, fLen s1 j = fLen s j) ∧
    s1.fwdGet p i = some q ∧
    (∀ p2 i2, p2 ≠ p ∨ i2 ≠ i → s1.fwdGet p2 i2 = s.fwdGet p2 i2) := by
  cases p with
  | header =>
    simp only [SkipMap.fwdSet] at h
    split at h
    case isFalse hi => exact absurd h (by simp)
    case isTrue hi =>
      injection h with h
      subst h
      refine ⟨rfl, rfl, rfl, rfl, rfl, by simp, fun j => rfl, fun j => rfl, ?_, ?_⟩
      · show (s.headerF.set i q)[i]? = some q
        exact List.getElem?_set_eq_of_lt q hi
      · intro p2 i2 hne
        cases p2 with
        | header =>
          show (s.headerF.set i q)[i2]? = s.headerF[i2]?
          have : i ≠ i2 := by
            rcases hne with hne | hne
            · exact absurd rfl hne
            · exact fun hh => hne hh.symm
          exact List.getElem?_set_ne this
        | node j2 => rfl
  | node j =>
    simp only [SkipMap.fwdSet] at h
    split at h
    next hj => exact absurd h (by simp)
    next nd hj =>
      split at h
      case isFalse hi => exact absurd h (by simp)
      case isTrue hi =>
        injection h with h
        subst h
        have hjlen : j < s.arena.length := (List.getElem?_eq_some.mp hj).1
        refine ⟨rfl, rfl, rfl, rfl, by simp, rfl, ?_, ?_, ?_, ?_⟩
        · intro j2
          unfold entryAt
          by_cases hjj : j = j2
          · subst hjj
            rw [List.getElem?_set_eq_of_lt _ hjlen, hj]
            rfl
          · rw [List.getElem?_set_ne hjj]
        · intro j2
          unfold fLen
          by_cases hjj : j = j2
          · subst hjj
            rw [List.getElem?_set_eq_of_lt _ hjlen, hj]
            simp
          · rw [List.getElem?_set_ne hjj]
        · show ((s.arena.set j _)[j]?).bind _ = some q
          rw [List.getElem?_set_eq_of_lt _ hjlen]
          show (nd.forward.set i q)[i]? = some q
          exact List.getElem?_set_eq_of_lt q hi
        · intro p2 i2 hne
          cases p2 with
          | header => rfl
          | node j2 =>
            show ((s.arena.set j _)[j2]?).bind _ = (s.arena[j2]?).bind _
            by_cases hjj : j = j2
            · subst hjj
              rw [List.getElem?_set_eq_of_lt _ hjlen, hj]
              have hii : i ≠ i2 := by
                rcases hne with hne | hne
                · exact absurd rfl hne
                · exact fun hh => hne hh.symm
              show (nd.forward.set i q)[i2]? = nd.forward[i2]?
              exact List.getElem?_set_ne hii
            · rw [List.getElem?_set_ne hjj]

/-- A forward write succeeds exactly when the slot exists. -/
lemma fwdSet_isSome {s : SkipMap K V} {p : Pos} {i : Nat} {q : Ptr}
    (h : match p with
         | .header => i < s.headerF.length
         | .node j => ∃ nd, s.arena[j]? = some nd ∧ i < nd.forward.length) :
    ∃ s1, s.fwdSet p i q = some s1 := by
  cases p with
  | header =>
    refine ⟨{ s with headerF := s.headerF.set i q }, ?_⟩
    simp only [SkipMap.fwdSet]
    rw [if_pos h]
  | node j =>
    rcases h with ⟨nd, hnd, hi⟩
    refine ⟨{ s with arena := s.arena.set j { nd with forward := nd.forward.set i q } }, ?_⟩
    simp only [SkipMap.fwdSet]
    rw [hnd]
    show (if i < nd.forward.length then
        some { s with arena := s.arena.set j { nd with forward := nd.forward.set i q } }
      else none) = _
    rw [if_pos hi]

/-! ### Chains, positions and level lists -/

/-- The last position reached after walking through xs from p. -/
def lastPosFrom (p : Pos) : List Nat → Pos
  | [] => p
  | j :: t => lastPosFrom (.node j) t

/-- The last position of xs, the header when xs is empty. -/
def lastPos (xs : List Nat) : Pos := lastPosFrom .header xs

/-- The pointer to the first node of xs, or d when xs is empty. -/
def headPtrD (xs : List Nat) (d : Ptr) : Ptr :=
  match xs with
  | [] => d
  | j :: _ => some j

/-- The level-i chain from position p runs exactly through the nodes of
xs and then holds the pointer q. -/
def chainTo (s : SkipMap K V) (i : Nat) : Pos → List Nat → Ptr → Prop
  | p, [], q => s.fwdGet p i = some q
  | p, j :: t, q => s.fwdGet p i = some (some j) ∧ chainTo s i (.node j) t q

lemma lastPosFrom_append (p : Pos) (X Y : List Nat) :
    lastPosFrom p (X ++ Y) = lastPosFrom (lastPosFrom p X) Y := by
  induction X generalizing p with
  | nil => rfl
  | cons j t ih =>
    show lastPosFrom (.node j) (t ++ Y) = lastPosFrom (lastPosFrom (.node j) t) Y
    exact ih (.node j)

lemma lastPosFrom_concat (p : Pos) (X : List Nat) (j : Nat) :
    lastPosFrom p (X ++ [j]) = .node j := by
  rw [lastPosFrom_append]
  rfl

lemma chainTo_append {s : SkipMap K V} {i : Nat} {X Y : List Nat} {p : Pos} {q : Ptr} :
    chainTo s i p (X ++ Y) q ↔
      chainTo s i p X (headPtrD Y q) ∧ chainTo s i (lastPosFrom p X) Y q := by
  induction X generalizing p with
  | nil =>
    cases Y with
    | nil => simp [chainTo, lastPosFrom, headPtrD]
    | cons j t =>
      simp only [List.nil_append, lastPosFrom, headPtrD]
      exact ⟨fun h => ⟨h.1, h⟩, fun h => h.2⟩
  | cons j t ih =>
    show (s.fwdGet p i = some (some j) ∧ chainTo s i (.node j) (t ++ Y) q) ↔ _ ∧ _
    rw [ih]
    show _ ↔ (s.fwdGet p i = some (some j) ∧ chainTo s i (.node j) t (headPtrD Y q)) ∧
      chainTo s i (lastPosFrom (.node j) t) Y q
    tauto

/-- Nil-terminated chains are unique: from one position at one level
there is one full chain, because each link determines the next. -/
lemma chainTo_unique {s : SkipMap K V} {i : Nat} :
    ∀ {X : List Nat} {p : Pos} {Y : List Nat},
      chainTo s i p X none → chainTo s i p Y none → X = Y := by
  intro X
  induction X with
  | nil =>
    intro p Y hx hy
    cases Y with
    | nil => rfl
    | cons j t =>
      unfold chainTo at hx hy
      rw [hx] at hy
      injection hy.1 with hh
      cases hh
  | cons j t ih =>
    intro p Y hx hy
    cases Y with
    | nil =>
      unfold chainTo at hx hy
      rw [hy] at hx
      injection hx.1 with hh
      cases hh
    | cons j2 t2 =>
      unfold chainTo at hx hy
      rw [hx.1] at hy
      have hj : j = j2 := by
        injection hy.1 with hh
        injection hh
      subst hj
      rw [ih hx.2 hy.2]

/-- Nodes of L whose forward slice extends past level i - the nodes that
participate in the level-i chain. -/
def levelList (s : SkipMap K V) : List Nat → Nat → List Nat
  | [], _ => []
  | j :: t, i => if i < fLen s j then j :: levelList s t i else levelList s t i

lemma levelList_cons (s : SkipMap K V) (j : Nat) (t : List Nat) (i : Nat) :
    levelList s (j :: t) i =
      if i < fLen s j then j :: levelList s t i else levelList s t i := rfl

lemma levelList_append (s : SkipMap K V) (L1 L2 : List Nat) (i : Nat) :
    levelList s (L1 ++ L2) i = levelList s L1 i ++ levelList s L2 i := by
  induction L1 with
  | nil => rfl
  | cons j t ih =>
    rw [List.cons_append, levelList_cons, levelList_cons, ih]
    split <;> rfl

lemma mem_levelList {s : SkipMap K V} {L : List Nat} {i j : Nat} :
    j ∈ levelList s L i ↔ j ∈ L ∧ i < fLen s j := by
  induction L with
  | nil => simp [levelList]
  | cons j2 t ih =>
    rw [levelList_cons]
    by_cases h : i < fLen s j2
    · rw [if_pos h]
      simp only [List.mem_cons, ih]
      constructor
      · rintro (rfl | ⟨hm, hl⟩)
        · exact ⟨Or.inl rfl, h⟩
        · exact ⟨Or.inr hm, hl⟩
      · rintro ⟨rfl | hm, hl⟩
        · exact Or.inl rfl
        · exact Or.inr ⟨hm, hl⟩
    · rw [if_neg h]
      simp only [List.mem_cons, ih]
      constructor
      · rintro ⟨hm, hl⟩
        exact ⟨Or.inr hm, hl⟩
      · rintro ⟨rfl | hm, hl⟩
        · exact absurd hl h
        · exact ⟨hm, hl⟩

lemma levelList_sublist (s : SkipMap K V) (L : List Nat) (i : Nat) :
    (levelList s L i).Sublist L := by
  induction L with
  | nil => exact List.Sublist.refl []
  | cons j t ih =>
    rw [levelList_cons]
    split
    · exact ih.cons₂ j
    · exact ih.cons j

lemma levelList_eq_nil {s : SkipMap K V} {L : List Nat} {i : Nat}
    (h : ∀ j ∈ L, fLen s j ≤ i) : levelList s L i = [] := by
  induction L with
  | nil => rfl
  | cons j t ih =>
    rw [levelList_cons]
    have := h j (List.mem_cons_self j t)
    rw [if_neg (by omega)]
    exact ih fun j2 hj2 => h j2 (List.mem_cons_of_mem j hj2)

lemma levelList_zero {s : SkipMap K V} {L : List Nat}
    (h : ∀ j ∈ L, 1 ≤ fLen s j) : levelList s L 0 = L := by
  induction L with
  | nil => rfl
  | cons j t ih =>
    rw [levelList_cons]
    have := h j (List.mem_cons_self j t)
    rw [if_pos (by omega)]
    rw [ih fun j2 hj2 => h j2 (List.mem_cons_of_mem j hj2)]

/-- Level lists only depend on the slice lengths, which most state
updates preserve. -/
lemma levelList_congr {s1 w : SkipMap K V} {L : List Nat} {i : Nat}
    (h : ∀ j ∈ L, fLen s1 j = fLen w j) : levelList s1 L i = levelList w L i := by
  induction L with
  | nil => rfl
  | cons j t ih =>
    rw [levelList_cons, levelList_cons]
    rw [h j (List.mem_cons_self j t)]
    have ht := ih fun j2 hj2 => h j2 (List.mem_cons_of_mem j hj2)
    split <;> rw [ht]

/-! ### The spine invariant -/

/-- keys at index j1 below index j2 under the engine comparator. -/
def ltIdx (s : SkipMap K V) (j1 j2 : Nat) : Prop :=
  ∃ a b, keyAt s j1 = some a ∧ keyAt s j2 = some b ∧ s.comparator a b < 0

/-- Spine: L lists the arena indices of the live nodes in strictly
increasing key order, and the whole pointer structure of the engine is
the one dictated by L - including the design-document invariants on
keys, levels, chains, length and the level field. -/
structure Spine (s : SkipMap K V) (L : List Nat) : Prop where
  hdrLen : s.headerF.length = s.maxLevel
  maxL : s.maxLevel = DefaultMaxLevel
  mem : ∀ j ∈ L, j < s.arena.length
  flenPos : ∀ j ∈ L, 1 ≤ fLen s j
  flenLe : ∀ j ∈ L, fLen s j ≤ s.level + 1
  flenAll : ∀ nd ∈ s.arena, 1 ≤ nd.forward.length ∧ nd.forward.length ≤ s.maxLevel
  chains : ∀ i < s.maxLevel, chainTo s i .header (levelList s L i) none
  sorted : List.Chain' (ltIdx s) L
  len : s.length = L.length
  lvl : s.level < s.maxLevel
  lvlTop : s.level = 0 ∨ levelList s L s.level ≠ []

/-- A state is well formed when some spine witnesses it. -/
def Inv (s : SkipMap K V) : Prop := ∃ L, Spine s L

/-- The association list abstraction of the engine. -/
def toModel (s : SkipMap K V) (L : List Nat) : List (K × V) :=
  L.filterMap (entryAt s)

/-! ### Consequences of the spine -/

/-- The node at index j holds a key strictly below the target. -/
def keyLt (s : SkipMap K V) (target : K) (j : Nat) : Prop :=
  ∃ a, keyAt s j = some a ∧ s.comparator a target < 0

lemma ltIdx_trans {s : SkipMap K V} (hc : IsSTO s.comparator) :
    ∀ a b d, ltIdx s a b → ltIdx s b d → ltIdx s a d := by
  rintro a b d ⟨x, y, hx, hy, hxy⟩ ⟨y2, z, hy2, hz, hyz⟩
  rw [hy] at hy2
  injection hy2 with hy2
  subst hy2
  exact ⟨x, z, hx, hz, hc.trans x y z hxy hyz⟩

lemma Spine.pairwise {s : SkipMap K V} {L : List Nat} (hS : Spine s L)
    (hc : IsSTO s.comparator) : L.Pairwise (ltIdx s) := by
  have : IsTrans Nat (ltIdx s) := ⟨ltIdx_trans hc⟩
  exact List.chain'_iff_pairwise.mp hS.sorted

lemma Spine.nodup {s : SkipMap K V} {L : List Nat} (hS : Spine s L)
    (hc : IsSTO s.comparator) : L.Nodup := by
  refine (hS.pairwise hc).imp ?_
  rintro a b ⟨x, y, hx, hy, hxy⟩ rfl
  rw [hx] at hy
  injection hy with hy
  subst hy
  have := hc.refl x
  omega

lemma nodup_bound {l : List Nat} {n : Nat} (h : l.Nodup) (hm : ∀ j ∈ l, j < n) :
    l.length ≤ n := by
  have h1 : l.toFinset ⊆ Finset.range n := by
    intro j hj
    rw [List.mem_toFinset] at hj
    exact Finset.mem_range.mpr (hm j hj)
  have h2 := Finset.card_le_card h1
  rw [List.toFinset_card_of_nodup h, Finset.card_range] at h2
  exact h2

lemma Spine.keysEx {s : SkipMap K V} {L : List Nat} (hS : Spine s L) :
    ∀ j ∈ L, ∃ nd, s.arena[j]? = some nd := fun j hj =>
  ⟨_, List.getElem?_eq_getElem (hS.mem j hj)⟩

/-- The first link of a chain. -/
lemma chainTo_head {s : SkipMap K V} {i : Nat} {p : Pos} {X : List Nat} {q : Ptr}
    (h : chainTo s i p X q) : s.fwdGet p i = some (headPtrD X q) := by
  cases X with
  | nil => exact h
  | cons j t => exact h.1

/-- Walking a prefix of a chain leaves the chain of the suffix. -/
lemma chainTo_suffix {s : SkipMap K V} {i : Nat} {X Y : List Nat} {q : Ptr}
    (h : chainTo s i .header (X ++ Y) q) : chainTo s i (lastPos X) Y q :=
  (chainTo_append.mp h).2

lemma lastPos_cases (S : List Nat) :
    lastPos S = .header ∨ ∃ j0, lastPos S = .node j0 ∧ j0 ∈ S := by
  rcases List.eq_nil_or_concat S with rfl | ⟨T, j, rfl⟩
  · exact Or.inl rfl
  · rw [List.concat_eq_append]
    refine Or.inr ⟨j, ?_, List.mem_append_right T (List.mem_singleton_self j)⟩
    exact lastPosFrom_concat _ T j

/-- A nodup list can be split right after any position that is the header
or one of its members. -/
lemma split_at_pos {Z : List Nat} (hnd : Z.Nodup) {p : Pos}
    (hp : p = .header ∨ ∃ j0, p = .node j0 ∧ j0 ∈ Z) :
    ∃ X Y, Z = X ++ Y ∧ lastPosFrom .header X = p := by
  rcases hp with rfl | ⟨j0, rfl, hj0⟩
  · exact ⟨[], Z, rfl, rfl⟩
  · rcases List.append_of_mem hj0 with ⟨X0, Y0, rfl⟩
    refine ⟨X0 ++ [j0], Y0, by simp, lastPosFrom_concat _ X0 j0⟩

/-- One advance step: the next node exists and is below the target. -/
lemma advanceLoop_step {s : SkipMap K V} {key : K} {i : Nat} {p : Pos}
    {j : Nat} {nd : Node K V} (fuel : Nat)
    (hfwd : s.fwdGet p i = some (some j)) (hnd : s.arena[j]? = some nd)
    (hlt : s.comparator nd.key key < 0) :
    advanceLoop s key i p (fuel + 1) = advanceLoop s key i (.node j) fuel := by
  conv_lhs => unfold advanceLoop
  rw [hfwd]
  show ((s.arena[j]?).bind fun nd =>
    if s.comparator nd.key key < 0 then advanceLoop s key i (.node j) fuel
    else pure p) = _
  rw [hnd]
  show (if s.comparator nd.key key < 0 then advanceLoop s key i (.node j) fuel
    else pure p) = _
  rw [if_pos hlt]

/-- The advance loop stops on a nil forward pointer. -/
lemma advanceLoop_stop_nil {s : SkipMap K V} {key : K} {i : Nat} {p : Pos} (fuel : Nat)
    (hfwd : s.fwdGet p i = some none) :
    advanceLoop s key i p (fuel + 1) = some p := by
  conv_lhs => unfold advanceLoop
  rw [hfwd]
  rfl

/-- The advance loop stops when the next key is not below the target. -/
lemma advanceLoop_stop_ge {s : SkipMap K V} {key : K} {i : Nat} {p : Pos}
    {j : Nat} {nd : Node K V} (fuel : Nat)
    (hfwd : s.fwdGet p i = some (some j)) (hnd : s.arena[j]? = some nd)
    (hge : ¬ s.comparator nd.key key < 0) :
    advanceLoop s key i p (fuel + 1) = some p := by
  conv_lhs => unfold advanceLoop
  rw [hfwd]
  show ((s.arena[j]?).bind fun nd =>
    if s.comparator nd.key key < 0 then advanceLoop s key i (.node j) fuel
    else pure p) = _
  rw [hnd]
  show (if s.comparator nd.key key < 0 then advanceLoop s key i (.node j) fuel
    else pure p) = _
  rw [if_neg hge]
  rfl

/-- Correctness of the inner advance loop: started anywhere on a chain
whose remaining nodes split into a strictly-below-target prefix A and an
at-least-target suffix B, the loop stops exactly at the end of A, with
the B chain left ahead of it. -/
lemma advanceLoop_spec {s : SkipMap K V} {key : K} {i : Nat} :
    ∀ (A : List Nat) {B : List Nat} {p : Pos} {fuel : Nat},
      chainTo s i p (A ++ B) none →
      (∀ j ∈ A, keyLt s key j) →
      (∀ j ∈ B, ¬ keyLt s key j) →
      (∀ j ∈ A ++ B, ∃ nd, s.arena[j]? = some nd) →
      A.length < fuel →
      advanceLoop s key i p fuel = some (lastPosFrom p A) ∧
        chainTo s i (lastPosFrom p A) B none := by
  intro A
  induction A with
  | nil =>
    intro B p fuel hch hA hB hmem hfuel
    cases fuel with
    | zero => omega
    | succ fuel =>
      refine ⟨?_, hch⟩
      cases B with
      | nil => exact advanceLoop_stop_nil fuel hch
      | cons j t =>
        rcases hmem j (by simp) with ⟨nd, hnd⟩
        have hnlt : ¬ s.comparator nd.key key < 0 := by
          intro hlt
          refine hB j (by simp) ⟨nd.key, ?_, hlt⟩
          unfold keyAt
          rw [hnd]
          rfl
        exact advanceLoop_stop_ge fuel hch.1 hnd hnlt
  | cons j t ih =>
    intro B p fuel hch hA hB hmem hfuel
    cases fuel with
    | zero => simp at hfuel
    | succ fuel =>
      rcases hmem j (by simp) with ⟨nd, hnd⟩
      rcases hA j (by simp) with ⟨a, ha, hlt⟩
      have hkey : nd.key = a := by
        unfold keyAt at ha
        rw [hnd] at ha
        injection ha
      have hrest := ih hch.2 (fun j2 hj2 => hA j2 (List.mem_cons_of_mem j hj2)) hB
        (fun j2 hj2 => hmem j2 (by
          rcases List.mem_append.mp hj2 with hj2 | hj2
          · exact List.mem_append_left B (List.mem_cons_of_mem j hj2)
          · exact List.mem_append_right _ hj2))
        (by simpa using Nat.lt_of_succ_lt_succ hfuel)
      rw [advanceLoop_step fuel hch.1 hnd (hkey ▸ hlt)]
      exact hrest

/-- One level of the search descent: starting from the position reached
at level i+1 (the last below-target node of the level-(i+1) list), the
advance loop at level i lands on the last below-target node of the
level-i list, leaving the rest of the level-i chain ahead of it. -/
lemma advance_at_level {s : SkipMap K V} {key : K} {i : Nat} {L1 L2 : List Nat}
    (hch : chainTo s i .header (levelList s L1 i ++ levelList s L2 i) none)
    (hnd1 : L1.Nodup)
    (h1 : ∀ j ∈ L1, keyLt s key j)
    (h2 : ∀ j ∈ L2, ¬ keyLt s key j)
    (hmem : ∀ j ∈ L1 ++ L2, ∃ nd, s.arena[j]? = some nd)
    {fuel : Nat} (hfuel : L1.length < fuel) :
    advanceLoop s key i (lastPos (levelList s L1 (i + 1))) fuel =
      some (lastPos (levelList s L1 i)) ∧
    chainTo s i (lastPos (levelList s L1 i)) (levelList s L2 i) none := by
  have hndZ : (levelList s L1 i).Nodup := (levelList_sublist s L1 i).nodup hnd1
  have hpos : lastPos (levelList s L1 (i + 1)) = .header ∨
      ∃ j0, lastPos (levelList s L1 (i + 1)) = .node j0 ∧ j0 ∈ levelList s L1 i := by
    rcases lastPos_cases (levelList s L1 (i + 1)) with h | ⟨j0, hj0, hj0m⟩
    · exact Or.inl h
    · have hm := mem_levelList.mp hj0m
      exact Or.inr ⟨j0, hj0, mem_levelList.mpr ⟨hm.1, by omega⟩⟩
  rcases split_at_pos hndZ hpos with ⟨X, Y, hXY, hlastX⟩
  have hch2 : chainTo s i (lastPos (levelList s L1 (i + 1)))
      (Y ++ levelList s L2 i) none := by
    have hc2 := hch
    rw [hXY, List.append_assoc] at hc2
    have h3 := chainTo_suffix hc2
    rwa [show lastPos X = lastPos (levelList s L1 (i + 1)) from hlastX] at h3
  have hYsub : ∀ j ∈ Y, j ∈ L1 := fun j hj =>
    (mem_levelList.mp (by rw [hXY]; exact List.mem_append_right X hj)).1
  have hYlen : Y.length < fuel := by
    have h4 : (levelList s L1 i).length = X.length + Y.length := by
      rw [hXY, List.length_append]
    have h5 := (levelList_sublist s L1 i).length_le
    omega
  have hres := advanceLoop_spec Y hch2
    (fun j hj => h1 j (hYsub j hj))
    (fun j hj => h2 j (mem_levelList.mp hj).1)
    (fun j hj => hmem j (by
      rcases List.mem_append.mp hj with hj | hj
      · exact List.mem_append_left L2 (hYsub j hj)
      · exact List.mem_append_right L1 (mem_levelList.mp hj).1))
    hYlen
  have hlast2 : lastPosFrom (lastPos (levelList s L1 (i + 1))) Y =
      lastPos (levelList s L1 i) := by
    rw [← hlastX, ← lastPosFrom_append]
    rw [show X ++ Y = levelList s L1 i from hXY.symm]
    rfl
  rw [hlast2] at hres
  exact hres

/-- Correctness of the recording search descent: started at the level-i
entry position with a long-enough scratch buffer, it returns the level-0
predecessor of the target and records the per-level predecessor at every
level up to i, leaving higher slots untouched. -/
lemma searchDown_spec {s : SkipMap K V} {key : K} {L1 L2 : List Nat}
    (hnd1 : L1.Nodup)
    (h1 : ∀ j ∈ L1, keyLt s key j)
    (h2 : ∀ j ∈ L2, ¬ keyLt s key j)
    (hmem : ∀ j ∈ L1 ++ L2, ∃ nd, s.arena[j]? = some nd)
    (hfuel : L1.length < s.arena.length + 1) :
    ∀ (i : Nat) (upd : List Pos),
      (∀ m, m ≤ i → chainTo s m .header (levelList s L1 m ++ levelList s L2 m) none) →
      i < upd.length →
      ∃ upd1,
        searchDown s key i (lastPos (levelList s L1 (i + 1))) upd =
          some (lastPos (levelList s L1 0), upd1) ∧
        upd1.length = upd.length ∧
        (∀ m, m ≤ i → upd1[m]? = some (lastPos (levelList s L1 m))) ∧
        (∀ m, i < m → upd1[m]? = upd[m]?) := by
  intro i
  induction i with
  | zero =>
    intro upd hch hlen
    have hadv := advance_at_level (i := 0) (hch 0 (Nat.le_refl 0)) hnd1 h1 h2 hmem
      hfuel
    refine ⟨upd.set 0 (lastPos (levelList s L1 0)), ?_, by simp, ?_, ?_⟩
    · conv_lhs => unfold searchDown
      rw [hadv.1]
      show (setPos upd 0 (lastPos (levelList s L1 0))).bind
        (fun u1 => pure (lastPos (levelList s L1 0), u1)) = _
      unfold setPos
      rw [if_pos hlen]
      rfl
    · intro m hm
      have hm0 : m = 0 := Nat.le_zero.mp hm
      subst hm0
      exact List.getElem?_set_eq_of_lt _ hlen
    · intro m hm
      exact List.getElem?_set_ne (by omega)
  | succ i ih =>
    intro upd hch hlen
    have hadv := advance_at_level (i := i + 1) (hch (i + 1) (Nat.le_refl _)) hnd1 h1 h2 hmem
      hfuel
    have hleni : i < (upd.set (i + 1) (lastPos (levelList s L1 (i + 1)))).length := by
      simp only [List.length_set]
      omega
    rcases ih (upd.set (i + 1) (lastPos (levelList s L1 (i + 1))))
      (fun m hm => hch m (Nat.le_succ_of_le hm)) hleni with ⟨upd1, hrun, hlen1, hlow, hhigh⟩
    refine ⟨upd1, ?_, by simpa using hlen1, ?_, ?_⟩
    · conv_lhs => unfold searchDown
      rw [hadv.1]
      show (setPos upd (i + 1) (lastPos (levelList s L1 (i + 1)))).bind
        (fun u1 => searchDown s key i (lastPos (levelList s L1 (i + 1))) u1) = _
      unfold setPos
      rw [if_pos hlen]
      show searchDown s key i (lastPos (levelList s L1 (i + 1)))
        (upd.set (i + 1) (lastPos (levelList s L1 (i + 1)))) = _
      exact hrun
    · intro m hm
      rcases Nat.lt_or_ge m (i + 1) with hm2 | hm2
      · exact hlow m (by omega)
      · have hm3 : m = i + 1 := by omega
        subst hm3
        rw [hhigh (i + 1) (by omega)]
        exact List.getElem?_set_eq_of_lt _ hlen
    · intro m hm
      rw [hhigh m (by omega)]
      exact List.getElem?_set_ne (by omega)

/-- Correctness of the non-recording search descent (Get, Range,
RangeFunc): it returns the level-0 predecessor of the target. -/
lemma searchNoUpd_spec {s : SkipMap K V} {key : K} {L1 L2 : List Nat}
    (hnd1 : L1.Nodup)
    (h1 : ∀ j ∈ L1, keyLt s key j)
    (h2 : ∀ j ∈ L2, ¬ keyLt s key j)
    (hmem : ∀ j ∈ L1 ++ L2, ∃ nd, s.arena[j]? = some nd)
    (hfuel : L1.length < s.arena.length + 1) :
    ∀ (i : Nat),
      (∀ m, m ≤ i → chainTo s m .header (levelList s L1 m ++ levelList s L2 m) none) →
      searchNoUpd s key i (lastPos (levelList s L1 (i + 1))) =
        some (lastPos (levelList s L1 0)) := by
  intro i
  induction i with
  | zero =>
    intro hch
    have hadv := advance_at_level (i := 0) (hch 0 (Nat.le_refl 0)) hnd1 h1 h2 hmem
      hfuel
    show advanceLoop s key 0 (lastPos (levelList s L1 1)) (s.arena.length + 1) = _
    exact hadv.1
  | succ i ih =>
    intro hch
    have hadv := advance_at_level (i := i + 1) (hch (i + 1) (Nat.le_refl _)) hnd1 h1 h2 hmem
      hfuel
    conv_lhs => unfold searchNoUpd
    rw [hadv.1]
    show searchNoUpd s key i (lastPos (levelList s L1 (i + 1))) = _
    exact ih fun m hm => hch m (Nat.le_succ_of_le hm)

/-- Any spine splits at a target key into the indices with keys strictly
below it followed by the rest. -/
lemma sorted_split {s : SkipMap K V} (hc : IsSTO s.comparator) {L : List Nat}
    (hp : L.Pairwise (ltIdx s)) (hkeys : ∀ j ∈ L, ∃ a, keyAt s j = some a) (key : K) :
    ∃ L1 L2, L = L1 ++ L2 ∧ (∀ j ∈ L1, keyLt s key j) ∧ (∀ j ∈ L2, ¬ keyLt s key j) := by
  induction L with
  | nil => exact ⟨[], [], rfl, by simp, by simp⟩
  | cons j t ih =>
    rcases hkeys j (List.mem_cons_self j t) with ⟨a, ha⟩
    rcases ih (List.Pairwise.of_cons hp)
      (fun j2 hj2 => hkeys j2 (List.mem_cons_of_mem j hj2)) with ⟨t1, t2, hsp, ht1, ht2⟩
    by_cases hlt : s.comparator a key < 0
    · refine ⟨j :: t1, t2, by rw [hsp]; rfl, ?_, ht2⟩
      intro j2 hj2
      rcases List.mem_cons.mp hj2 with rfl | hj2
      · exact ⟨a, ha, hlt⟩
      · exact ht1 j2 hj2
    · refine ⟨[], j :: t, rfl, by simp, ?_⟩
      intro j2 hj2 hk
      rcases List.mem_cons.mp hj2 with rfl | hj2
      · rcases hk with ⟨a2, ha2, hlt2⟩
        rw [ha] at ha2
        injection ha2 with ha2
        subst ha2
        exact hlt hlt2
      · rcases (List.pairwise_cons.mp hp).1 j2 hj2 with ⟨a1, b, ha1, hb, hab⟩
        rw [ha] at ha1
        injection ha1 with ha1
        subst ha1
        rcases hk with ⟨b2, hb2, hbk⟩
        rw [hb] at hb2
        injection hb2 with hb2
        subst hb2
        exact hlt (hc.trans _ _ _ hab hbk)

/-- The chain left ahead of the per-level predecessor, for every level:
this needs no search, only the spine. -/
lemma chain_after_pred {s : SkipMap K V} {L : List Nat} (hS : Spine s L)
    {L1 L2 : List Nat} (hsplit : L = L1 ++ L2) {m : Nat} (hm : m < s.maxLevel) :
    chainTo s m (lastPos (levelList s L1 m)) (levelList s L2 m) none := by
  have h := hS.chains m hm
  rw [hsplit, levelList_append] at h
  exact chainTo_suffix h

/-- Everything the operations need to know after searching a key on a
well-formed state: the spine splits at the key, both search variants
return the level-0 predecessor, the recorded frontier holds the
per-level predecessors, and each level's pending chain is known. -/
lemma search_facts {s : SkipMap K V} {L : List Nat} (hS : Spine s L)
    (hc : IsSTO s.comparator) (key : K) :
    ∃ L1 L2,
      L = L1 ++ L2 ∧
      (∀ j ∈ L1, keyLt s key j) ∧
      (∀ j ∈ L2, ¬ keyLt s key j) ∧
      searchNoUpd s key s.level .header = some (lastPos L1) ∧
      (∀ upd0 : List Pos, upd0.length = s.maxLevel →
        ∃ upd1, searchDown s key s.level .header upd0 = some (lastPos L1, upd1) ∧
          upd1.length = s.maxLevel ∧
          (∀ m, m ≤ s.level → upd1[m]? = some (lastPos (levelList s L1 m))) ∧
          (∀ m, s.level < m → upd1[m]? = upd0[m]?)) ∧
      (∀ m, m < s.maxLevel →
        chainTo s m (lastPos (levelList s L1 m)) (levelList s L2 m) none) := by
  have hkeys : ∀ j ∈ L, ∃ a, keyAt s j = some a := by
    intro j hj
    rcases hS.keysEx j hj with ⟨nd, hnd⟩
    exact ⟨nd.key, by unfold keyAt; rw [hnd]; rfl⟩
  rcases sorted_split hc (hS.pairwise hc) hkeys key with ⟨L1, L2, hsplit, h1, h2⟩
  have hndL : L.Nodup := hS.nodup hc
  have hnd1 : L1.Nodup := by
    rw [hsplit] at hndL
    exact (List.nodup_append.mp hndL).1
  have hmem1 : ∀ j ∈ L1 ++ L2, ∃ nd, s.arena[j]? = some nd := by
    intro j hj
    exact hS.keysEx j (hsplit ▸ hj)
  have hfuel : L1.length < s.arena.length + 1 := by
    have hb := nodup_bound (hS.nodup hc) hS.mem
    have : L1.length ≤ L.length := by
      rw [hsplit, List.length_append]
      omega
    omega
  have hL1sub : ∀ j ∈ L1, j ∈ L := fun j hj => hsplit ▸ List.mem_append_left L2 hj
  have hL2sub : ∀ j ∈ L2, j ∈ L := fun j hj => hsplit ▸ List.mem_append_right L1 hj
  have htop : levelList s L1 (s.level + 1) = [] :=
    levelList_eq_nil fun j hj => hS.flenLe j (hL1sub j hj)
  have hzero : levelList s L1 0 = L1 :=
    levelList_zero fun j hj => hS.flenPos j (hL1sub j hj)
  have hch : ∀ m, m ≤ s.level →
      chainTo s m .header (levelList s L1 m ++ levelList s L2 m) none := by
    intro m hm
    have h := hS.chains m (by have := hS.lvl; omega)
    rwa [hsplit, levelList_append] at h
  refine ⟨L1, L2, hsplit, h1, h2, ?_, ?_, ?_⟩
  · have h := searchNoUpd_spec hnd1 h1 h2 hmem1 hfuel s.level hch
    rw [htop] at h
    rw [hzero] at h
    exact h
  · intro upd0 hlen0
    have hlvl : s.level < upd0.length := by
      rw [hlen0]
      exact hS.lvl
    rcases searchDown_spec hnd1 h1 h2 hmem1 hfuel s.level upd0 hch hlvl with
      ⟨upd1, hrun, hlen1, hlow, hhigh⟩
    rw [htop, hzero] at hrun
    exact ⟨upd1, hrun, by rw [hlen1, hlen0], hlow, hhigh⟩
  · intro m hm
    exact chain_after_pred hS hsplit hm

/-! ### The association-list model -/

/-- Reference lookup on the association-list abstraction, comparing the
way the engine does. -/
def mLookup (c : K → K → Int) (key : K) : List (K × V) → Option V
  | [] => none
  | p :: t => if c p.1 key = 0 then some p.2 else mLookup c key t

lemma mLookup_append {c : K → K → Int} {key : K} {M1 M2 : List (K × V)}
    (h : ∀ p ∈ M1, ¬ c p.1 key = 0) :
    mLookup c key (M1 ++ M2) = mLookup c key M2 := by
  induction M1 with
  | nil => rfl
  | cons p t ih =>
    show mLookup c key (p :: (t ++ M2)) = _
    conv_lhs => unfold mLookup
    rw [if_neg (h p (List.mem_cons_self p t))]
    exact ih fun p2 hp2 => h p2 (List.mem_cons_of_mem p hp2)

lemma mLookup_none {c : K → K → Int} {key : K} {M : List (K × V)}
    (h : ∀ p ∈ M, ¬ c p.1 key = 0) : mLookup c key M = none := by
  induction M with
  | nil => rfl
  | cons p t ih =>
    unfold mLookup
    rw [if_neg (h p (List.mem_cons_self p t))]
    exact ih fun q hq => h q (List.mem_cons_of_mem p hq)

lemma toModel_append (s : SkipMap K V) (L1 L2 : List Nat) :
    toModel s (L1 ++ L2) = toModel s L1 ++ toModel s L2 :=
  List.filterMap_append L1 L2 (entryAt s)

lemma toModel_cons {s : SkipMap K V} {j : Nat} {t : List Nat} {nd : Node K V}
    (hnd : s.arena[j]? = some nd) :
    toModel s (j :: t) = (nd.key, nd.value) :: toModel s t := by
  unfold toModel
  rw [List.filterMap_cons]
  have : entryAt s j = some (nd.key, nd.value) := by
    unfold entryAt
    rw [hnd]
    rfl
  rw [this]

lemma toModel_cons_entry {s : SkipMap K V} {j : Nat} {t : List Nat} {pr : K × V}
    (h : entryAt s j = some pr) : toModel s (j :: t) = pr :: toModel s t := by
  unfold toModel
  rw [List.filterMap_cons, h]

lemma toModel_congr {s1 w : SkipMap K V} {L : List Nat}
    (h : ∀ j ∈ L, entryAt s1 j = entryAt w j) : toModel s1 L = toModel w L := by
  induction L with
  | nil => rfl
  | cons j t ih =>
    unfold toModel
    rw [List.filterMap_cons, List.filterMap_cons, h j (List.mem_cons_self j t)]
    have ht := ih fun j2 hj2 => h j2 (List.mem_cons_of_mem j hj2)
    unfold toModel at ht
    rw [ht]

lemma mem_toModel {s : SkipMap K V} {X : List Nat} {p : K × V} (hp : p ∈ toModel s X) :
    ∃ j ∈ X, ∃ nd, s.arena[j]? = some nd ∧ p = (nd.key, nd.value) := by
  rcases List.mem_filterMap.mp hp with ⟨j, hj, hent⟩
  unfold entryAt at hent
  rcases hja : s.arena[j]? with _ | nd
  · rw [hja] at hent
    exact absurd hent (by simp)
  · rw [hja] at hent
    injection hent with hent
    exact ⟨j, hj, nd, hja, hent.symm⟩

/-- Keys in the below-target part of the model are never
comparator-equal to the target. -/
lemma model_lt_ne {s : SkipMap K V} {key : K} {L1 : List Nat}
    (h1 : ∀ j ∈ L1, keyLt s key j) :
    ∀ p ∈ toModel s L1, ¬ s.comparator p.1 key = 0 := by
  intro p hp
  rcases mem_toModel hp with ⟨j, hj, nd, hnd, rfl⟩
  rcases h1 j hj with ⟨a, ha, hlt⟩
  unfold keyAt at ha
  rw [hnd] at ha
  injection ha with ha
  simp only
  rw [ha]
  omega

/-- Everything after the first at-least-target node lies strictly above
the target. -/
lemma after_head_gt {s : SkipMap K V} (hc : IsSTO s.comparator) {key : K}
    {j0 j2 : Nat} (hlt : ltIdx s j0 j2) (hj0 : ¬ keyLt s key j0) :
    ∀ b, keyAt s j2 = some b → s.comparator key b < 0 := by
  intro b hb
  rcases hlt with ⟨a, b2, ha, hb2, hab⟩
  rw [hb] at hb2
  injection hb2 with hb2
  subst hb2
  have hna : ¬ s.comparator a key < 0 := fun h => hj0 ⟨a, ha, h⟩
  by_cases h0 : s.comparator a key = 0
  · rcases (hc.eq_iff a key).mp h0 with rfl
    exact hab
  · have hka : s.comparator key a < 0 := hc.gt_of_not hna h0
    exact hc.trans key a b hka hab

/-- What Get computes on a well-formed state: the reference lookup on
the abstraction. -/
lemma Get_spec {s : SkipMap K V} {L : List Nat} (hS : Spine s L)
    (hc : IsSTO s.comparator) (key : K) :
    s.Get key = some (mLookup s.comparator key (toModel s L)) := by
  rcases search_facts hS hc key with ⟨L1, L2, hsplit, h1, h2, hno, _, hchm⟩
  have hzero2 : levelList s L2 0 = L2 :=
    levelList_zero fun j hj => hS.flenPos j (hsplit ▸ List.mem_append_right L1 hj)
  have hch0 : chainTo s 0 (lastPos L1) L2 none := by
    have h := hchm 0 (by rw [hS.maxL]; unfold DefaultMaxLevel; omega)
    rwa [levelList_zero fun j hj =>
      hS.flenPos j (hsplit ▸ List.mem_append_left L2 hj), hzero2] at h
  have hMne := model_lt_ne h1
  unfold SkipMap.Get
  rw [hno]
  show ((s.fwdGet (lastPos L1) 0).bind fun c0 => _) = _
  rw [chainTo_head hch0]
  cases L2 with
  | nil =>
    show some none = _
    rw [hsplit, toModel_append, mLookup_append hMne]
    rfl
  | cons j0 t =>
    rcases hS.keysEx j0 (hsplit ▸ List.mem_append_right L1 (List.mem_cons_self j0 t)) with
      ⟨nd, hnd⟩
    show ((s.arena[j0]?).bind fun nd =>
      if s.comparator nd.key key = 0 then pure (some nd.value) else pure none) = _
    rw [hnd]
    show (if s.comparator nd.key key = 0 then some (some nd.value) else some none) = _
    rw [hsplit, toModel_append, mLookup_append hMne, toModel_cons hnd]
    unfold mLookup
    by_cases he : s.comparator nd.key key = 0
    · rw [if_pos he, if_pos he]
    · rw [if_neg he, if_neg he]
      have hpair := hS.pairwise hc
      rw [hsplit] at hpair
      have hpairL2 := (List.pairwise_append.mp hpair).2.1
      have ht : ∀ p ∈ toModel s t, ¬ s.comparator p.1 key = 0 := by
        intro p hp
        rcases mem_toModel hp with ⟨j2, hj2, nd2, hnd2, rfl⟩
        have hlt12 : ltIdx s j0 j2 := (List.pairwise_cons.mp hpairL2).1 j2 hj2
        have hgt := after_head_gt hc hlt12 (h2 j0 (List.mem_cons_self j0 t)) nd2.key
          (by unfold keyAt; rw [hnd2]; rfl)
        have := (hc.asymm key nd2.key).mp hgt
        simp only
        omega
      rw [mLookup_none ht]

/-! ### Facts feeding the Put proof -/

lemma rlLoop_le (coins : Nat → Bool) (maxLevel : Nat) :
    ∀ (fuel level : Nat), level ≤ maxLevel - 1 →
      rlLoop coins maxLevel level fuel ≤ maxLevel - 1 := by
  intro fuel
  induction fuel with
  | zero => exact fun level h => h
  | succ fuel ih =>
    intro level h
    unfold rlLoop
    split
    case isTrue hcond => exact ih (level + 1) (by omega)
    case isFalse hcond => exact h

/-- The drawn level never reaches maxLevel (Go: the loop guard
level < s.maxLevel-1 stops promotion). -/
lemma randomLevel_le (maxLevel : Nat) (coins : Nat → Bool) :
    randomLevel maxLevel coins ≤ maxLevel - 1 :=
  rlLoop_le coins maxLevel maxLevel 0 (by omega)

/-- Unwinding one successful write of the raise loop. -/
lemma raiseUpd_spec :
    ∀ (r i : Nat) (upd : List Pos), i + r ≤ upd.length →
      ∃ upd1, raiseUpd upd i r = some upd1 ∧ upd1.length = upd.length ∧
        (∀ m, m < i → upd1[m]? = upd[m]?) ∧
        (∀ m, i ≤ m → m < i + r → upd1[m]? = some Pos.header) ∧
        (∀ m, i + r ≤ m → upd1[m]? = upd[m]?) := by
  intro r
  induction r with
  | zero =>
    intro i upd h
    exact ⟨upd, rfl, rfl, fun m _ => rfl, fun m hm1 hm2 => by omega, fun m _ => rfl⟩
  | succ r ih =>
    intro i upd h
    have hi : i < upd.length := by omega
    rcases ih (i + 1) (upd.set i .header) (by simp; omega) with
      ⟨upd1, hrun, hlen, hlow, hmid, hhigh⟩
    refine ⟨upd1, ?_, by simpa using hlen, ?_, ?_, ?_⟩
    · conv_lhs => unfold raiseUpd
      show (setPos upd i .header).bind (fun u1 => raiseUpd u1 (i + 1) r) = _
      unfold setPos
      rw [if_pos hi]
      show raiseUpd (upd.set i .header) (i + 1) r = _
      exact hrun
    · intro m hm
      rw [hlow m (by omega)]
      exact List.getElem?_set_ne (by omega)
    · intro m hm1 hm2
      rcases Nat.eq_or_lt_of_le hm1 with heq | hm3
      · rw [hlow m (by omega), ← heq]
        exact List.getElem?_set_eq_of_lt _ hi
      · exact hmid m (by omega) (by omega)
    · intro m hm
      rw [hhigh m (by omega)]
      exact List.getElem?_set_ne (by omega)

/-- A positive slice length exposes the node. -/
lemma fLen_pos_ex {s : SkipMap K V} {j : Nat} (h : 0 < fLen s j) :
    ∃ nd, s.arena[j]? = some nd ∧ nd.forward.length = fLen s j := by
  unfold fLen at h ⊢
  rcases hj : s.arena[j]? with _ | nd
  · rw [hj] at h
    simp at h
  · exact ⟨nd, rfl, rfl⟩

/-- Transfer a chain to a state that reads the same links on it. -/
lemma chainTo_transfer {s1 s2 : SkipMap K V} {i : Nat} :
    ∀ {p : Pos} {X : List Nat} {q : Ptr}, chainTo s1 i p X q →
      s2.fwdGet p i = s1.fwdGet p i →
      (∀ j ∈ X, s2.fwdGet (.node j) i = s1.fwdGet (.node j) i) →
      chainTo s2 i p X q := by
  intro p X
  induction X generalizing p with
  | nil =>
    intro q h hp _
    exact hp.trans h
  | cons j t ih =>
    intro q h hp hX
    exact ⟨hp.trans h.1, ih h.2 (hX j (List.mem_cons_self j t))
      fun j2 hj2 => hX j2 (List.mem_cons_of_mem j hj2)⟩

/-- The last position after a walk is the start or one of the walked
nodes. -/
lemma lastPosFrom_mem (p : Pos) (X : List Nat) :
    lastPosFrom p X = p ∨ ∃ j ∈ X, lastPosFrom p X = .node j := by
  induction X generalizing p with
  | nil => exact Or.inl rfl
  | cons j t ih =>
    rcases ih (.node j) with h | ⟨j2, hj2, h⟩
    · exact Or.inr ⟨j, List.mem_cons_self j t, h⟩
    · exact Or.inr ⟨j2, List.mem_cons_of_mem j hj2, h⟩

/-- Transfer a chain to a state that reads the same links on all its
positions except the last one, which now holds the new pointer q2. -/
lemma chainTo_retarget {s1 s2 : SkipMap K V} {i : Nat} :
    ∀ {p : Pos} {X : List Nat} {q1 q2 : Ptr}, chainTo s1 i p X q1 →
      X.Nodup → (∀ j ∈ X, p ≠ .node j) →
      (∀ p2, p2 = p ∨ (∃ j ∈ X, p2 = .node j) → p2 ≠ lastPosFrom p X →
        s2.fwdGet p2 i = s1.fwdGet p2 i) →
      s2.fwdGet (lastPosFrom p X) i = some q2 →
      chainTo s2 i p X q2 := by
  intro p X
  induction X generalizing p with
  | nil =>
    intro q1 q2 h hnd hp hsame hlast
    exact hlast
  | cons j t ih =>
    intro q1 q2 h hnd hp hsame hlast
    have hlastpos : lastPosFrom p (j :: t) = lastPosFrom (.node j) t := rfl
    have hlmem : ∃ j2 ∈ j :: t, lastPosFrom p (j :: t) = .node j2 := by
      rcases lastPosFrom_mem (.node j) t with h2 | ⟨j2, hj2, h2⟩
      · exact ⟨j, List.mem_cons_self j t, hlastpos.trans h2⟩
      · exact ⟨j2, List.mem_cons_of_mem j hj2, hlastpos.trans h2⟩
    have hpne : p ≠ lastPosFrom p (j :: t) := by
      rcases hlmem with ⟨j2, hj2, heq⟩
      rw [heq]
      exact hp j2 hj2
    refine ⟨(hsame p (Or.inl rfl) hpne).trans h.1, ?_⟩
    have hjt : j ∉ t := (List.nodup_cons.mp hnd).1
    refine ih h.2 (List.nodup_cons.mp hnd).2 ?_ ?_ ?_
    · intro j2 hj2 hcontra
      injection hcontra with hcontra
      exact hjt (hcontra ▸ hj2)
    · intro p2 hp2 hp2ne
      refine hsame p2 ?_ (by rwa [hlastpos])
      rcases hp2 with rfl | ⟨j2, hj2, rfl⟩
      · exact Or.inr ⟨j, List.mem_cons_self j t, rfl⟩
      · exact Or.inr ⟨j2, List.mem_cons_of_mem j hj2, rfl⟩
    · rwa [← hlastpos]

/-- Reading an old entry after appending a fresh node to the arena. -/
lemma entryAt_arena_append {s s2 : SkipMap K V} {nd1 : Node K V}
    (h : s2.arena = s.arena ++ [nd1]) {j : Nat} (hj : j < s.arena.length) :
    entryAt s2 j = entryAt s j := by
  unfold entryAt
  rw [h, List.getElem?_append_left hj]

lemma entryAt_arena_append_new {s s2 : SkipMap K V} {nd1 : Node K V}
    (h : s2.arena = s.arena ++ [nd1]) :
    entryAt s2 s.arena.length = some (nd1.key, nd1.value) := by
  unfold entryAt
  rw [h]
  simp

lemma fLen_arena_append {s s2 : SkipMap K V} {nd1 : Node K V}
    (h : s2.arena = s.arena ++ [nd1]) {j : Nat} (hj : j < s.arena.length) :
    fLen s2 j = fLen s j := by
  unfold fLen
  rw [h, List.getElem?_append_left hj]

lemma fLen_arena_append_new {s s2 : SkipMap K V} {nd1 : Node K V}
    (h : s2.arena = s.arena ++ [nd1]) :
    fLen s2 s.arena.length = nd1.forward.length := by
  unfold fLen
  rw [h]
  simp

lemma fwdGet_arena_append {s s2 : SkipMap K V} {nd1 : Node K V}
    (h : s2.arena = s.arena ++ [nd1]) (hh : s2.headerF = s.headerF) {p : Pos} {i : Nat}
    (hp : ∀ j, p = .node j → j < s.arena.length) :
    s2.fwdGet p i = s.fwdGet p i := by
  cases p with
  | header =>
    show s2.headerF[i]? = s.headerF[i]?
    rw [hh]
  | node j =>
    show (s2.arena[j]?).bind _ = (s.arena[j]?).bind _
    rw [h, List.getElem?_append_left (hp j rfl)]

lemma fwdGet_arena_append_new {s s2 : SkipMap K V} {nd1 : Node K V}
    (h : s2.arena = s.arena ++ [nd1]) (i : Nat) :
    s2.fwdGet (.node s.arena.length) i = nd1.forward[i]? := by
  show (s2.arena[s.arena.length]?).bind _ = _
  rw [h]
  simp

/-- The splice loop of Put, by downward induction on the remaining
levels: at every level from i to newLevel the loop wires the fresh node
jNew between the recorded frontier position and its old successor, never
touching any other link; levels below i have already been wired. -/
lemma spliceUp_loop {s2 : SkipMap K V} {L1 L2 : List Nat} {jNew nl : Nat}
    {upd1 : List Pos}
    (hmemL : ∀ j ∈ L1 ++ L2, j < jNew)
    (hndL : (L1 ++ L2).Nodup)
    (hupd : ∀ m, m ≤ nl → upd1[m]? = some (lastPos (levelList s2 L1 m)))
    (hfNew : fLen s2 jNew = nl + 1)
    (hhdr : nl < s2.headerF.length)
    (hchains : ∀ m, m ≤ nl →
      chainTo s2 m .header (levelList s2 L1 m ++ levelList s2 L2 m) none) :
    ∀ (r i : Nat) (t : SkipMap K V), i + r = nl + 1 →
      (∀ p, (∀ j, p = .node j → j ≠ jNew) → ∀ m, i ≤ m → t.fwdGet p m = s2.fwdGet p m) →
      (∀ m, i ≤ m → t.fwdGet (.node jNew) m = (List.replicate (nl + 1) (none : Ptr))[m]?) →
      (∀ m, m < i →
        chainTo t m .header (levelList s2 L1 m ++ jNew :: levelList s2 L2 m) none) →
      (∀ j, entryAt t j = entryAt s2 j) →
      (∀ j, fLen t j = fLen s2 j) →
      t.maxLevel = s2.maxLevel ∧ t.level = s2.level ∧ t.length = s2.length ∧
        t.comparator = s2.comparator ∧ t.arena.length = s2.arena.length ∧
        t.headerF.length = s2.headerF.length →
      ∃ tE, spliceUp t upd1 jNew i r = some tE ∧
        (∀ p, (∀ j, p = .node j → j ≠ jNew) → ∀ m, nl + 1 ≤ m →
          tE.fwdGet p m = s2.fwdGet p m) ∧
        (∀ m, m ≤ nl →
          chainTo tE m .header (levelList s2 L1 m ++ jNew :: levelList s2 L2 m) none) ∧
        (∀ j, entryAt tE j = entryAt s2 j) ∧
        (∀ j, fLen tE j = fLen s2 j) ∧
        tE.maxLevel = s2.maxLevel ∧ tE.level = s2.level ∧ tE.length = s2.length ∧
        tE.comparator = s2.comparator ∧ tE.arena.length = s2.arena.length ∧
        tE.headerF.length = s2.headerF.length := by
  intro r
  induction r with
  | zero =>
    intro i t hir hF1 hF2 hF3 hF4 hF5 hF6
    refine ⟨t, rfl, ?_, ?_, hF4, hF5, hF6⟩
    · intro p hp m hm
      exact hF1 p hp m (by omega)
    · intro m hm
      exact hF3 m (by omega)
  | succ r ih =>
    intro i t hir hF1 hF2 hF3 hF4 hF5 hF6
    have hinl : i ≤ nl := by omega
    have hndZ : (levelList s2 L1 i).Nodup :=
      (levelList_sublist s2 L1 i).nodup (List.nodup_append.mp hndL).1
    -- the frontier position at level i and the pointer ahead of it
    have hui := hupd i hinl
    have huPos : lastPos (levelList s2 L1 i) = .header ∨
        ∃ j1, lastPos (levelList s2 L1 i) = .node j1 ∧ j1 ∈ levelList s2 L1 i :=
      lastPos_cases _
    have huNotNew : ∀ j, lastPos (levelList s2 L1 i) = .node j → j ≠ jNew := by
      intro j hj
      rcases huPos with hcase | ⟨j1, hcase, hj1⟩
      · rw [hcase] at hj
        exact absurd hj (by intro hx; exact Pos.noConfusion hx)
      · rw [hcase] at hj
        injection hj with hj
        subst hj
        have := hmemL j1 (List.mem_append_left L2 (mem_levelList.mp hj1).1)
        omega
    have hsplitCh := chainTo_append.mp (hchains i hinl)
    have hpre : chainTo s2 i .header (levelList s2 L1 i)
        (headPtrD (levelList s2 L2 i) none) := hsplitCh.1
    have hsuf : chainTo s2 i (lastPos (levelList s2 L1 i))
        (levelList s2 L2 i) none := hsplitCh.2
    have hufwd : t.fwdGet (lastPos (levelList s2 L1 i)) i =
        some (headPtrD (levelList s2 L2 i) none) := by
      rw [hF1 _ huNotNew i (Nat.le_refl i)]
      exact chainTo_head hsuf
    -- first write: newNode.forward[i] = update[i].forward[i]
    have hnewEx : ∃ nd, t.arena[jNew]? = some nd ∧ i < nd.forward.length := by
      have hpos : 0 < fLen t jNew := by
        rw [hF5 jNew, hfNew]
        omega
      rcases fLen_pos_ex hpos with ⟨nd, hnd, hlen⟩
      refine ⟨nd, hnd, ?_⟩
      rw [hlen, hF5 jNew, hfNew]
      omega
    rcases fwdSet_isSome (p := .node jNew) (q := headPtrD (levelList s2 L2 i) none)
      (i := i) hnewEx with ⟨t1, ht1⟩
    have hspec1 := fwdSet_spec ht1
    -- second write: update[i].forward[i] = newNode
    have huEx : match lastPos (levelList s2 L1 i) with
        | .header => i < t1.headerF.length
        | .node j => ∃ nd, t1.arena[j]? = some nd ∧ i < nd.forward.length := by
      rcases huPos with hcase | ⟨j1, hcase, hj1⟩
      · rw [hcase]
        show i < t1.headerF.length
        rw [hspec1.2.2.2.2.2.1, hF6.2.2.2.2.2]
        omega
      · rw [hcase]
        show ∃ nd, t1.arena[j1]? = some nd ∧ i < nd.forward.length
        have hpos : 0 < fLen t1 j1 := by
          rw [hspec1.2.2.2.2.2.2.2.1 j1, hF5 j1]
          have := (mem_levelList.mp hj1).2
          omega
        rcases fLen_pos_ex hpos with ⟨nd, hnd, hlen⟩
        refine ⟨nd, hnd, ?_⟩
        rw [hlen, hspec1.2.2.2.2.2.2.2.1 j1, hF5 j1]
        exact (mem_levelList.mp hj1).2
    rcases fwdSet_isSome (q := some jNew) huEx with ⟨t2, ht2⟩
    have hspec2 := fwdSet_spec ht2
    -- frame facts for the two writes
    have hfg2 : ∀ p m, p ≠ lastPos (levelList s2 L1 i) ∨ m ≠ i →
        t2.fwdGet p m = t1.fwdGet p m := fun p m hpm =>
      hspec2.2.2.2.2.2.2.2.2.2 p m hpm
    have hfg1 : ∀ p m, p ≠ .node jNew ∨ m ≠ i → t1.fwdGet p m = t.fwdGet p m :=
      fun p m hpm => hspec1.2.2.2.2.2.2.2.2.2 p m hpm
    -- invariant after the two writes, at i + 1
    have hG1 : ∀ p, (∀ j, p = .node j → j ≠ jNew) → ∀ m, i + 1 ≤ m →
        t2.fwdGet p m = s2.fwdGet p m := by
      intro p hp m hm
      rw [hfg2 p m (Or.inr (by omega)), hfg1 p m (Or.inr (by omega))]
      exact hF1 p hp m (by omega)
    have hG2 : ∀ m, i + 1 ≤ m →
        t2.fwdGet (.node jNew) m = (List.replicate (nl + 1) (none : Ptr))[m]? := by
      intro m hm
      rw [hfg2 _ m (Or.inr (by omega)), hfg1 _ m (Or.inr (by omega))]
      exact hF2 m (by omega)
    have hsame_i : ∀ p2, p2 ≠ lastPos (levelList s2 L1 i) →
        (∀ j, p2 = .node j → j ≠ jNew) → t2.fwdGet p2 i = s2.fwdGet p2 i := by
      intro p2 hne hnotnew
      rw [hfg2 p2 i (Or.inl hne), hfg1 p2 i (Or.inl (by
        intro hcontra
        exact hnotnew jNew hcontra rfl))]
      exact hF1 p2 hnotnew i (Nat.le_refl i)
    have hnewi : t2.fwdGet (.node jNew) i = some (headPtrD (levelList s2 L2 i) none) := by
      rw [hfg2 _ i (Or.inl (by
        intro hcontra
        exact huNotNew jNew hcontra.symm rfl))]
      exact hspec1.2.2.2.2.2.2.2.2.1
    have hlasti : t2.fwdGet (lastPos (levelList s2 L1 i)) i = some (some jNew) :=
      hspec2.2.2.2.2.2.2.2.2.1
    have hG3 : ∀ m, m < i + 1 →
        chainTo t2 m .header (levelList s2 L1 m ++ jNew :: levelList s2 L2 m) none := by
      intro m hm
      rcases Nat.lt_or_ge m i with hmi | hmi
      · -- lower levels: both writes were at level i, chains untouched
        refine chainTo_transfer (hF3 m hmi) ?_ ?_
        · rw [hfg2 _ m (Or.inr (by omega)), hfg1 _ m (Or.inr (by omega))]
        · intro j hj
          rw [hfg2 _ m (Or.inr (by omega)), hfg1 _ m (Or.inr (by omega))]
      · -- level i itself: assemble the spliced chain
        have hmi2 : m = i := by omega
        subst hmi2
        have hpref : chainTo t2 m .header (levelList s2 L1 m) (some jNew) := by
          refine chainTo_retarget hpre hndZ (fun j _ => by
            intro hcontra
            exact Pos.noConfusion hcontra) ?_ ?_
          · intro p2 hp2 hp2ne
            refine hsame_i p2 hp2ne ?_
            intro j hj
            rcases hp2 with rfl | ⟨j2, hj2, rfl⟩
            · exact absurd hj (by intro hx; exact Pos.noConfusion hx)
            · injection hj with hj
              subst hj
              have := hmemL j2 (List.mem_append_left L2 (mem_levelList.mp hj2).1)
              omega
          · exact hlasti
        have htail : chainTo t2 m (.node jNew) (levelList s2 L2 m) none := by
          cases hcase : levelList s2 L2 m with
          | nil =>
            show t2.fwdGet (.node jNew) m = some none
            rw [hnewi, hcase]
            rfl
          | cons j2 t2l =>
            rw [hcase] at hsuf
            refine ⟨by rw [hnewi, hcase]; rfl, ?_⟩
            refine chainTo_transfer hsuf.2 ?_ ?_
            · refine hsame_i (.node j2) ?_ ?_
              · intro hcontra
                rcases huPos with hcase2 | ⟨j1, hcase2, hj1⟩
                · rw [hcase2] at hcontra
                  exact Pos.noConfusion hcontra
                · rw [hcase2] at hcontra
                  injection hcontra with hcontra
                  have hj2L2 : j2 ∈ L2 := by
                    have := mem_levelList.mp (by rw [hcase]; exact List.mem_cons_self j2 t2l)
                    exact this.1
                  have hj1L1 : j1 ∈ L1 := (mem_levelList.mp hj1).1
                  have hdisj := (List.nodup_append.mp hndL).2.2
                  exact hdisj hj1L1 (hcontra ▸ hj2L2)
              · intro j hj
                injection hj with hj
                subst hj
                have hj2L2 : j2 ∈ L2 := by
                  have := mem_levelList.mp (by rw [hcase]; exact List.mem_cons_self j2 t2l)
                  exact this.1
                have := hmemL j2 (List.mem_append_right L1 hj2L2)
                omega
            · intro j hj
              have hjL2 : j ∈ L2 := by
                have hjmem : j ∈ levelList s2 L2 m := by
                  rw [hcase]
                  exact List.mem_cons_of_mem j2 hj
                exact (mem_levelList.mp hjmem).1
              refine hsame_i (.node j) ?_ ?_
              · intro hcontra
                rcases huPos with hcase2 | ⟨j1, hcase2, hj1⟩
                · rw [hcase2] at hcontra
                  exact Pos.noConfusion hcontra
                · rw [hcase2] at hcontra
                  injection hcontra with hcontra
                  have hj1L1 : j1 ∈ L1 := (mem_levelList.mp hj1).1
                  have hdisj := (List.nodup_append.mp hndL).2.2
                  exact hdisj hj1L1 (hcontra ▸ hjL2)
              · intro j3 hj3
                injection hj3 with hj3
                subst hj3
                have := hmemL j (List.mem_append_right L1 hjL2)
                omega
        refine chainTo_append.mpr ⟨?_, ?_⟩
        · show chainTo t2 m .header (levelList s2 L1 m)
            (headPtrD (jNew :: levelList s2 L2 m) none)
          exact hpref
        · exact ⟨hlasti, htail⟩
    -- unfold one loop iteration
    have hstep : spliceUp t upd1 jNew i (r + 1) = spliceUp t2 upd1 jNew (i + 1) r := by
      conv_lhs => unfold spliceUp
      rw [hui]
      show (t.fwdGet (lastPos (levelList s2 L1 i)) i).bind _ = _
      rw [hufwd]
      show (t.fwdSet (.node jNew) i (headPtrD (levelList s2 L2 i) none)).bind _ = _
      rw [ht1]
      show (t1.fwdSet (lastPos (levelList s2 L1 i)) i (some jNew)).bind _ = _
      rw [ht2]
      rfl
    rw [hstep]
    refine ih (i + 1) t2 (by omega) hG1 hG2 hG3 ?_ ?_ ?_
    · intro j
      rw [hspec2.2.2.2.2.2.2.1 j, hspec1.2.2.2.2.2.2.1 j]
      exact hF4 j
    · intro j
      rw [hspec2.2.2.2.2.2.2.2.1 j, hspec1.2.2.2.2.2.2.2.1 j]
      exact hF5 j
    · refine ⟨?_, ?_, ?_, ?_, ?_, ?_⟩
      · rw [hspec2.1, hspec1.1, hF6.1]
      · rw [hspec2.2.1, hspec1.2.1, hF6.2.1]
      · rw [hspec2.2.2.1, hspec1.2.2.1, hF6.2.2.1]
      · rw [hspec2.2.2.2.1, hspec1.2.2.2.1, hF6.2.2.2.1]
      · rw [hspec2.2.2.2.2.1, hspec1.2.2.2.2.1, hF6.2.2.2.2.1]
      · rw [hspec2.2.2.2.2.2.1, hspec1.2.2.2.2.2.1, hF6.2.2.2.2.2]

lemma keyAt_congr_of_entry {s1 s2 : SkipMap K V} {j : Nat}
    (h : entryAt s1 j = entryAt s2 j) : keyAt s1 j = keyAt s2 j := by
  rw [keyAt_entryAt, keyAt_entryAt, h]

lemma chain'_ltIdx_congr {s1 s2 : SkipMap K V} {L : List Nat}
    (hk : ∀ j ∈ L, keyAt s1 j = keyAt s2 j) (hcmp : s1.comparator = s2.comparator) :
    List.Chain' (ltIdx s2) L → List.Chain' (ltIdx s1) L := by
  induction L with
  | nil => exact fun _ => List.chain'_nil
  | cons a t ih =>
    intro h
    rw [List.chain'_cons'] at h ⊢
    refine ⟨?_, ih (fun j hj => hk j (List.mem_cons_of_mem a hj)) h.2⟩
    intro y hy
    rcases h.1 y hy with ⟨x, z, hx, hz, hxz⟩
    refine ⟨x, z, ?_, ?_, ?_⟩
    · rw [hk a (List.mem_cons_self a t)]
      exact hx
    · rw [hk y (List.mem_cons_of_mem a (List.mem_of_mem_head? hy))]
      exact hz
    · rw [hcmp]
      exact hxz

lemma fLen_bounds_of_index {s : SkipMap K V} {lo hi : Nat}
    (h : ∀ j, j < s.arena.length → lo ≤ fLen s j ∧ fLen s j ≤ hi) :
    ∀ nd ∈ s.arena, lo ≤ nd.forward.length ∧ nd.forward.length ≤ hi := by
  intro nd hnd
  rcases List.mem_iff_getElem.mp hnd with ⟨j, hj, hval⟩
  have hb := h j hj
  unfold fLen at hb
  rw [List.getElem?_eq_getElem hj, hval] at hb
  exact hb

lemma index_bounds_of_fLen {s : SkipMap K V} {lo hi : Nat}
    (h : ∀ nd ∈ s.arena, lo ≤ nd.forward.length ∧ nd.forward.length ≤ hi)
    {j : Nat} (hj : j < s.arena.length) : lo ≤ fLen s j ∧ fLen s j ≤ hi := by
  unfold fLen
  rw [List.getElem?_eq_getElem hj]
  exact h _ (List.getElem_mem hj)

/-- The insert path of Put after the level draw, stated against the
state with the level already raised and the fresh node appended at the
next index: the splice loop succeeds, and the result (after the length
bump) is well formed on the spine with the new index placed between the
two halves of the key split. -/
lemma putCore {s : SkipMap K V} {L L1 L2 : List Nat} (hS : Spine s L)
    (hc : IsSTO s.comparator) {key : K} {value : V} {nl : Nat}
    (hsplit : L = L1 ++ L2)
    (h1 : ∀ j ∈ L1, keyLt s key j)
    (h2 : ∀ j ∈ L2, ¬ keyLt s key j)
    (hgt : ∀ j ∈ L2, ∀ b, keyAt s j = some b → s.comparator key b < 0)
    (hnl : nl + 1 ≤ s.maxLevel)
    {upd2 : List Pos}
    (hvals : ∀ m, m ≤ nl → upd2[m]? = some (lastPos (levelList s L1 m))) :
    ∃ tE, spliceUp
        { s with
            level := max s.level nl
            arena := s.arena ++ [⟨key, value, List.replicate (nl + 1) none⟩] }
        upd2 s.arena.length 0 (nl + 1) = some tE ∧
      Spine { tE with length := tE.length + 1 } (L1 ++ s.arena.length :: L2) ∧
      tE.comparator = s.comparator ∧
      tE.length = s.length ∧
      tE.level = max s.level nl ∧
      tE.maxLevel = s.maxLevel ∧
      toModel tE (L1 ++ s.arena.length :: L2) =
        toModel s L1 ++ (key, value) :: toModel s L2 ∧
      (∀ j, j < s.arena.length → entryAt tE j = entryAt s j) ∧
      entryAt tE s.arena.length = some (key, value) := by
  have hmaxL := hS.maxL
  have hlvl := hS.lvl
  have hmemL : ∀ j ∈ L1 ++ L2, j < s.arena.length := fun j hj => hS.mem j (hsplit ▸ hj)
  have hndL : (L1 ++ L2).Nodup := hsplit ▸ hS.nodup hc
  have hs2arena : ({ s with
      level := max s.level nl
      arena := s.arena ++ [⟨key, value, List.replicate (nl + 1) none⟩] } :
        SkipMap K V).arena =
      s.arena ++ [⟨key, value, List.replicate (nl + 1) none⟩] := rfl
  set s2 : SkipMap K V :=
    { s with
        level := max s.level nl
        arena := s.arena ++ [⟨key, value, List.replicate (nl + 1) none⟩] } with hs2
  have hs2hdr : s2.headerF = s.headerF := rfl
  have hfL : ∀ j, j < s.arena.length → fLen s2 j = fLen s j := fun j hj =>
    fLen_arena_append hs2arena hj
  have hfNew : fLen s2 s.arena.length = nl + 1 := by
    rw [fLen_arena_append_new hs2arena]
    simp
  have hfwdOld : ∀ (p : Pos), (∀ j, p = .node j → j < s.arena.length) →
      ∀ i, s2.fwdGet p i = s.fwdGet p i := fun p hp i =>
    fwdGet_arena_append hs2arena hs2hdr hp
  have hlv1 : ∀ m, levelList s2 L1 m = levelList s L1 m := fun m =>
    levelList_congr fun j hj => hfL j (hmemL j (List.mem_append_left L2 hj))
  have hlv2 : ∀ m, levelList s2 L2 m = levelList s L2 m := fun m =>
    levelList_congr fun j hj => hfL j (hmemL j (List.mem_append_right L1 hj))
  have hchains2 : ∀ m, m ≤ nl →
      chainTo s2 m .header (levelList s2 L1 m ++ levelList s2 L2 m) none := by
    intro m hm
    have hch := hS.chains m (by omega)
    rw [hsplit, levelList_append] at hch
    rw [hlv1, hlv2]
    refine chainTo_transfer hch (hfwdOld .header (by intro j hj; exact Pos.noConfusion hj) m) ?_
    intro j hj
    refine hfwdOld (.node j) ?_ m
    intro j2 hj2
    injection hj2 with hj2
    subst hj2
    rcases List.mem_append.mp hj with hj | hj
    · exact hmemL j (List.mem_append_left L2 (mem_levelList.mp hj).1)
    · exact hmemL j (List.mem_append_right L1 (mem_levelList.mp hj).1)
  have hloop := @spliceUp_loop K V s2 L1 L2 s.arena.length nl upd2
    hmemL hndL
    (by
      intro m hm
      rw [hlv1 m]
      exact hvals m hm)
    hfNew
    (by
      rw [hs2hdr, hS.hdrLen]
      omega)
    hchains2 (nl + 1) 0 s2 (by omega)
    (fun p hp m hm => rfl)
    (by
      intro m hm
      exact fwdGet_arena_append_new hs2arena m)
    (fun m hm => absurd hm (by omega))
    (fun j => rfl) (fun j => rfl)
    ⟨rfl, rfl, rfl, rfl, rfl, rfl⟩
  rcases hloop with ⟨tE, hrun, hfwdHigh, hchE, hentE, hfE, hmaxE, hlevelE, hlenE,
    hcmpE, harE, hhdrE⟩
  have hentEs : ∀ j, j < s.arena.length → entryAt tE j = entryAt s j := by
    intro j hj
    rw [hentE j]
    exact entryAt_arena_append hs2arena hj
  have hentNew : entryAt tE s.arena.length = some (key, value) := by
    rw [hentE s.arena.length]
    exact entryAt_arena_append_new hs2arena
  have hfEs : ∀ j, j < s.arena.length → fLen tE j = fLen s j := by
    intro j hj
    rw [hfE j]
    exact hfL j hj
  have hfENew : fLen tE s.arena.length = nl + 1 := by
    rw [hfE _]
    exact hfNew
  have harE2 : tE.arena.length = s.arena.length + 1 := by
    rw [harE, hs2arena]
    simp
  have hlevelE2 : tE.level = max s.level nl := hlevelE
  have hmaxE2 : tE.maxLevel = s.maxLevel := hmaxE
  -- the new spine list and the final state
  have hkF : ∀ j ∈ L1 ++ L2, keyAt tE j = keyAt s j := fun j hj =>
    keyAt_congr_of_entry (hentEs j (hmemL j hj))
  have hkNew : keyAt tE s.arena.length = some key := by
    rw [keyAt_entryAt, hentNew]
    rfl
  have hlvF1 : ∀ m, levelList tE L1 m = levelList s L1 m := fun m =>
    levelList_congr fun j hj => hfEs j (hmemL j (List.mem_append_left L2 hj))
  have hlvF2 : ∀ m, levelList tE L2 m = levelList s L2 m := fun m =>
    levelList_congr fun j hj => hfEs j (hmemL j (List.mem_append_right L1 hj))
  have hlvFull : ∀ m, levelList tE (L1 ++ s.arena.length :: L2) m =
      levelList s L1 m ++
        (if m < nl + 1 then s.arena.length :: levelList s L2 m
         else levelList s L2 m) := by
    intro m
    rw [levelList_append, hlvF1, levelList_cons, hfENew, hlvF2]
  have hLlen : L.length = L1.length + L2.length := by
    rw [hsplit, List.length_append]
  have hchainsF : ∀ m, m < s.maxLevel →
      chainTo tE m .header (levelList tE (L1 ++ s.arena.length :: L2) m) none := by
    intro m hm
    rcases Nat.lt_or_ge m (nl + 1) with hml | hmh
    · rw [hlvFull m, if_pos hml]
      have h := hchE m (by omega)
      rwa [hlv1, hlv2] at h
    · rw [hlvFull m, if_neg (by omega)]
      have hch := hS.chains m hm
      rw [hsplit, levelList_append] at hch
      refine chainTo_transfer hch ?_ ?_
      · rw [hfwdHigh .header (by intro j hj; exact Pos.noConfusion hj) m (by omega)]
        exact hfwdOld .header (by intro j hj; exact Pos.noConfusion hj) m
      · intro j hj
        have hjlt : j < s.arena.length := by
          rcases List.mem_append.mp hj with hj | hj
          · exact hmemL j (List.mem_append_left L2 (mem_levelList.mp hj).1)
          · exact hmemL j (List.mem_append_right L1 (mem_levelList.mp hj).1)
        have hne : ∀ j2, Pos.node j = Pos.node j2 → j2 ≠ s.arena.length := by
          intro j2 hj2
          injection hj2 with hj2
          subst hj2
          omega
        rw [hfwdHigh (.node j) hne m (by omega)]
        exact hfwdOld (.node j) (by
          intro j2 hj2
          injection hj2 with hj2
          subst hj2
          exact hjlt) m
  have hsortF : List.Chain' (ltIdx tE) (L1 ++ s.arena.length :: L2) := by
    have hsorted := hS.sorted
    rw [hsplit] at hsorted
    rcases List.chain'_append.mp hsorted with ⟨hc1, hc2, hbd⟩
    refine List.chain'_append.mpr ⟨?_, ?_, ?_⟩
    · exact chain'_ltIdx_congr
        (fun j hj => hkF j (List.mem_append_left L2 hj)) hcmpE hc1
    · refine List.chain'_cons'.mpr ⟨?_, ?_⟩
      · intro y hy
        have hyL2 : y ∈ L2 := List.mem_of_mem_head? hy
        rcases hS.keysEx y (hsplit ▸ List.mem_append_right L1 hyL2) with ⟨nd, hnd⟩
        have hky : keyAt s y = some nd.key := by
          unfold keyAt
          rw [hnd]
          rfl
        refine ⟨key, nd.key, hkNew, ?_, ?_⟩
        · rw [hkF y (List.mem_append_right L1 hyL2)]
          exact hky
        · rw [hcmpE]
          exact hgt y hyL2 nd.key hky
      · exact chain'_ltIdx_congr
          (fun j hj => hkF j (List.mem_append_right L1 hj)) hcmpE hc2
    · intro x hx y hy
      have hxL1 : x ∈ L1 := List.mem_of_mem_getLast? hx
      have hyNew : y = s.arena.length := by
        simp only [List.head?_cons, Option.mem_def, Option.some.injEq] at hy
        exact hy.symm
      subst hyNew
      rcases h1 x hxL1 with ⟨a, ha, hlt⟩
      refine ⟨a, key, ?_, hkNew, ?_⟩
      · rw [hkF x (List.mem_append_left L2 hxL1)]
        exact ha
      · rw [hcmpE]
        exact hlt
  refine ⟨tE, hrun, ?_, hcmpE, hlenE, hlevelE2, hmaxE2, ?_, hentEs, hentNew⟩
  · -- the spine of the final state
    refine ⟨?_, ?_, ?_, ?_, ?_, ?_, ?_, ?_, ?_, ?_, ?_⟩
    · show tE.headerF.length = tE.maxLevel
      rw [hhdrE, hmaxE2, hs2hdr, hS.hdrLen]
    · show tE.maxLevel = DefaultMaxLevel
      rw [hmaxE2, hmaxL]
    · intro j hj
      show j < tE.arena.length
      rw [harE2]
      rcases List.mem_append.mp hj with hj | hj
      · have := hmemL j (List.mem_append_left L2 hj)
        omega
      · rcases List.mem_cons.mp hj with rfl | hj
        · omega
        · have := hmemL j (List.mem_append_right L1 hj)
          omega
    · intro j hj
      show 1 ≤ fLen tE j
      rcases List.mem_append.mp hj with hj | hj
      · rw [hfEs j (hmemL j (List.mem_append_left L2 hj))]
        exact hS.flenPos j (hsplit ▸ List.mem_append_left L2 hj)
      · rcases List.mem_cons.mp hj with rfl | hj
        · rw [hfENew]
          omega
        · rw [hfEs j (hmemL j (List.mem_append_right L1 hj))]
          exact hS.flenPos j (hsplit ▸ List.mem_append_right L1 hj)
    · intro j hj
      show fLen tE j ≤ tE.level + 1
      rw [hlevelE2]
      rcases List.mem_append.mp hj with hj | hj
      · rw [hfEs j (hmemL j (List.mem_append_left L2 hj))]
        have := hS.flenLe j (hsplit ▸ List.mem_append_left L2 hj)
        omega
      · rcases List.mem_cons.mp hj with rfl | hj
        · rw [hfENew]
          omega
        · rw [hfEs j (hmemL j (List.mem_append_right L1 hj))]
          have := hS.flenLe j (hsplit ▸ List.mem_append_right L1 hj)
          omega
    · show ∀ nd ∈ tE.arena, 1 ≤ nd.forward.length ∧ nd.forward.length ≤ tE.maxLevel
      refine fLen_bounds_of_index ?_
      intro j hj
      rw [harE2] at hj
      rcases Nat.lt_or_ge j s.arena.length with hjs | hjs
      · rw [hfEs j hjs, hmaxE2]
        exact index_bounds_of_fLen hS.flenAll hjs
      · have hje : j = s.arena.length := by omega
        subst hje
        rw [hfENew, hmaxE2]
        omega
    · intro m hm
      have hm2 : m < s.maxLevel := by
        rw [show ({ tE with length := tE.length + 1 } : SkipMap K V).maxLevel =
          tE.maxLevel from rfl, hmaxE2] at hm
        exact hm
      rw [show levelList ({ tE with length := tE.length + 1 } : SkipMap K V)
        (L1 ++ s.arena.length :: L2) m = levelList tE (L1 ++ s.arena.length :: L2) m
        from levelList_congr fun j _ => rfl]
      exact chainTo_transfer (hchainsF m hm2) rfl (fun j _ => rfl)
    · exact chain'_ltIdx_congr (fun j _ => rfl) rfl hsortF
    · show tE.length + 1 = (L1 ++ s.arena.length :: L2).length
      rw [hlenE, hS.len, hLlen]
      simp only [List.length_append, List.length_cons]
      omega
    · show tE.level < tE.maxLevel
      rw [hlevelE2, hmaxE2]
      have : s.level < s.maxLevel := hS.lvl
      omega
    · show tE.level = 0 ∨
        levelList ({ tE with length := tE.length + 1 } : SkipMap K V)
          (L1 ++ s.arena.length :: L2) tE.level ≠ []
      rw [show levelList ({ tE with length := tE.length + 1 } : SkipMap K V)
        (L1 ++ s.arena.length :: L2) tE.level =
          levelList tE (L1 ++ s.arena.length :: L2) tE.level
        from levelList_congr fun j _ => rfl]
      rw [hlevelE2]
      rcases Nat.le_total nl s.level with hcase | hcase
      · rw [Nat.max_eq_left hcase]
        rcases hS.lvlTop with h0 | hne
        · exact Or.inl h0
        · refine Or.inr ?_
          rcases List.exists_mem_of_ne_nil _ hne with ⟨j, hj⟩
          have hjm := mem_levelList.mp hj
          have hjL : j ∈ L := hjm.1
          have hjlt : j < s.arena.length := hS.mem j hjL
          refine List.ne_nil_of_mem (a := j) ?_
          refine mem_levelList.mpr ⟨?_, ?_⟩
          · rw [hsplit] at hjL
            rcases List.mem_append.mp hjL with hj2 | hj2
            · exact List.mem_append_left _ hj2
            · exact List.mem_append_right _ (List.mem_cons_of_mem _ hj2)
          · rw [hfEs j hjlt]
            exact hjm.2
      · rw [Nat.max_eq_right hcase]
        refine Or.inr (List.ne_nil_of_mem (a := s.arena.length) ?_)
        refine mem_levelList.mpr ⟨?_, ?_⟩
        · exact List.mem_append_right _ (List.mem_cons_self _ _)
        · rw [hfENew]
          omega
  · -- the model of the final state
    rw [toModel_append, toModel_cons_entry hentNew]
    rw [toModel_congr (w := s) fun j hj =>
      hentEs j (hmemL j (List.mem_append_left L2 hj))]
    rw [toModel_congr (w := s) fun j hj =>
      hentEs j (hmemL j (List.mem_append_right L1 hj))]

/-- Reference insertion on the sorted association list: overwrite the
value in place on the comparator-equal key, place the pair before the
first greater key otherwise. -/
def mInsert (c : K → K → Int) (key : K) (value : V) : List (K × V) → List (K × V)
  | [] => [(key, value)]
  | p :: t =>
      if c p.1 key < 0 then p :: mInsert c key value t
      else if c p.1 key = 0 then (p.1, value) :: t
      else (key, value) :: p :: t

lemma mInsert_append {c : K → K → Int} {key : K} {value : V} {M1 M2 : List (K × V)}
    (h : ∀ p ∈ M1, c p.1 key < 0) :
    mInsert c key value (M1 ++ M2) = M1 ++ mInsert c key value M2 := by
  induction M1 with
  | nil => rfl
  | cons p t ih =>
    show mInsert c key value (p :: (t ++ M2)) = _
    conv_lhs => unfold mInsert
    rw [if_pos (h p (List.mem_cons_self p t))]
    rw [ih fun q hq => h q (List.mem_cons_of_mem p hq)]
    rfl

/-- Keys in the below-target part of the model compare strictly below
the target. -/
lemma model_lt {s : SkipMap K V} {key : K} {L1 : List Nat}
    (h1 : ∀ j ∈ L1, keyLt s key j) :
    ∀ p ∈ toModel s L1, s.comparator p.1 key < 0 := by
  intro p hp
  rcases mem_toModel hp with ⟨j, hj, nd, hnd, rfl⟩
  rcases h1 j hj with ⟨a, ha, hlt⟩
  unfold keyAt at ha
  rw [hnd] at ha
  injection ha with ha
  simp only
  rw [ha]
  exact hlt

/-- Overwriting one node's value in place: nothing but that entry's
value changes, and the spine is preserved verbatim. -/
lemma overwrite_spine {s : SkipMap K V} {L : List Nat} (hS : Spine s L)
    (hc : IsSTO s.comparator) {j0 : Nat} {nd : Node K V} (value : V)
    (hj0 : j0 < s.arena.length) (hnd : s.arena[j0]? = some nd) :
    Spine { s with arena := s.arena.set j0 { nd with value := value } } L ∧
    (∀ p i, SkipMap.fwdGet
      { s with arena := s.arena.set j0 { nd with value := value } } p i = s.fwdGet p i) ∧
    (∀ j, j ≠ j0 → entryAt
      { s with arena := s.arena.set j0 { nd with value := value } } j = entryAt s j) ∧
    entryAt { s with arena := s.arena.set j0 { nd with value := value } } j0 =
      some (nd.key, value) ∧
    (∀ j, fLen { s with arena := s.arena.set j0 { nd with value := value } } j = fLen s j) ∧
    (∀ j, keyAt { s with arena := s.arena.set j0 { nd with value := value } } j = keyAt s j) := by
  set s3 : SkipMap K V := { s with arena := s.arena.set j0 { nd with value := value } }
    with hs3
  have hs3arena : s3.arena = s.arena.set j0 { nd with value := value } := rfl
  have hfwd : ∀ (p : Pos) (i : Nat), s3.fwdGet p i = s.fwdGet p i := by
    intro p i
    cases p with
    | header => rfl
    | node j =>
      show (s3.arena[j]?).bind _ = (s.arena[j]?).bind _
      rw [hs3arena]
      by_cases hjj : j0 = j
      · subst hjj
        rw [List.getElem?_set_eq_of_lt _ hj0, hnd]
        rfl
      · rw [List.getElem?_set_ne hjj]
  have hent_ne : ∀ j, j ≠ j0 → entryAt s3 j = entryAt s j := by
    intro j hj
    unfold entryAt
    rw [hs3arena, List.getElem?_set_ne (fun hcontra => hj hcontra.symm)]
  have hent0 : entryAt s3 j0 = some (nd.key, value) := by
    unfold entryAt
    rw [hs3arena, List.getElem?_set_eq_of_lt _ hj0]
    rfl
  have hflen : ∀ j, fLen s3 j = fLen s j := by
    intro j
    unfold fLen
    rw [hs3arena]
    by_cases hjj : j0 = j
    · subst hjj
      rw [List.getElem?_set_eq_of_lt _ hj0, hnd]
      rfl
    · rw [List.getElem?_set_ne hjj]
  have hkey : ∀ j, keyAt s3 j = keyAt s j := by
    intro j
    rcases Decidable.em (j = j0) with rfl | hj
    · rw [keyAt_entryAt, keyAt_entryAt, hent0]
      unfold entryAt
      rw [hnd]
      rfl
    · exact keyAt_congr_of_entry (hent_ne j hj)
  have harena_len : s3.arena.length = s.arena.length := by
    rw [hs3arena]
    simp
  refine ⟨?_, hfwd, hent_ne, hent0, hflen, hkey⟩
  refine ⟨?_, hS.maxL, ?_, ?_, ?_, ?_, ?_, ?_, hS.len, hS.lvl, ?_⟩
  · show s3.headerF.length = s3.maxLevel
    exact hS.hdrLen
  · intro j hj
    show j < s3.arena.length
    rw [harena_len]
    exact hS.mem j hj
  · intro j hj
    rw [hflen j]
    exact hS.flenPos j hj
  · intro j hj
    rw [hflen j]
    exact hS.flenLe j hj
  · refine fLen_bounds_of_index ?_
    intro j hj
    rw [harena_len] at hj
    rw [hflen j]
    exact index_bounds_of_fLen hS.flenAll hj
  · intro m hm
    rw [show levelList s3 L m = levelList s L m from levelList_congr fun j _ => hflen j]
    exact chainTo_transfer (hS.chains m hm) (hfwd .header m) fun j _ => hfwd (.node j) m
  · exact chain'_ltIdx_congr (fun j _ => hkey j) rfl hS.sorted
  · rcases hS.lvlTop with h0 | hne
    · exact Or.inl h0
    · refine Or.inr ?_
      rw [show levelList s3 L s3.level = levelList s L s.level from
        levelList_congr fun j _ => hflen j]
      exact hne

/-- Running putFresh when the drawn level raises the current level. -/
lemma putFresh_run_raise {s : SkipMap K V} {key : K} {value : V} {coins : Nat → Bool}
    {upd1 upd2 : List Pos} {nl : Nat}
    (hnl : randomLevel s.maxLevel coins = nl)
    (hraise : s.level < nl)
    (hraiseRun : raiseUpd upd1 (s.level + 1) (nl - s.level) = some upd2)
    {tE : SkipMap K V}
    (hsplice : spliceUp
        { s with
            level := nl
            arena := s.arena ++ [⟨key, value, List.replicate (nl + 1) none⟩] }
        upd2 s.arena.length 0 (nl + 1) = some tE) :
    putFresh s key value coins upd1 = some { tE with length := tE.length + 1 } := by
  unfold putFresh
  rw [hnl, if_pos hraise, hraiseRun]
  simp only [Option.bind_eq_bind, Option.some_bind, Option.pure_def]
  rw [hsplice]
  rfl

/-- Running putFresh when the drawn level keeps the current level. -/
lemma putFresh_run_keep {s : SkipMap K V} {key : K} {value : V} {coins : Nat → Bool}
    {upd1 : List Pos} {nl : Nat}
    (hnl : randomLevel s.maxLevel coins = nl)
    (hraise : ¬ s.level < nl)
    {tE : SkipMap K V}
    (hsplice : spliceUp
        { s with arena := s.arena ++ [⟨key, value, List.replicate (nl + 1) none⟩] }
        upd1 s.arena.length 0 (nl + 1) = some tE) :
    putFresh s key value coins upd1 = some { tE with length := tE.length + 1 } := by
  unfold putFresh
  rw [hnl, if_neg hraise]
  simp only [Option.bind_eq_bind, Option.some_bind, Option.pure_def]
  rw [hsplice]
  rfl

/-- Reducing Put through a finished search, when the level-0 successor
is nil: the fresh-insert path runs. -/
lemma Put_run_none {s : SkipMap K V} {key : K} {value : V} {coins : Nat → Bool}
    {cur : Pos} {upd1 : List Pos}
    (hsearch : searchDown s key s.level .header (List.replicate s.maxLevel Pos.header) =
      some (cur, upd1))
    (hc0 : s.fwdGet cur 0 = some none) :
    s.Put key value coins = putFresh s key value coins upd1 := by
  show (do
    let x ← searchDown s key s.level Pos.header (List.replicate s.maxLevel Pos.header)
    match x with
      | (cur, upd) => do
        let c0 ← s.fwdGet cur 0
        match c0 with
          | some j => do
            let nd ← s.arena[j]?
            if s.comparator nd.key key = 0 then
                pure { s with arena := s.arena.set j { nd with value := value } }
              else putFresh s key value coins upd
          | none => putFresh s key value coins upd) = _
  rw [hsearch]
  show (s.fwdGet cur 0).bind _ = _
  rw [hc0]
  rfl

/-- Reducing Put through a finished search, when the level-0 successor
holds an equal key: the in-place value overwrite runs. -/
lemma Put_run_hit {s : SkipMap K V} {key : K} {value : V} {coins : Nat → Bool}
    {cur : Pos} {upd1 : List Pos} {j : Nat} {nd : Node K V}
    (hsearch : searchDown s key s.level .header (List.replicate s.maxLevel Pos.header) =
      some (cur, upd1))
    (hc0 : s.fwdGet cur 0 = some (some j))
    (hnd : s.arena[j]? = some nd)
    (heq : s.comparator nd.key key = 0) :
    s.Put key value coins =
      some { s with arena := s.arena.set j { nd with value := value } } := by
  show (do
    let x ← searchDown s key s.level Pos.header (List.replicate s.maxLevel Pos.header)
    match x with
      | (cur, upd) => do
        let c0 ← s.fwdGet cur 0
        match c0 with
          | some j => do
            let nd ← s.arena[j]?
            if s.comparator nd.key key = 0 then
                pure { s with arena := s.arena.set j { nd with value := value } }
              else putFresh s key value coins upd
          | none => putFresh s key value coins upd) = _
  rw [hsearch]
  show (s.fwdGet cur 0).bind _ = _
  rw [hc0]
  show (s.arena[j]?).bind _ = _
  rw [hnd]
  show (if s.comparator nd.key key = 0 then _ else _) = _
  rw [if_pos heq]
  rfl

/-- Reducing Put through a finished search, when the level-0 successor
holds a different key: the fresh-insert path runs. -/
lemma Put_run_miss {s : SkipMap K V} {key : K} {value : V} {coins : Nat → Bool}
    {cur : Pos} {upd1 : List Pos} {j : Nat} {nd : Node K V}
    (hsearch : searchDown s key s.level .header (List.replicate s.maxLevel Pos.header) =
      some (cur, upd1))
    (hc0 : s.fwdGet cur 0 = some (some j))
    (hnd : s.arena[j]? = some nd)
    (hne : ¬ s.comparator nd.key key = 0) :
    s.Put key value coins = putFresh s key value coins upd1 := by
  show (do
    let x ← searchDown s key s.level Pos.header (List.replicate s.maxLevel Pos.header)
    match x with
      | (cur, upd) => do
        let c0 ← s.fwdGet cur 0
        match c0 with
          | some j => do
            let nd ← s.arena[j]?
            if s.comparator nd.key key = 0 then
                pure { s with arena := s.arena.set j { nd with value := value } }
              else putFresh s key value coins upd
          | none => putFresh s key value coins upd) = _
  rw [hsearch]
  show (s.fwdGet cur 0).bind _ = _
  rw [hc0]
  show (s.arena[j]?).bind _ = _
  rw [hnd]
  show (if s.comparator nd.key key = 0 then _ else _) = _
  rw [if_neg hne]

/-- Full functional correctness of Put on a well-formed state: it
always succeeds, preserves well-formedness and the comparator, and acts
on the abstraction as the reference insertion. On a present key it
overwrites the value in place: level, length, header and every forward
link and key are untouched. On an absent key it grows the length by
one and never lowers the level. -/
lemma put_spec {s : SkipMap K V} {L : List Nat} (hS : Spine s L)
    (hc : IsSTO s.comparator) (key : K) (value : V) (coins : Nat → Bool) :
    ∃ s3 L3, s.Put key value coins = some s3 ∧ Spine s3 L3 ∧
      s3.comparator = s.comparator ∧ s3.maxLevel = s.maxLevel ∧
      toModel s3 L3 = mInsert s.comparator key value (toModel s L) ∧
      ((mLookup s.comparator key (toModel s L)).isSome →
        s3.level = s.level ∧ s3.length = s.length ∧ s3.headerF = s.headerF ∧
        (∀ p i, s3.fwdGet p i = s.fwdGet p i) ∧ (∀ j2, fLen s3 j2 = fLen s j2) ∧
        (∀ j2, keyAt s3 j2 = keyAt s j2)) ∧
      (mLookup s.comparator key (toModel s L) = none →
        s3.length = s.length + 1 ∧ s.level ≤ s3.level) := by
  rcases search_facts hS hc key with ⟨L1, L2, hsplit, h1, h2, hno, hDown, hchm⟩
  rcases hDown (List.replicate s.maxLevel Pos.header) (by simp) with
    ⟨upd1, hrunDown, hulen, hlowU, hhighU⟩
  have hzero1 : levelList s L1 0 = L1 :=
    levelList_zero fun j hj => hS.flenPos j (hsplit ▸ List.mem_append_left L2 hj)
  have hzero2 : levelList s L2 0 = L2 :=
    levelList_zero fun j hj => hS.flenPos j (hsplit ▸ List.mem_append_right L1 hj)
  have hch0 : chainTo s 0 (lastPos L1) L2 none := by
    have h := hchm 0 (by rw [hS.maxL]; unfold DefaultMaxLevel; omega)
    rwa [hzero1, hzero2] at h
  have hc0 : s.fwdGet (lastPos L1) 0 = some (headPtrD L2 none) := chainTo_head hch0
  have hM1lt := model_lt h1
  have hM1ne := model_lt_ne h1
  have hml32 : s.maxLevel = 32 := by rw [hS.maxL]; rfl
  have hnlmax : randomLevel s.maxLevel coins + 1 ≤ s.maxLevel := by
    have := randomLevel_le s.maxLevel coins
    omega
  have hModel : toModel s L = toModel s L1 ++ toModel s L2 := by
    rw [hsplit, toModel_append]
  have hInsertRun : (∀ j ∈ L2, ∀ b, keyAt s j = some b → s.comparator key b < 0) →
      ∃ tE, putFresh s key value coins upd1 = some { tE with length := tE.length + 1 } ∧
        Spine { tE with length := tE.length + 1 } (L1 ++ s.arena.length :: L2) ∧
        tE.comparator = s.comparator ∧ tE.length = s.length ∧
        tE.level = max s.level (randomLevel s.maxLevel coins) ∧
        tE.maxLevel = s.maxLevel ∧
        toModel tE (L1 ++ s.arena.length :: L2) =
          toModel s L1 ++ (key, value) :: toModel s L2 := by
    intro hgt
    set nl := randomLevel s.maxLevel coins with hnlDef
    by_cases hraise : s.level < nl
    · rcases raiseUpd_spec (nl - s.level) (s.level + 1) upd1 (by rw [hulen]; omega) with
        ⟨upd2, hraiseRun, hulen2, hlow2, hmid2, hhigh2⟩
      have hvals2 : ∀ m, m ≤ nl → upd2[m]? = some (lastPos (levelList s L1 m)) := by
        intro m hm
        rcases Nat.lt_or_ge m (s.level + 1) with hm2 | hm2
        · rw [hlow2 m hm2]
          exact hlowU m (by omega)
        · rw [hmid2 m (by omega) (by omega)]
          rw [levelList_eq_nil fun j hj => (by
            have := hS.flenLe j (hsplit ▸ List.mem_append_left L2 hj)
            omega : fLen s j ≤ m)]
          rfl
      rcases putCore hS hc hsplit h1 h2 hgt hnlmax hvals2 with
        ⟨tE, hrunSplice, hSpineF, hcmpE, hlenE, hlvE, hmaxE, hmodelE, _, _⟩
      rw [Nat.max_eq_right (Nat.le_of_lt hraise)] at hrunSplice
      exact ⟨tE, putFresh_run_raise hnlDef.symm hraise hraiseRun hrunSplice, hSpineF,
        hcmpE, hlenE, hlvE, hmaxE, hmodelE⟩
    · have hvals1 : ∀ m, m ≤ nl → upd1[m]? = some (lastPos (levelList s L1 m)) := by
        intro m hm
        exact hlowU m (by omega)
      rcases putCore hS hc hsplit h1 h2 hgt hnlmax hvals1 with
        ⟨tE, hrunSplice, hSpineF, hcmpE, hlenE, hlvE, hmaxE, hmodelE, _, _⟩
      rw [Nat.max_eq_left (Nat.not_lt.mp hraise)] at hrunSplice
      exact ⟨tE, putFresh_run_keep hnlDef.symm hraise hrunSplice, hSpineF,
        hcmpE, hlenE, hlvE, hmaxE, hmodelE⟩
  cases L2 with
  | nil =>
    have hLookNone : mLookup s.comparator key (toModel s L) = none := by
      rw [hModel, mLookup_append hM1ne]
      rfl
    rcases hInsertRun (fun j hj => absurd hj (List.not_mem_nil j)) with
      ⟨tE, hrunF, hSpineF, hcmpE, hlenE, hlvE, hmaxE, hmodelE⟩
    have hPutEq : s.Put key value coins = some { tE with length := tE.length + 1 } := by
      rw [Put_run_none hrunDown hc0]
      exact hrunF
    refine ⟨{ tE with length := tE.length + 1 }, L1 ++ s.arena.length :: [],
      hPutEq, hSpineF, hcmpE, hmaxE, ?_, ?_, ?_⟩
    · show toModel tE (L1 ++ s.arena.length :: []) = _
      rw [hmodelE, hModel, mInsert_append hM1lt]
      rfl
    · intro hcontra
      rw [hLookNone] at hcontra
      simp at hcontra
    · intro _
      constructor
      · show tE.length + 1 = s.length + 1
        rw [hlenE]
      · show s.level ≤ tE.level
        rw [hlvE]
        exact Nat.le_max_left _ _
  | cons j0 L2t =>
    rcases hS.keysEx j0 (hsplit ▸ List.mem_append_right L1 (List.mem_cons_self j0 L2t)) with
      ⟨nd, hnd⟩
    have hkj0 : keyAt s j0 = some nd.key := by
      unfold keyAt
      rw [hnd]
      rfl
    have hj0lt : j0 < s.arena.length :=
      hS.mem j0 (hsplit ▸ List.mem_append_right L1 (List.mem_cons_self j0 L2t))
    have hn0lt : ¬ s.comparator nd.key key < 0 := by
      intro hcontra
      exact h2 j0 (List.mem_cons_self j0 L2t) ⟨nd.key, hkj0, hcontra⟩
    have hpair := hS.pairwise hc
    rw [hsplit] at hpair
    have hpairL2 := (List.pairwise_append.mp hpair).2.1
    have htail_ne : ∀ p ∈ toModel s L2t, ¬ s.comparator p.1 key = 0 := by
      intro p hp
      rcases mem_toModel hp with ⟨j2, hj2, nd2, hnd2, rfl⟩
      have hlt12 : ltIdx s j0 j2 := (List.pairwise_cons.mp hpairL2).1 j2 hj2
      have hgt2 := after_head_gt hc hlt12 (h2 j0 (List.mem_cons_self j0 L2t)) nd2.key
        (by unfold keyAt; rw [hnd2]; rfl)
      have := (hc.asymm key nd2.key).mp hgt2
      simp only
      omega
    by_cases heq : s.comparator nd.key key = 0
    · -- overwrite path
      have hPutEq : s.Put key value coins =
          some { s with arena := s.arena.set j0 { nd with value := value } } :=
        Put_run_hit hrunDown hc0 hnd heq
      rcases overwrite_spine hS hc value hj0lt hnd with
        ⟨hSp3, hfwd3, hent3ne, hent30, hflen3, hkey3⟩
      have hLookSome : mLookup s.comparator key (toModel s L) = some nd.value := by
        rw [hModel, mLookup_append hM1ne, toModel_cons hnd]
        conv_lhs => unfold mLookup
        rw [if_pos heq]
      have hndL := hS.nodup hc
      rw [hsplit] at hndL
      have hj0nL1 : j0 ∉ L1 := by
        intro hcontra
        exact (List.nodup_append.mp hndL).2.2 hcontra (List.mem_cons_self j0 L2t)
      have hj0nL2t : j0 ∉ L2t :=
        (List.nodup_cons.mp (List.nodup_append.mp hndL).2.1).1
      refine ⟨_, L, hPutEq, hSp3, rfl, rfl, ?_, ?_, ?_⟩
      · have hLHS : toModel { s with arena := s.arena.set j0 { nd with value := value } } L =
            toModel s L1 ++ (nd.key, value) :: toModel s L2t := by
          rw [hsplit, toModel_append, toModel_cons_entry hent30]
          rw [toModel_congr (w := s) (L := L1) fun j hj => hent3ne j (fun hcontra =>
            hj0nL1 (hcontra ▸ hj))]
          rw [toModel_congr (w := s) (L := L2t) fun j hj => hent3ne j (fun hcontra =>
            hj0nL2t (hcontra ▸ hj))]
        have hRHS : mInsert s.comparator key value (toModel s L) =
            toModel s L1 ++ (nd.key, value) :: toModel s L2t := by
          rw [hModel, mInsert_append hM1lt, toModel_cons hnd]
          conv_lhs => rw [show mInsert s.comparator key value
            ((nd.key, nd.value) :: toModel s L2t) =
              if s.comparator nd.key key < 0 then
                (nd.key, nd.value) :: mInsert s.comparator key value (toModel s L2t)
              else if s.comparator nd.key key = 0 then (nd.key, value) :: toModel s L2t
              else (key, value) :: (nd.key, nd.value) :: toModel s L2t from rfl]
          rw [if_neg (by omega), if_pos heq]
        rw [hLHS, hRHS]
      · intro _
        exact ⟨rfl, rfl, rfl, hfwd3, hflen3, hkey3⟩
      · intro hcontra
        rw [hLookSome] at hcontra
        exact Option.noConfusion hcontra
    · -- insert path
      have hgt : ∀ j ∈ j0 :: L2t, ∀ b, keyAt s j = some b → s.comparator key b < 0 := by
        intro j hj b hb
        rcases List.mem_cons.mp hj with rfl | hj
        · rw [hkj0] at hb
          injection hb with hb
          subst hb
          exact hc.gt_of_not hn0lt heq
        · have hlt12 : ltIdx s j0 j := (List.pairwise_cons.mp hpairL2).1 j hj
          exact after_head_gt hc hlt12 (h2 j0 (List.mem_cons_self j0 L2t)) b hb
      have hLookNone : mLookup s.comparator key (toModel s L) = none := by
        rw [hModel, mLookup_append hM1ne, toModel_cons hnd]
        conv_lhs => unfold mLookup
        rw [if_neg heq]
        exact mLookup_none htail_ne
      rcases hInsertRun hgt with ⟨tE, hrunF, hSpineF, hcmpE, hlenE, hlvE, hmaxE, hmodelE⟩
      have hPutEq : s.Put key value coins = some { tE with length := tE.length + 1 } := by
        rw [Put_run_miss hrunDown hc0 hnd heq]
        exact hrunF
      refine ⟨{ tE with length := tE.length + 1 }, L1 ++ s.arena.length :: j0 :: L2t,
        hPutEq, hSpineF, hcmpE, hmaxE, ?_, ?_, ?_⟩
      · show toModel tE (L1 ++ s.arena.length :: j0 :: L2t) = _
        rw [hmodelE, hModel, mInsert_append hM1lt, toModel_cons hnd]
        conv_rhs => unfold mInsert
        rw [if_neg hn0lt, if_neg heq]
      · intro hcontra
        rw [hLookNone] at hcontra
        simp at hcontra
      · intro _
        constructor
        · show tE.length + 1 = s.length + 1
          rw [hlenE]
        · show s.level ≤ tE.level
          rw [hlvE]
          exact Nat.le_max_left _ _

/-- Reference removal on the association list. -/
def mErase (c : K → K → Int) (key : K) : List (K × V) → List (K × V)
  | [] => []
  | p :: t => if c p.1 key = 0 then t else p :: mErase c key t

lemma mErase_append {c : K → K → Int} {key : K} {M1 M2 : List (K × V)}
    (h : ∀ p ∈ M1, ¬ c p.1 key = 0) :
    mErase c key (M1 ++ M2) = M1 ++ mErase c key M2 := by
  induction M1 with
  | nil => rfl
  | cons p t ih =>
    show mErase c key (p :: (t ++ M2)) = _
    conv_lhs => unfold mErase
    rw [if_neg (h p (List.mem_cons_self p t))]
    rw [ih fun q hq => h q (List.mem_cons_of_mem p hq)]
    rfl

/-- The splice-out loop of Remove: at every level below the doomed
node's height the frontier is rewired past it; at its height the
frontier no longer points at it and the loop breaks, leaving all higher
levels untouched. -/
lemma removeSplice_loop {s : SkipMap K V} {L1 L2t : List Nat} {j0 f : Nat}
    {upd1 : List Pos}
    (hmem1 : ∀ j ∈ L1, j < s.arena.length)
    (hnd1 : L1.Nodup)
    (hdisj : ∀ j ∈ L2t, j ∉ L1 ∧ j ≠ j0)
    (hj0n1 : j0 ∉ L1)
    (hf : fLen s j0 = f)
    (hfle : f ≤ s.level + 1)
    (hupd : ∀ m, m ≤ s.level → upd1[m]? = some (lastPos (levelList s L1 m)))
    (hhdrl : s.level < s.headerF.length)
    (hchains : ∀ m, m ≤ s.level →
      chainTo s m .header (levelList s L1 m ++ levelList s (j0 :: L2t) m) none) :
    ∀ (r i : Nat) (t : SkipMap K V), i + r = s.level + 1 → i ≤ f →
      (∀ m, i ≤ m → ∀ p, t.fwdGet p m = s.fwdGet p m) →
      (∀ m, m < i →
        chainTo t m .header (levelList s L1 m ++ levelList s L2t m) none) →
      (∀ j, entryAt t j = entryAt s j) →
      (∀ j, fLen t j = fLen s j) →
      t.maxLevel = s.maxLevel ∧ t.level = s.level ∧ t.length = s.length ∧
        t.comparator = s.comparator ∧ t.arena.length = s.arena.length ∧
        t.headerF.length = s.headerF.length →
      ∃ tE, removeSplice t upd1 j0 i r = some tE ∧
        (∀ m, f ≤ m → ∀ p, tE.fwdGet p m = s.fwdGet p m) ∧
        (∀ m, m < f →
          chainTo tE m .header (levelList s L1 m ++ levelList s L2t m) none) ∧
        (∀ j, entryAt tE j = entryAt s j) ∧
        (∀ j, fLen tE j = fLen s j) ∧
        tE.maxLevel = s.maxLevel ∧ tE.level = s.level ∧ tE.length = s.length ∧
        tE.comparator = s.comparator ∧ tE.arena.length = s.arena.length ∧
        tE.headerF.length = s.headerF.length := by
  intro r
  induction r with
  | zero =>
    intro i t hir hif hG1 hG2 hG3 hG4 hG5
    have hieq : i = s.level + 1 := by omega
    have hfeq : f = s.level + 1 := by omega
    refine ⟨t, rfl, ?_, ?_, hG3, hG4, hG5⟩
    · intro m hm p
      exact hG1 m (by omega) p
    · intro m hm
      exact hG2 m (by omega)
  | succ r ih =>
    intro i t hir hif hG1 hG2 hG3 hG4 hG5
    have hisl : i ≤ s.level := by omega
    have hui := hupd i hisl
    have hchi := hchains i hisl
    have hchsplit := chainTo_append.mp hchi
    have hsuf : chainTo s i (lastPos (levelList s L1 i))
        (levelList s (j0 :: L2t) i) none := hchsplit.2
    have hpre : chainTo s i .header (levelList s L1 i)
        (headPtrD (levelList s (j0 :: L2t) i) none) := hchsplit.1
    have hufwd : t.fwdGet (lastPos (levelList s L1 i)) i =
        some (headPtrD (levelList s (j0 :: L2t) i) none) := by
      rw [hG1 i (Nat.le_refl i) _]
      exact chainTo_head hsuf
    rcases Nat.lt_or_ge i f with hilt | hige
    · -- the frontier still points at the doomed node: rewire and continue
      have hlvcons : levelList s (j0 :: L2t) i = j0 :: levelList s L2t i := by
        rw [levelList_cons, if_pos (by omega)]
      have hufwd2 : t.fwdGet (lastPos (levelList s L1 i)) i = some (some j0) := by
        rw [hufwd, hlvcons]
        rfl
      rw [hlvcons] at hsuf
      have hj0fwd : t.fwdGet (.node j0) i =
          some (headPtrD (levelList s L2t i) none) := by
        rw [hG1 i (Nat.le_refl i) _]
        exact chainTo_head hsuf.2
      -- the write succeeds
      have huPos := lastPos_cases (levelList s L1 i)
      have huEx : match lastPos (levelList s L1 i) with
          | .header => i < t.headerF.length
          | .node j => ∃ nd, t.arena[j]? = some nd ∧ i < nd.forward.length := by
        rcases huPos with hcase | ⟨j1, hcase, hj1⟩
        · rw [hcase]
          show i < t.headerF.length
          rw [hG5.2.2.2.2.2]
          omega
        · rw [hcase]
          show ∃ nd, t.arena[j1]? = some nd ∧ i < nd.forward.length
          have hpos : 0 < fLen t j1 := by
            rw [hG4 j1]
            have := (mem_levelList.mp hj1).2
            omega
          rcases fLen_pos_ex hpos with ⟨nd, hnd, hlen⟩
          refine ⟨nd, hnd, ?_⟩
          rw [hlen, hG4 j1]
          exact (mem_levelList.mp hj1).2
      rcases fwdSet_isSome (q := headPtrD (levelList s L2t i) none) huEx with ⟨t2, ht2⟩
      have hspec2 := fwdSet_spec ht2
      have hfg2 : ∀ p m, p ≠ lastPos (levelList s L1 i) ∨ m ≠ i →
          t2.fwdGet p m = t.fwdGet p m := hspec2.2.2.2.2.2.2.2.2.2
      have huNotIn2 : ∀ j2 ∈ levelList s L2t i, Pos.node j2 ≠ lastPos (levelList s L1 i) := by
        intro j2 hj2 hcontra
        rcases huPos with hcase | ⟨j1, hcase, hj1⟩
        · rw [hcase] at hcontra
          exact Pos.noConfusion hcontra
        · rw [hcase] at hcontra
          injection hcontra with hcontra
          have hj2L : j2 ∈ L2t := (mem_levelList.mp hj2).1
          exact (hdisj j2 hj2L).1 (hcontra ▸ (mem_levelList.mp hj1).1)
      -- invariant after the write
      have hH1 : ∀ m, i + 1 ≤ m → ∀ p, t2.fwdGet p m = s.fwdGet p m := by
        intro m hm p
        rw [hfg2 p m (Or.inr (by omega))]
        exact hG1 m (by omega) p
      have hH2 : ∀ m, m < i + 1 →
          chainTo t2 m .header (levelList s L1 m ++ levelList s L2t m) none := by
        intro m hm
        rcases Nat.lt_or_ge m i with hmi | hmi
        · refine chainTo_transfer (hG2 m hmi) ?_ ?_
          · rw [hfg2 _ m (Or.inr (by omega))]
          · intro j hj
            rw [hfg2 _ m (Or.inr (by omega))]
        · have hmi2 : m = i := by omega
          subst hmi2
          have hndZ : (levelList s L1 m).Nodup := (levelList_sublist s L1 m).nodup hnd1
          have hpref : chainTo t2 m .header (levelList s L1 m)
              (headPtrD (levelList s L2t m) none) := by
            refine chainTo_retarget hpre hndZ
              (fun j _ => by intro hcontra; exact Pos.noConfusion hcontra) ?_ ?_
            · intro p2 hp2 hp2ne
              rw [hfg2 p2 m (Or.inl hp2ne)]
              exact hG1 m (Nat.le_refl m) p2
            · exact hspec2.2.2.2.2.2.2.2.2.1
          refine chainTo_append.mpr ⟨hpref, ?_⟩
          cases hcase : levelList s L2t m with
          | nil =>
            show t2.fwdGet (lastPos (levelList s L1 m)) m = some none
            rw [hspec2.2.2.2.2.2.2.2.2.1, hcase]
            rfl
          | cons j2 t2l =>
            rw [hcase] at hsuf
            refine ⟨?_, ?_⟩
            · show t2.fwdGet (lastPos (levelList s L1 m)) m = some (some j2)
              rw [hspec2.2.2.2.2.2.2.2.2.1, hcase]
              rfl
            · refine chainTo_transfer hsuf.2.2 ?_ ?_
              · rw [hfg2 _ m (Or.inl (huNotIn2 j2 (by
                  rw [hcase]
                  exact List.mem_cons_self j2 t2l)))]
                exact hG1 m (Nat.le_refl m) _
              · intro j hj
                rw [hfg2 _ m (Or.inl (huNotIn2 j (by
                  rw [hcase]
                  exact List.mem_cons_of_mem j2 hj)))]
                exact hG1 m (Nat.le_refl m) _
      have hstep : removeSplice t upd1 j0 i (r + 1) = removeSplice t2 upd1 j0 (i + 1) r := by
        conv_lhs => unfold removeSplice
        rw [hui]
        show (t.fwdGet (lastPos (levelList s L1 i)) i).bind _ = _
        rw [hufwd2]
        show (if (some j0 : Ptr) = some j0 then _ else _) = _
        rw [if_pos rfl]
        show (t.fwdGet (.node j0) i).bind _ = _
        rw [hj0fwd]
        show (t.fwdSet (lastPos (levelList s L1 i)) i (headPtrD (levelList s L2t i) none)).bind _ = _
        rw [ht2]
        rfl
      rw [hstep]
      refine ih (i + 1) t2 (by omega) (by omega) hH1 hH2 ?_ ?_ ?_
      · intro j
        rw [hspec2.2.2.2.2.2.2.1 j]
        exact hG3 j
      · intro j
        rw [hspec2.2.2.2.2.2.2.2.1 j]
        exact hG4 j
      · refine ⟨?_, ?_, ?_, ?_, ?_, ?_⟩
        · rw [hspec2.1, hG5.1]
        · rw [hspec2.2.1, hG5.2.1]
        · rw [hspec2.2.2.1, hG5.2.2.1]
        · rw [hspec2.2.2.2.1, hG5.2.2.2.1]
        · rw [hspec2.2.2.2.2.1, hG5.2.2.2.2.1]
        · rw [hspec2.2.2.2.2.2.1, hG5.2.2.2.2.2]
    · -- the frontier no longer points at the doomed node: break
      have hfeq : f = i := by omega
      have hlvdrop : levelList s (j0 :: L2t) i = levelList s L2t i := by
        rw [levelList_cons, if_neg (by omega)]
      have hnotj0 : headPtrD (levelList s (j0 :: L2t) i) none ≠ some j0 := by
        rw [hlvdrop]
        cases hcase : levelList s L2t i with
        | nil => exact fun hcontra => Option.noConfusion hcontra
        | cons j2 t2l =>
          intro hcontra
          injection hcontra with hcontra
          exact (hdisj j2 (mem_levelList.mp (by
            rw [hcase]
            exact List.mem_cons_self j2 t2l)).1).2 hcontra
      have hstep : removeSplice t upd1 j0 i (r + 1) = some t := by
        conv_lhs => unfold removeSplice
        rw [hui]
        show (t.fwdGet (lastPos (levelList s L1 i)) i).bind _ = _
        rw [hufwd]
        show (if headPtrD (levelList s (j0 :: L2t) i) none = some j0 then _ else _) = _
        rw [if_neg hnotj0]
      rw [hstep]
      refine ⟨t, rfl, ?_, ?_, hG3, hG4, hG5⟩
      · intro m hm p
        exact hG1 m (by omega) p
      · intro m hm
        exact hG2 m (by omega)

/-- The shrink loop of Remove always lands on the topmost index whose
header slot is occupied, or on zero. -/
lemma shrinkLoop_spec (headerF : List Ptr) :
    ∀ l, l < headerF.length →
      ∃ l2, shrinkLoop headerF l = some l2 ∧ l2 ≤ l ∧
        (∀ m, l2 < m → m ≤ l → headerF[m]? = some none) ∧
        (l2 = 0 ∨ ∃ j, headerF[l2]? = some (some j)) := by
  intro l
  induction l with
  | zero =>
    intro hl
    exact ⟨0, rfl, Nat.le_refl 0, fun m hm1 hm2 => by omega, Or.inl rfl⟩
  | succ l ih =>
    intro hl
    have hl2 : l + 1 < headerF.length := hl
    rcases hx : headerF[l + 1]? with _ | x
    · exact absurd hx (by
        rw [List.getElem?_eq_getElem hl2]
        exact fun hcontra => Option.noConfusion hcontra)
    · cases x with
      | none =>
        rcases ih (by omega) with ⟨l2, hrun, hle, hmid, htop⟩
        refine ⟨l2, ?_, by omega, ?_, htop⟩
        · show shrinkLoop headerF (l + 1) = some l2
          unfold shrinkLoop
          rw [hx]
          exact hrun
        · intro m hm1 hm2
          rcases Nat.lt_or_ge m (l + 1) with hm3 | hm3
          · exact hmid m hm1 (by omega)
          · have : m = l + 1 := by omega
            subst this
            exact hx
      | some j =>
        refine ⟨l + 1, ?_, Nat.le_refl _, fun m hm1 hm2 => by omega, Or.inr ⟨j, hx⟩⟩
        show shrinkLoop headerF (l + 1) = some (l + 1)
        unfold shrinkLoop
        rw [hx]

/-- Reducing Remove through a finished search, when the level-0
successor is nil: not found, no state change. -/
lemma Remove_run_none {s : SkipMap K V} {key : K} {cur : Pos} {upd1 : List Pos}
    (hsearch : searchDown s key s.level .header (List.replicate s.maxLevel Pos.header) =
      some (cur, upd1))
    (hc0 : s.fwdGet cur 0 = some none) :
    s.Remove key = some (s, false) := by
  show (do
    let x ← searchDown s key s.level Pos.header (List.replicate s.maxLevel Pos.header)
    match x with
      | (cur, upd) => do
        let c0 ← s.fwdGet cur 0
        match c0 with
          | some j => do
              let nd ← s.arena[j]?
              if s.comparator nd.key key = 0 then do
                let s1 ← removeSplice s upd j 0 (s.level + 1)
                let l1 ← shrinkLoop s1.headerF s1.level
                pure ({ s1 with level := l1, length := s1.length - 1 }, true)
              else pure (s, false)
          | none => pure (s, false)) = _
  rw [hsearch]
  show (s.fwdGet cur 0).bind _ = _
  rw [hc0]
  rfl

/-- Reducing Remove through a finished search, when the level-0
successor has a different key: not found, no state change. -/
lemma Remove_run_miss {s : SkipMap K V} {key : K} {cur : Pos} {upd1 : List Pos}
    {j : Nat} {nd : Node K V}
    (hsearch : searchDown s key s.level .header (List.replicate s.maxLevel Pos.header) =
      some (cur, upd1))
    (hc0 : s.fwdGet cur 0 = some (some j))
    (hnd : s.arena[j]? = some nd)
    (hne : ¬ s.comparator nd.key key = 0) :
    s.Remove key = some (s, false) := by
  show (do
    let x ← searchDown s key s.level Pos.header (List.replicate s.maxLevel Pos.header)
    match x with
      | (cur, upd) => do
        let c0 ← s.fwdGet cur 0
        match c0 with
          | some j => do
              let nd ← s.arena[j]?
              if s.comparator nd.key key = 0 then do
                let s1 ← removeSplice s upd j 0 (s.level + 1)
                let l1 ← shrinkLoop s1.headerF s1.level
                pure ({ s1 with level := l1, length := s1.length - 1 }, true)
              else pure (s, false)
          | none => pure (s, false)) = _
  rw [hsearch]
  show (s.fwdGet cur 0).bind _ = _
  rw [hc0]
  show (s.arena[j]?).bind _ = _
  rw [hnd]
  show (if s.comparator nd.key key = 0 then _ else _) = _
  rw [if_neg hne]
  rfl

/-- Reducing Remove through a finished search on an equal key: splice,
shrink, decrement. -/
lemma Remove_run_hit {s s1 : SkipMap K V} {key : K} {cur : Pos} {upd1 : List Pos}
    {j l1 : Nat} {nd : Node K V}
    (hsearch : searchDown s key s.level .header (List.replicate s.maxLevel Pos.header) =
      some (cur, upd1))
    (hc0 : s.fwdGet cur 0 = some (some j))
    (hnd : s.arena[j]? = some nd)
    (heq : s.comparator nd.key key = 0)
    (hsplice : removeSplice s upd1 j 0 (s.level + 1) = some s1)
    (hshrink : shrinkLoop s1.headerF s1.level = some l1) :
    s.Remove key = some ({ s1 with level := l1, length := s1.length - 1 }, true) := by
  show (do
    let x ← searchDown s key s.level Pos.header (List.replicate s.maxLevel Pos.header)
    match x with
      | (cur, upd) => do
        let c0 ← s.fwdGet cur 0
        match c0 with
          | some j => do
              let nd ← s.arena[j]?
              if s.comparator nd.key key = 0 then do
                let s1 ← removeSplice s upd j 0 (s.level + 1)
                let l1 ← shrinkLoop s1.headerF s1.level
                pure ({ s1 with level := l1, length := s1.length - 1 }, true)
              else pure (s, false)
          | none => pure (s, false)) = _
  rw [hsearch]
  show (s.fwdGet cur 0).bind _ = _
  rw [hc0]
  show (s.arena[j]?).bind _ = _
  rw [hnd]
  show (if s.comparator nd.key key = 0 then _ else _) = _
  rw [if_pos heq]
  show (removeSplice s upd1 j 0 (s.level + 1)).bind _ = _
  rw [hsplice]
  show (shrinkLoop s1.headerF s1.level).bind _ = _
  rw [hshrink]
  rfl

/-- Full functional correctness of Remove on a well-formed state: an
absent key returns false with the state unchanged; a present key
returns true, produces a well-formed state whose abstraction is the
reference erase, shrinks the length by one, never raises the level, and
only lowers the level when the old top level became empty. -/
lemma remove_spec {s : SkipMap K V} {L : List Nat} (hS : Spine s L)
    (hc : IsSTO s.comparator) (key : K) :
    (mLookup s.comparator key (toModel s L) = none →
      s.Remove key = some (s, false)) ∧
    ((mLookup s.comparator key (toModel s L)).isSome →
      ∃ s4 L4, s.Remove key = some (s4, true) ∧ Spine s4 L4 ∧
        s4.comparator = s.comparator ∧ s4.maxLevel = s.maxLevel ∧
        s4.length + 1 = s.length ∧ s4.level ≤ s.level ∧
        toModel s4 L4 = mErase s.comparator key (toModel s L) ∧
        (s4.level < s.level → s4.headerF[s.level]? = some none)) := by
  rcases search_facts hS hc key with ⟨L1, L2, hsplit, h1, h2, hno, hDown, hchm⟩
  rcases hDown (List.replicate s.maxLevel Pos.header) (by simp) with
    ⟨upd1, hrunDown, hulen, hlowU, hhighU⟩
  have hzero1 : levelList s L1 0 = L1 :=
    levelList_zero fun j hj => hS.flenPos j (hsplit ▸ List.mem_append_left L2 hj)
  have hzero2 : levelList s L2 0 = L2 :=
    levelList_zero fun j hj => hS.flenPos j (hsplit ▸ List.mem_append_right L1 hj)
  have hch0 : chainTo s 0 (lastPos L1) L2 none := by
    have h := hchm 0 (by rw [hS.maxL]; unfold DefaultMaxLevel; omega)
    rwa [hzero1, hzero2] at h
  have hc0 : s.fwdGet (lastPos L1) 0 = some (headPtrD L2 none) := chainTo_head hch0
  have hM1ne := model_lt_ne h1
  have hml32 : s.maxLevel = 32 := by rw [hS.maxL]; rfl
  have hModel : toModel s L = toModel s L1 ++ toModel s L2 := by
    rw [hsplit, toModel_append]
  cases L2 with
  | nil =>
    have hLookNone : mLookup s.comparator key (toModel s L) = none := by
      rw [hModel, mLookup_append hM1ne]
      rfl
    refine ⟨fun _ => Remove_run_none hrunDown hc0, ?_⟩
    intro hcontra
    rw [hLookNone] at hcontra
    simp at hcontra
  | cons j0 L2t =>
    rcases hS.keysEx j0 (hsplit ▸ List.mem_append_right L1 (List.mem_cons_self j0 L2t)) with
      ⟨nd, hnd⟩
    have hkj0 : keyAt s j0 = some nd.key := by
      unfold keyAt
      rw [hnd]
      rfl
    have hpair := hS.pairwise hc
    rw [hsplit] at hpair
    have hpairL2 := (List.pairwise_append.mp hpair).2.1
    have htail_ne : ∀ p ∈ toModel s L2t, ¬ s.comparator p.1 key = 0 := by
      intro p hp
      rcases mem_toModel hp with ⟨j2, hj2, nd2, hnd2, rfl⟩
      have hlt12 : ltIdx s j0 j2 := (List.pairwise_cons.mp hpairL2).1 j2 hj2
      have hgt2 := after_head_gt hc hlt12 (h2 j0 (List.mem_cons_self j0 L2t)) nd2.key
        (by unfold keyAt; rw [hnd2]; rfl)
      have := (hc.asymm key nd2.key).mp hgt2
      simp only
      omega
    by_cases heq : s.comparator nd.key key = 0
    · -- present: the node is spliced out
      have hLookSome : mLookup s.comparator key (toModel s L) = some nd.value := by
        rw [hModel, mLookup_append hM1ne, toModel_cons hnd]
        conv_lhs => unfold mLookup
        rw [if_pos heq]
      have hndL := hS.nodup hc
      rw [hsplit] at hndL
      have hnodupAll := hndL
      have hnd1 : L1.Nodup := (List.nodup_append.mp hndL).1
      have hj0n1 : j0 ∉ L1 := by
        intro hcontra
        exact (List.nodup_append.mp hndL).2.2 hcontra (List.mem_cons_self j0 L2t)
      have hdisj : ∀ j ∈ L2t, j ∉ L1 ∧ j ≠ j0 := by
        intro j hj
        constructor
        · intro hcontra
          exact (List.nodup_append.mp hndL).2.2 hcontra (List.mem_cons_of_mem j0 hj)
        · intro hcontra
          exact (List.nodup_cons.mp (List.nodup_append.mp hndL).2.1).1 (hcontra ▸ hj)
      have hj0L : j0 ∈ L := hsplit ▸ List.mem_append_right L1 (List.mem_cons_self j0 L2t)
      have hfpos : 1 ≤ fLen s j0 := hS.flenPos j0 hj0L
      have hfle : fLen s j0 ≤ s.level + 1 := hS.flenLe j0 hj0L
      have hchains0 : ∀ m, m ≤ s.level →
          chainTo s m .header (levelList s L1 m ++ levelList s (j0 :: L2t) m) none := by
        intro m hm
        have h := hS.chains m (by have := hS.lvl; omega)
        rwa [hsplit, levelList_append] at h
      rcases removeSplice_loop (f := fLen s j0)
        (fun j hj => hS.mem j (hsplit ▸ List.mem_append_left _ hj))
        hnd1 hdisj hj0n1 rfl hfle hlowU
        (by rw [hS.hdrLen]; exact hS.lvl) hchains0
        (s.level + 1) 0 s (by omega) (by omega)
        (fun m _ p => rfl) (fun m hm => absurd hm (by omega))
        (fun j => rfl) (fun j => rfl) ⟨rfl, rfl, rfl, rfl, rfl, rfl⟩ with
        ⟨tE, hrunSp, hfwdHigh, hchLow, hentE, hfE, hmaxE, hlvE, hlenE, hcmpE, harE, hhdrE⟩
      -- tE has the spliced chains at every level
      have hlvdrop : ∀ m, fLen s j0 ≤ m →
          levelList s (j0 :: L2t) m = levelList s L2t m := by
        intro m hm
        rw [levelList_cons, if_neg (by omega)]
      have hchTE : ∀ m, m < s.maxLevel →
          chainTo tE m .header (levelList s L1 m ++ levelList s L2t m) none := by
        intro m hm
        rcases Nat.lt_or_ge m (fLen s j0) with hmf | hmf
        · exact hchLow m hmf
        · have h := hS.chains m hm
          rw [hsplit, levelList_append, hlvdrop m hmf] at h
          refine chainTo_transfer h (hfwdHigh m hmf .header) fun j _ =>
            hfwdHigh m hmf (.node j)
      -- shrink
      rcases shrinkLoop_spec tE.headerF tE.level (by
        rw [hhdrE, hlvE, hS.hdrLen]
        exact hS.lvl) with ⟨l2, hrunShr, hl2le, hmid, htop⟩
      rw [hlvE] at hl2le hmid
      have hRemEq := Remove_run_hit hrunDown hc0 hnd heq hrunSp hrunShr
      -- the final state
      refine ⟨fun hcontra => ?_, fun _ =>
        ⟨{ tE with level := l2, length := tE.length - 1 }, L1 ++ L2t,
          hRemEq, ?_, ?_, ?_, ?_, ?_, ?_, ?_⟩⟩
      · rw [hLookSome] at hcontra
        exact Option.noConfusion hcontra
      rotate_left
      · show tE.comparator = s.comparator
        exact hcmpE
      · show tE.maxLevel = s.maxLevel
        exact hmaxE
      · show tE.length - 1 + 1 = s.length
        have hL1 : s.length = L.length := hS.len
        have hL2 : L.length = L1.length + (L2t.length + 1) := by
          rw [hsplit, List.length_append]
          rfl
        rw [hlenE]
        omega
      · show l2 ≤ s.level
        exact hl2le
      · -- the model after erasing
        have hLHS : toModel { tE with level := l2, length := tE.length - 1 }
            (L1 ++ L2t) = toModel s L1 ++ toModel s L2t := by
          have he4 : ∀ j, entryAt ({ tE with level := l2, length := tE.length - 1 } :
              SkipMap K V) j = entryAt s j := fun j => hentE j
          rw [toModel_append]
          rw [toModel_congr (w := s) (L := L1) fun j hj => he4 j]
          rw [toModel_congr (w := s) (L := L2t) fun j hj => he4 j]
        rw [hLHS, hModel, mErase_append hM1ne, toModel_cons hnd]
        conv_rhs => rw [show mErase s.comparator key ((nd.key, nd.value) :: toModel s L2t) =
          if s.comparator nd.key key = 0 then toModel s L2t
          else (nd.key, nd.value) :: mErase s.comparator key (toModel s L2t) from rfl]
        rw [if_pos heq]
      · intro hlt
        show tE.headerF[s.level]? = some none
        exact hmid s.level hlt (Nat.le_refl _)
      · -- the spine of the final state
        have hfS4 : ∀ j, fLen { tE with level := l2, length := tE.length - 1 } j =
            fLen s j := fun j => hfE j
        have hmemL4 : ∀ j ∈ L1 ++ L2t, j ∈ L := by
          intro j hj
          rw [hsplit]
          rcases List.mem_append.mp hj with hj | hj
          · exact List.mem_append_left _ hj
          · exact List.mem_append_right _ (List.mem_cons_of_mem j0 hj)
        have hlv4 : ∀ m, levelList { tE with level := l2, length := tE.length - 1 }
            (L1 ++ L2t) m = levelList s L1 m ++ levelList s L2t m := by
          intro m
          rw [levelList_congr (w := s) fun j _ => hfS4 j, levelList_append]
        refine ⟨?_, ?_, ?_, ?_, ?_, ?_, ?_, ?_, ?_, ?_, ?_⟩
        · show tE.headerF.length = tE.maxLevel
          rw [hhdrE, hmaxE, hS.hdrLen]
        · show tE.maxLevel = DefaultMaxLevel
          rw [hmaxE, hS.maxL]
        · intro j hj
          show j < tE.arena.length
          rw [harE]
          exact hS.mem j (hmemL4 j hj)
        · intro j hj
          rw [hfS4 j]
          exact hS.flenPos j (hmemL4 j hj)
        · intro j hj
          show fLen _ j ≤ l2 + 1
          rw [hfS4 j]
          -- the shrink bound: the level below this node's top is populated
          by_contra hcontra
          push_neg at hcontra
          have hm0 : l2 < fLen s j - 1 := by omega
          have hm0le : fLen s j - 1 ≤ s.level := by
            have := hS.flenLe j (hmemL4 j hj)
            omega
          have hjin : j ∈ levelList s (L1 ++ L2t) (fLen s j - 1) := by
            refine mem_levelList.mpr ⟨hj, ?_⟩
            have := hS.flenPos j (hmemL4 j hj)
            omega
          have hch := hchTE (fLen s j - 1) (by have := hS.lvl; omega)
          rw [← levelList_append] at hch
          have hhead := chainTo_head hch
          have hnil : tE.headerF[fLen s j - 1]? = some none :=
            hmid (fLen s j - 1) hm0 hm0le
          rw [show tE.fwdGet .header (fLen s j - 1) = tE.headerF[fLen s j - 1]? from rfl,
            hnil] at hhead
          injection hhead with hhead
          cases hcase : levelList s (L1 ++ L2t) (fLen s j - 1) with
          | nil => rw [hcase] at hjin; exact List.not_mem_nil j hjin
          | cons j2 t2l =>
            rw [hcase] at hhead
            exact Option.noConfusion hhead
        · refine fLen_bounds_of_index ?_
          intro j hj
          show 1 ≤ fLen _ j ∧ fLen _ j ≤ tE.maxLevel
          have hj2 : j < s.arena.length := by
            show j < s.arena.length
            rw [show tE.arena.length = s.arena.length from harE] at hj
            exact hj
          have hb := index_bounds_of_fLen hS.flenAll hj2
          rw [hfS4 j, hmaxE]
          exact hb
        · intro m hm
          rw [hlv4 m]
          have hm2 : m < s.maxLevel := by
            rw [show ({ tE with level := l2, length := tE.length - 1 } :
              SkipMap K V).maxLevel = tE.maxLevel from rfl, hmaxE] at hm
            exact hm
          exact chainTo_transfer (hchTE m hm2) rfl fun j _ => rfl
        · have hsub : (L1 ++ L2t).Sublist L := by
            rw [hsplit]
            exact (List.sublist_cons_self j0 L2t).append_left L1
          have hpw : (L1 ++ L2t).Pairwise (ltIdx s) := (hS.pairwise hc).sublist hsub
          have : IsTrans Nat (ltIdx s) := ⟨ltIdx_trans hc⟩
          have hch4 : List.Chain' (ltIdx s) (L1 ++ L2t) := List.chain'_iff_pairwise.mpr hpw
          refine chain'_ltIdx_congr (fun j hj => ?_) (show tE.comparator = s.comparator
            from hcmpE) hch4
          exact keyAt_congr_of_entry (hentE j)
        · show tE.length - 1 = (L1 ++ L2t).length
          have hL2 : L.length = L1.length + (L2t.length + 1) := by
            rw [hsplit, List.length_append]
            rfl
          rw [hlenE, hS.len]
          simp only [List.length_append]
          omega
        · show l2 < tE.maxLevel
          rw [hmaxE]
          have := hS.lvl
          omega
        · rcases htop with h0 | ⟨j2, hj2⟩
          · exact Or.inl h0
          · refine Or.inr ?_
            show levelList _ (L1 ++ L2t) l2 ≠ []
            rw [hlv4 l2]
            have hch := hchTE l2 (by have := hS.lvl; omega)
            have hhead := chainTo_head hch
            rw [show tE.fwdGet .header l2 = tE.headerF[l2]? from rfl, hj2] at hhead
            injection hhead with hhead
            cases hcase : levelList s L1 l2 ++ levelList s L2t l2 with
            | nil =>
              rw [hcase] at hhead
              exact Option.noConfusion hhead
            | cons j3 t3 =>
              exact fun hcontra => List.noConfusion hcontra
    · -- absent with an occupied successor
      have hLookNone : mLookup s.comparator key (toModel s L) = none := by
        rw [hModel, mLookup_append hM1ne, toModel_cons hnd]
        conv_lhs => unfold mLookup
        rw [if_neg heq]
        exact mLookup_none htail_ne
      refine ⟨fun _ => Remove_run_miss hrunDown hc0 hnd heq, ?_⟩
      intro hcontra
      rw [hLookNone] at hcontra
      simp at hcontra

/-- On live indices the abstraction keeps one entry per index. -/
lemma toModel_length {s : SkipMap K V} {L : List Nat}
    (h : ∀ j ∈ L, ∃ nd, s.arena[j]? = some nd) :
    (toModel s L).length = L.length := by
  induction L with
  | nil => rfl
  | cons j t ih =>
    rcases h j (List.mem_cons_self j t) with ⟨nd, hnd⟩
    rw [toModel_cons hnd]
    show (toModel s t).length + 1 = t.length + 1
    rw [ih fun j2 hj2 => h j2 (List.mem_cons_of_mem j hj2)]

/-- A pairwise-sorted index list abstracts to a pairwise-sorted model. -/
lemma toModel_pairwise_aux {s : SkipMap K V} :
    ∀ {L : List Nat}, L.Pairwise (ltIdx s) →
      (toModel s L).Pairwise fun p q => s.comparator p.1 q.1 < 0 := by
  intro L
  induction L with
  | nil => intro _; exact List.Pairwise.nil
  | cons j t ih =>
    intro hpw
    rcases List.pairwise_cons.mp hpw with ⟨hhead, htail⟩
    cases hent : entryAt s j with
    | none =>
      unfold toModel
      rw [List.filterMap_cons, hent]
      exact ih htail
    | some pr =>
      unfold toModel
      rw [List.filterMap_cons, hent]
      refine List.pairwise_cons.mpr ⟨?_, ih htail⟩
      intro q hq
      rcases mem_toModel hq with ⟨j2, hj2, nd2, hnd2, rfl⟩
      rcases hhead j2 hj2 with ⟨a, b, ha, hb, hab⟩
      have hpr : keyAt s j = some pr.1 := by
        rw [keyAt_entryAt, hent]
        rfl
      rw [hpr] at ha
      injection ha with ha
      have hb2 : keyAt s j2 = some nd2.key := by
        unfold keyAt
        rw [hnd2]
        rfl
      rw [hb2] at hb
      injection hb with hb
      simp only
      rw [ha, hb]
      exact hab

/-- The model of a well-formed state is sorted. -/
lemma toModel_pairwise {s : SkipMap K V} {L : List Nat} (hS : Spine s L)
    (hc : IsSTO s.comparator) :
    (toModel s L).Pairwise fun p q => s.comparator p.1 q.1 < 0 :=
  toModel_pairwise_aux (hS.pairwise hc)

/-- Inserting a key makes it immediately visible to lookup. -/
lemma mLookup_mInsert_self {c : K → K → Int} (hc : IsSTO c) (key : K) (value : V)
    (M : List (K × V)) : mLookup c key (mInsert c key value M) = some value := by
  induction M with
  | nil =>
    show (if c key key = 0 then some value else mLookup c key []) = some value
    rw [if_pos (hc.refl key)]
  | cons p t ih =>
    unfold mInsert
    by_cases hlt : c p.1 key < 0
    · rw [if_pos hlt]
      show (if c p.1 key = 0 then some p.2 else mLookup c key (mInsert c key value t)) = _
      rw [if_neg (hc.ne_of_lt hlt)]
      exact ih
    · rw [if_neg hlt]
      by_cases h0 : c p.1 key = 0
      · rw [if_pos h0]
        show (if c p.1 key = 0 then some value else mLookup c key t) = _
        rw [if_pos h0]
      · rw [if_neg h0]
        show (if c key key = 0 then some value else _) = _
        rw [if_pos (hc.refl key)]

/-- Erasing one key leaves lookups of other keys unchanged. -/
lemma mLookup_mErase_ne {c : K → K → Int} (hc : IsSTO c) {key k2 : K}
    (hne : ¬ c k2 key = 0) (M : List (K × V)) :
    mLookup c k2 (mErase c key M) = mLookup c k2 M := by
  induction M with
  | nil => rfl
  | cons p t ih =>
    unfold mErase
    by_cases h0 : c p.1 key = 0
    · rw [if_pos h0]
      have hne2 : ¬ c p.1 k2 = 0 := by
        intro hcontra
        have h := (hc.eq_iff p.1 key).mp h0
        have h2 := (hc.eq_iff p.1 k2).mp hcontra
        exact hne ((hc.eq_iff k2 key).mpr (h2.symm.trans h))
      conv_rhs => unfold mLookup
      rw [if_neg hne2]
    · rw [if_neg h0]
      show (if c p.1 k2 = 0 then some p.2 else mLookup c k2 (mErase c key t)) =
        (if c p.1 k2 = 0 then some p.2 else mLookup c k2 t)
      by_cases hp2 : c p.1 k2 = 0
      · rw [if_pos hp2, if_pos hp2]
      · rw [if_neg hp2, if_neg hp2]
        exact ih

/-- Erasing a key from a sorted model removes it from lookup. -/
lemma mLookup_mErase_self {c : K → K → Int} (hc : IsSTO c) {key : K}
    {M : List (K × V)} (hpw : M.Pairwise fun p q => c p.1 q.1 < 0) :
    mLookup c key (mErase c key M) = none := by
  induction M with
  | nil => rfl
  | cons p t ih =>
    rcases List.pairwise_cons.mp hpw with ⟨hhead, htail⟩
    unfold mErase
    by_cases h0 : c p.1 key = 0
    · rw [if_pos h0]
      refine mLookup_none ?_
      intro q hq
      have hlt := hhead q hq
      have h := (hc.eq_iff p.1 key).mp h0
      rw [h] at hlt
      have := (hc.asymm key q.1).mp hlt
      omega
    · rw [if_neg h0]
      show (if c p.1 key = 0 then some p.2 else mLookup c key (mErase c key t)) = none
      rw [if_neg h0]
      exact ih htail

/-- Keys in the above-target part of the model do not compare below the
target. -/
lemma model_ge {s : SkipMap K V} {key : K} {L2 : List Nat}
    (h2 : ∀ j ∈ L2, ¬ keyLt s key j) :
    ∀ p ∈ toModel s L2, ¬ s.comparator p.1 key < 0 := by
  intro p hp hcontra
  rcases mem_toModel hp with ⟨j, hj, nd, hnd, rfl⟩
  exact h2 j hj ⟨nd.key, by unfold keyAt; rw [hnd]; rfl, hcontra⟩

/-- On the sorted split at the start key, filtering the whole model for
the closed range coincides with collecting the prefix of the upper part
that stays at most endKey. -/
lemma filter_inRange_eq {c : K → K → Int} (hc : IsSTO c) {start endKey : K}
    {M1 M2 : List (K × V)}
    (h1 : ∀ p ∈ M1, c p.1 start < 0)
    (h2 : ∀ p ∈ M2, ¬ c p.1 start < 0)
    (hpw : M2.Pairwise fun p q => c p.1 q.1 < 0) :
    (M1 ++ M2).filter (inRangeB c start endKey) = mCollectP c endKey M2 := by
  have hM1 : M1.filter (inRangeB c start endKey) = [] := by
    rw [List.filter_eq_nil_iff]
    intro p hp hcontra
    unfold inRangeB at hcontra
    rw [Bool.and_eq_true, decide_eq_true_eq, decide_eq_true_eq] at hcontra
    have := h1 p hp
    omega
  rw [List.filter_append, hM1, List.nil_append]
  clear hM1 h1
  induction M2 with
  | nil => rfl
  | cons p t ih =>
    rcases List.pairwise_cons.mp hpw with ⟨hhead, htail⟩
    by_cases hle : c p.1 endKey ≤ 0
    · have hge : 0 ≤ c p.1 start := by
        have := h2 p (List.mem_cons_self p t)
        omega
      have htrue : inRangeB c start endKey p = true := by
        unfold inRangeB
        rw [decide_eq_true hge, decide_eq_true hle]
        rfl
      rw [List.filter_cons, if_pos htrue]
      rw [show mCollectP c endKey (p :: t) =
        if c p.1 endKey ≤ 0 then p :: mCollectP c endKey t else [] from rfl, if_pos hle]
      rw [ih (fun q hq => h2 q (List.mem_cons_of_mem p hq)) htail]
    · have hfalse : inRangeB c start endKey p = false := by
        unfold inRangeB
        rw [decide_eq_false hle, Bool.and_false]
      rw [List.filter_cons, if_neg (by rw [hfalse]; exact Bool.false_ne_true)]
      rw [show mCollectP c endKey (p :: t) =
        if c p.1 endKey ≤ 0 then p :: mCollectP c endKey t else [] from rfl, if_neg hle]
      rw [List.filter_eq_nil_iff]
      intro q hq hcontra
      unfold inRangeB at hcontra
      rw [Bool.and_eq_true, decide_eq_true_eq, decide_eq_true_eq] at hcontra
      have hlt := hhead q hq
      have hgt : c endKey p.1 < 0 := (hc.asymm endKey p.1).mpr (by omega)
      have := (hc.asymm endKey q.1).mp (hc.trans endKey p.1 q.1 hgt hlt)
      omega

/-- A backwards range admits no entry at all. -/
lemma filter_inRange_nil_of_backwards {c : K → K → Int} (hc : IsSTO c)
    {start endKey : K} (hbk : 0 < c start endKey) (M : List (K × V)) :
    M.filter (inRangeB c start endKey) = [] := by
  rw [List.filter_eq_nil_iff]
  intro p hp hcontra
  unfold inRangeB at hcontra
  rw [Bool.and_eq_true, decide_eq_true_eq, decide_eq_true_eq] at hcontra
  rcases hcontra with ⟨hge, hle⟩
  have : c start endKey ≤ 0 := by
    rcases lt_or_eq_of_le hge with h | h
    · have := hc.lt_of_lt_of_le ((hc.asymm start p.1).mpr h) hle
      omega
    · have heq := (hc.eq_iff p.1 start).mp h.symm
      rw [heq] at hle
      exact hle
  omega

/-- The Range collection loop walks a nil-terminated level-0 chain and
returns the values of its longest at-most-endKey prefix. -/
lemma collectLoop_spec {s : SkipMap K V} {endKey : K} :
    ∀ (X : List Nat) (p : Pos) (fuel : Nat) (acc : List V),
      chainTo s 0 p X none →
      (∀ j ∈ X, ∃ nd, s.arena[j]? = some nd) →
      X.length < fuel →
      collectLoop s endKey (headPtrD X none) fuel acc =
        some (acc ++ (mCollectP s.comparator endKey (toModel s X)).map Prod.snd) := by
  intro X
  induction X with
  | nil =>
    intro p fuel acc hch hex hf
    cases fuel with
    | zero => omega
    | succ f =>
      show some acc = _
      rw [show toModel s ([] : List Nat) = [] from rfl]
      rw [show mCollectP s.comparator endKey ([] : List (K × V)) = [] from rfl]
      rw [List.map_nil, List.append_nil]
  | cons j t ih =>
    intro p fuel acc hch hex hf
    cases fuel with
    | zero => simp at hf
    | succ f =>
      rcases hex j (List.mem_cons_self j t) with ⟨nd, hnd⟩
      show ((s.arena[j]?).bind fun nd => _) = _
      rw [hnd]
      show (if s.comparator nd.key endKey ≤ 0 then
        (nd.forward[0]?).bind fun q => collectLoop s endKey q f (acc ++ [nd.value])
        else some acc) = _
      have hfw : nd.forward[0]? = some (headPtrD t none) := by
        have h3 : (s.arena[j]?).bind (fun nd2 => nd2.forward[0]?) =
            some (headPtrD t none) := chainTo_head hch.2
        rw [hnd] at h3
        simpa using h3
      rw [toModel_cons hnd]
      rw [show mCollectP s.comparator endKey ((nd.key, nd.value) :: toModel s t) =
        if s.comparator nd.key endKey ≤ 0 then
          (nd.key, nd.value) :: mCollectP s.comparator endKey (toModel s t)
        else [] from rfl]
      by_cases hle : s.comparator nd.key endKey ≤ 0
      · rw [if_pos hle, if_pos hle, hfw]
        show collectLoop s endKey (headPtrD t none) f (acc ++ [nd.value]) = _
        rw [ih (.node j) f (acc ++ [nd.value]) hch.2
          (fun j2 hj2 => hex j2 (List.mem_cons_of_mem j hj2)) (by simp at hf ⊢; omega)]
        simp
      · rw [if_neg hle, if_neg hle]
        rw [List.map_nil, List.append_nil]

/-- What Range computes on a well-formed state: the values of exactly
the model entries whose keys lie in the closed range, in model order. -/
lemma range_spec {s : SkipMap K V} {L : List Nat} (hS : Spine s L)
    (hc : IsSTO s.comparator) (start endKey : K) :
    s.Range start endKey =
      some (((toModel s L).filter (inRangeB s.comparator start endKey)).map Prod.snd) := by
  rcases search_facts hS hc start with ⟨L1, L2, hsplit, h1, h2, hno, _, hchm⟩
  have hzero2 : levelList s L2 0 = L2 :=
    levelList_zero fun j hj => hS.flenPos j (hsplit ▸ List.mem_append_right L1 hj)
  have hch0 : chainTo s 0 (lastPos L1) L2 none := by
    have h := hchm 0 (by rw [hS.maxL]; unfold DefaultMaxLevel; omega)
    rwa [levelList_zero fun j hj =>
      hS.flenPos j (hsplit ▸ List.mem_append_left L2 hj), hzero2] at h
  have hfuel : L2.length < s.arena.length + 1 := by
    have hb := nodup_bound (hS.nodup hc) hS.mem
    have : L2.length ≤ L.length := by
      rw [hsplit, List.length_append]
      omega
    omega
  unfold SkipMap.Range
  rw [hno]
  show ((s.fwdGet (lastPos L1) 0).bind fun c0 =>
    collectLoop s endKey c0 (s.arena.length + 1) []) = _
  rw [chainTo_head hch0]
  show collectLoop s endKey (headPtrD L2 none) (s.arena.length + 1) [] = _
  rw [collectLoop_spec L2 (lastPos L1) (s.arena.length + 1) [] hch0
    (fun j hj => hS.keysEx j (hsplit ▸ List.mem_append_right L1 hj)) hfuel]
  rw [List.nil_append]
  rw [hsplit, toModel_append]
  rw [filter_inRange_eq hc (model_lt h1) (model_ge h2)
    (toModel_pairwise_aux (List.pairwise_append.mp (hsplit ▸ hS.pairwise hc)).2.1)]

/-- The RangeFunc loop records exactly the visitor invocations: the
in-range pairs up to and including the first rejected one. -/
lemma visitLoop_spec {s : SkipMap K V} {endKey : K} {f : K → V → Bool} :
    ∀ (X : List Nat) (p : Pos) (fuel : Nat) (acc : List (K × V)),
      chainTo s 0 p X none →
      (∀ j ∈ X, ∃ nd, s.arena[j]? = some nd) →
      X.length < fuel →
      visitLoop s endKey f (headPtrD X none) fuel acc =
        some (acc ++ takeUntil f (mCollectP s.comparator endKey (toModel s X))) := by
  intro X
  induction X with
  | nil =>
    intro p fuel acc hch hex hf
    cases fuel with
    | zero => omega
    | succ g =>
      show some acc = _
      rw [show toModel s ([] : List Nat) = [] from rfl]
      rw [show mCollectP s.comparator endKey ([] : List (K × V)) = [] from rfl]
      rw [show takeUntil f ([] : List (K × V)) = [] from rfl, List.append_nil]
  | cons j t ih =>
    intro p fuel acc hch hex hf
    cases fuel with
    | zero => simp at hf
    | succ g =>
      rcases hex j (List.mem_cons_self j t) with ⟨nd, hnd⟩
      show ((s.arena[j]?).bind fun nd => _) = _
      rw [hnd]
      show (if s.comparator nd.key endKey ≤ 0 then
        if f nd.key nd.value then
          (nd.forward[0]?).bind fun q =>
            visitLoop s endKey f q g (acc ++ [(nd.key, nd.value)])
        else some (acc ++ [(nd.key, nd.value)])
        else some acc) = _
      have hfw : nd.forward[0]? = some (headPtrD t none) := by
        have h3 : (s.arena[j]?).bind (fun nd2 => nd2.forward[0]?) =
            some (headPtrD t none) := chainTo_head hch.2
        rw [hnd] at h3
        simpa using h3
      rw [toModel_cons hnd]
      rw [show mCollectP s.comparator endKey ((nd.key, nd.value) :: toModel s t) =
        if s.comparator nd.key endKey ≤ 0 then
          (nd.key, nd.value) :: mCollectP s.comparator endKey (toModel s t)
        else [] from rfl]
      by_cases hle : s.comparator nd.key endKey ≤ 0
      · rw [if_pos hle, if_pos hle]
        rw [show takeUntil f ((nd.key, nd.value) ::
            mCollectP s.comparator endKey (toModel s t)) =
          if f nd.key nd.value then
            (nd.key, nd.value) :: takeUntil f (mCollectP s.comparator endKey (toModel s t))
          else [(nd.key, nd.value)] from rfl]
        by_cases hfv : f nd.key nd.value = true
        · rw [if_pos hfv, if_pos hfv, hfw]
          show visitLoop s endKey f (headPtrD t none) g (acc ++ [(nd.key, nd.value)]) = _
          rw [ih (.node j) g (acc ++ [(nd.key, nd.value)]) hch.2
            (fun j2 hj2 => hex j2 (List.mem_cons_of_mem j hj2)) (by simp at hf ⊢; omega)]
          simp
        · rw [if_neg hfv, if_neg hfv]
      · rw [if_neg hle, if_neg hle]
        rw [show takeUntil f ([] : List (K × V)) = [] from rfl, List.append_nil]

/-- What RangeFunc computes on a well-formed state: the trace of visitor
invocations is the in-range model entries up to and including the first
one the visitor rejects. -/
lemma rangeFunc_spec {s : SkipMap K V} {L : List Nat} (hS : Spine s L)
    (hc : IsSTO s.comparator) (start endKey : K) (f : K → V → Bool) :
    s.RangeFunc start endKey f =
      some (takeUntil f ((toModel s L).filter (inRangeB s.comparator start endKey))) := by
  rcases search_facts hS hc start with ⟨L1, L2, hsplit, h1, h2, hno, _, hchm⟩
  have hzero2 : levelList s L2 0 = L2 :=
    levelList_zero fun j hj => hS.flenPos j (hsplit ▸ List.mem_append_right L1 hj)
  have hch0 : chainTo s 0 (lastPos L1) L2 none := by
    have h := hchm 0 (by rw [hS.maxL]; unfold DefaultMaxLevel; omega)
    rwa [levelList_zero fun j hj =>
      hS.flenPos j (hsplit ▸ List.mem_append_left L2 hj), hzero2] at h
  have hfuel : L2.length < s.arena.length + 1 := by
    have hb := nodup_bound (hS.nodup hc) hS.mem
    have : L2.length ≤ L.length := by
      rw [hsplit, List.length_append]
      omega
    omega
  unfold SkipMap.RangeFunc
  rw [hno]
  show ((s.fwdGet (lastPos L1) 0).bind fun c0 =>
    visitLoop s endKey f c0 (s.arena.length + 1) []) = _
  rw [chainTo_head hch0]
  show visitLoop s endKey f (headPtrD L2 none) (s.arena.length + 1) [] = _
  rw [visitLoop_spec L2 (lastPos L1) (s.arena.length + 1) [] hch0
    (fun j hj => hS.keysEx j (hsplit ▸ List.mem_append_right L1 hj)) hfuel]
  rw [List.nil_append]
  rw [hsplit, toModel_append]
  rw [filter_inRange_eq hc (model_lt h1) (model_ge h2)
    (toModel_pairwise_aux (List.pairwise_append.mp (hsplit ▸ hS.pairwise hc)).2.1)]

/-- What Min computes on a well-formed state: the first model entry. -/
lemma min_spec {s : SkipMap K V} {L : List Nat} (hS : Spine s L) :
    s.Min = some ((toModel s L).head?) := by
  have hch := hS.chains 0 (by rw [hS.maxL]; unfold DefaultMaxLevel; omega)
  rw [levelList_zero fun j hj => hS.flenPos j hj] at hch
  have hhd : s.headerF[0]? = some (headPtrD L none) := chainTo_head hch
  unfold SkipMap.Min
  by_cases hlen : s.length = 0
  · rw [if_pos hlen]
    have hL : L = [] := List.length_eq_zero.mp (by rw [← hS.len]; exact hlen)
    subst hL
    rfl
  · rw [if_neg hlen]
    cases L with
    | nil => exact absurd hS.len hlen
    | cons j t =>
      rcases hS.keysEx j (List.mem_cons_self j t) with ⟨nd, hnd⟩
      rw [hhd]
      show ((match s.arena[j]? with
        | none => none
        | some nd => some (some (nd.key, nd.value))) : Option (Option (K × V))) = _
      rw [hnd, toModel_cons hnd]
      rfl

/-- The Max inner loop runs to the end of a nil-terminated chain. -/
lemma lastLoop_spec {s : SkipMap K V} {i : Nat} :
    ∀ (X : List Nat) (p : Pos) (fuel : Nat),
      chainTo s i p X none → X.length < fuel →
      lastLoop s i p fuel = some (lastPosFrom p X) := by
  intro X
  induction X with
  | nil =>
    intro p fuel hch hf
    cases fuel with
    | zero => omega
    | succ g =>
      conv_lhs => unfold lastLoop
      rw [hch]
      rfl
  | cons j t ih =>
    intro p fuel hch hf
    cases fuel with
    | zero => simp at hf
    | succ g =>
      conv_lhs => unfold lastLoop
      rw [hch.1]
      show lastLoop s i (.node j) g = _
      rw [ih (.node j) g hch.2 (by simp at hf ⊢; omega)]
      rfl

/-- One level of the Max descent: from the end of the level-(m+1) chain,
the level-m walk ends at the end of the level-m chain. -/
lemma maxDown_step {s : SkipMap K V} {L : List Nat} (hS : Spine s L)
    (hc : IsSTO s.comparator) {m : Nat} (hm : m < s.maxLevel) :
    lastLoop s m (lastPos (levelList s L (m + 1))) (s.arena.length + 1) =
      some (lastPos (levelList s L m)) := by
  have hndL := hS.nodup hc
  have hndZ : (levelList s L m).Nodup := (levelList_sublist s L m).nodup hndL
  have hp : lastPos (levelList s L (m + 1)) = Pos.header ∨
      ∃ j0, lastPos (levelList s L (m + 1)) = Pos.node j0 ∧ j0 ∈ levelList s L m := by
    rcases lastPos_cases (levelList s L (m + 1)) with h | ⟨j0, hj0, hj0mem⟩
    · exact Or.inl h
    · refine Or.inr ⟨j0, hj0, ?_⟩
      rcases mem_levelList.mp hj0mem with ⟨hjL, hflen⟩
      exact mem_levelList.mpr ⟨hjL, by omega⟩
  rcases split_at_pos hndZ hp with ⟨X, Y, hXY, hlastX⟩
  have hch := hS.chains m hm
  rw [hXY] at hch
  have hchY := chainTo_suffix hch
  rw [show lastPos X = lastPosFrom Pos.header X from rfl, hlastX] at hchY
  have hfuel : Y.length < s.arena.length + 1 := by
    have h1 : (levelList s L m).length ≤ L.length := (levelList_sublist s L m).length_le
    have h2 := nodup_bound hndL hS.mem
    have h3 : Y.length ≤ (levelList s L m).length := by
      rw [hXY, List.length_append]
      omega
    omega
  rw [lastLoop_spec Y _ _ hchY hfuel]
  rw [hXY, show lastPos (X ++ Y) = lastPosFrom Pos.header (X ++ Y) from rfl,
    lastPosFrom_append, hlastX]

/-- The whole Max descent ends at the last live node. -/
lemma maxDown_from {s : SkipMap K V} {L : List Nat} (hS : Spine s L)
    (hc : IsSTO s.comparator) :
    ∀ i, i < s.maxLevel →
      maxDown s i (lastPos (levelList s L (i + 1))) =
        some (lastPos (levelList s L 0)) := by
  intro i
  induction i with
  | zero =>
    intro hi
    show lastLoop s 0 (lastPos (levelList s L 1)) (s.arena.length + 1) = _
    exact maxDown_step hS hc hi
  | succ i ih =>
    intro hi
    show (lastLoop s (i + 1) (lastPos (levelList s L (i + 2)))
      (s.arena.length + 1)).bind (fun p1 => maxDown s i p1) = _
    rw [maxDown_step hS hc hi]
    show maxDown s i (lastPos (levelList s L (i + 1))) = _
    exact ih (by omega)

/-- What Max computes on a well-formed state: the last model entry. -/
lemma max_spec {s : SkipMap K V} {L : List Nat} (hS : Spine s L)
    (hc : IsSTO s.comparator) :
    s.Max = some ((toModel s L).getLast?) := by
  unfold SkipMap.Max
  by_cases hlen : s.length = 0
  · rw [if_pos hlen]
    have hL : L = [] := List.length_eq_zero.mp (by rw [← hS.len]; exact hlen)
    subst hL
    rfl
  · rw [if_neg hlen]
    have htopEmpty : levelList s L (s.level + 1) = [] :=
      levelList_eq_nil fun j hj => hS.flenLe j hj
    have hmd : maxDown s s.level Pos.header = some (lastPos L) := by
      have h := maxDown_from hS hc s.level hS.lvl
      rw [htopEmpty] at h
      rw [levelList_zero fun j hj => hS.flenPos j hj] at h
      exact h
    show (maxDown s s.level Pos.header).bind _ = _
    rw [hmd]
    rcases List.eq_nil_or_concat L with rfl | ⟨T, jl, rfl⟩
    · exact absurd hS.len hlen
    · rw [List.concat_eq_append] at hS hmd ⊢
      rcases hS.keysEx jl (List.mem_append_right T (List.mem_singleton_self jl)) with
        ⟨nd, hnd⟩
      rw [show lastPos (T ++ [jl]) = Pos.node jl from lastPosFrom_concat Pos.header T jl]
      show ((s.arena[jl]?).bind fun nd => some (some (nd.key, nd.value))) = _
      rw [hnd]
      rw [toModel_append, show toModel s [jl] = [(nd.key, nd.value)] from
        toModel_cons hnd, List.getLast?_concat]
      rfl

/-- The level field marks the top of the populated header slots: all
higher slots are nil, and slot level itself is occupied unless the
engine sits at level 0. -/
lemma level_top_char {s : SkipMap K V} {L : List Nat} (hS : Spine s L) :
    (∀ m, s.level < m → m < s.maxLevel → s.fwdGet .header m = some none) ∧
    (s.level = 0 ∨ ∃ j, s.fwdGet .header s.level = some (some j)) := by
  constructor
  · intro m h1 h2
    have hch := hS.chains m h2
    rw [levelList_eq_nil fun j hj => by have := hS.flenLe j hj; omega] at hch
    exact hch
  · rcases hS.lvlTop with h0 | hne
    · exact Or.inl h0
    · refine Or.inr ?_
      have hch := hS.chains s.level hS.lvl
      cases hcase : levelList s L s.level with
      | nil => exact absurd hcase hne
      | cons j t =>
        rw [hcase] at hch
        exact ⟨j, hch.1⟩

/-- The fresh engine is well formed, with the empty spine. -/
lemma spine_new (c : K → K → Int) : Spine (NewWithComparator c : SkipMap K V) [] := by
  refine ⟨?_, rfl, ?_, ?_, ?_, ?_, ?_, ?_, rfl, ?_, Or.inl rfl⟩
  · show (List.replicate DefaultMaxLevel (none : Ptr)).length = DefaultMaxLevel
    rw [List.length_replicate]
  · intro j hj
    exact absurd hj (List.not_mem_nil j)
  · intro j hj
    exact absurd hj (List.not_mem_nil j)
  · intro j hj
    exact absurd hj (List.not_mem_nil j)
  · intro nd hnd
    exact absurd hnd (List.not_mem_nil nd)
  · intro i hi
    show (List.replicate DefaultMaxLevel (none : Ptr))[i]? = some none
    rw [List.getElem?_replicate, if_pos (show i < DefaultMaxLevel from hi)]
  · exact List.chain'_nil
  · show 0 < DefaultMaxLevel
    unfold DefaultMaxLevel
    omega

/-- States reachable from a fresh engine by Put and Remove, with an
arbitrary coin oracle supplied to each Put. -/
inductive Reachable (c : K → K → Int) : SkipMap K V → Prop where
  | new : Reachable c (NewWithComparator c)
  | put {s s1 : SkipMap K V} {k : K} {v : V} {coins : Nat → Bool} :
      Reachable c s → s.Put k v coins = some s1 → Reachable c s1
  | rem {s s1 : SkipMap K V} {k : K} {b : Bool} :
      Reachable c s → s.Remove k = some (s1, b) → Reachable c s1

/-- Every reachable state keeps the construction comparator and is well
formed: the structural invariant survives every Put and Remove. -/
lemma reachable_spine {c : K → K → Int} (hc : IsSTO c) {s : SkipMap K V}
    (hr : Reachable c s) : s.comparator = c ∧ ∃ L, Spine s L := by
  induction hr with
  | new => exact ⟨rfl, [], spine_new c⟩
  | put hr0 hput ih =>
    rename_i s0 s1 k v coins
    rcases ih with ⟨hcmp, L, hS⟩
    have hc2 : IsSTO s0.comparator := by
      rw [hcmp]
      exact hc
    rcases put_spec hS hc2 k v coins with ⟨s3, L3, hPut, hS3, hcmp3, _⟩
    rw [hput] at hPut
    injection hPut with hPut
    subst hPut
    exact ⟨hcmp3.trans hcmp, L3, hS3⟩
  | rem hr0 hrem ih =>
    rename_i s0 s1 k b
    rcases ih with ⟨hcmp, L, hS⟩
    have hc2 : IsSTO s0.comparator := by
      rw [hcmp]
      exact hc
    rcases remove_spec hS hc2 k with ⟨habs, hpres⟩
    cases hL : mLookup s0.comparator k (toModel s0 L) with
    | none =>
      have h := habs hL
      rw [hrem] at h
      injection h with h
      have h1 : s1 = s0 := (congrArg Prod.fst h.symm : (s0, false).1 = (s1, b).1).symm
      subst h1
      exact ⟨hcmp, L, hS⟩
    | some v0 =>
      rcases hpres (by rw [hL]; rfl) with ⟨s4, L4, hRem, hS4, hcmp4, _⟩
      rw [hrem] at hRem
      injection hRem with hRem
      have h1 : s1 = s4 := (congrArg Prod.fst hRem : (s1, b).1 = (s4, true).1)
      subst h1
      exact ⟨hcmp4.trans hcmp, L4, hS4⟩

/-- An always-true visitor never truncates the trace. -/
lemma takeUntil_all {f : K → V → Bool} (hf : ∀ k v, f k v = true) :
    ∀ M : List (K × V), takeUntil f M = M := by
  intro M
  induction M with
  | nil => rfl
  | cons p t ih =>
    show (if f p.1 p.2 then p :: takeUntil f t else [p]) = p :: t
    rw [if_pos (hf p.1 p.2), ih]

/-! ### The claims -/

/-- C1: after every sequence of Put and Remove operations under a
strict-total-order comparator, the level-0 chain from the header lists
the live nodes in strictly increasing comparator order with no
duplicates, and at every level up to the current level the chain is a
subsequence of the level-0 chain. -/
theorem ordering_invariant {c : K → K → Int} {s : SkipMap K V}
    (hc : IsSTO c) (hr : Reachable c s) :
    ∃ L : List Nat,
      chainTo s 0 .header L none ∧
      List.Chain' (ltIdx s) L ∧
      L.Nodup ∧
      ∀ i, i ≤ s.level →
        ∃ Li, chainTo s i .header Li none ∧ Li.Sublist L := by
  rcases reachable_spine hc hr with ⟨hcmp, L, hS⟩
  have hc2 : IsSTO s.comparator := by
    rw [hcmp]
    exact hc
  have hzero : levelList s L 0 = L := levelList_zero fun j hj => hS.flenPos j hj
  refine ⟨L, ?_, hS.sorted, hS.nodup hc2, ?_⟩
  · have h := hS.chains 0 (by have := hS.lvl; omega)
    rwa [hzero] at h
  · intro i hi
    exact ⟨levelList s L i, hS.chains i (by have := hS.lvl; omega),
      levelList_sublist s L i⟩

theorem ordering_invariant_witness :
    ∃ L : List Nat,
      chainTo (NewWithComparator defaultComparator : SkipMap Int Int) 0 .header L none ∧
      List.Chain' (ltIdx (NewWithComparator defaultComparator : SkipMap Int Int)) L ∧
      L.Nodup ∧
      ∀ i, i ≤ (NewWithComparator defaultComparator : SkipMap Int Int).level →
        ∃ Li, chainTo (NewWithComparator defaultComparator : SkipMap Int Int) i
          .header Li none ∧ Li.Sublist L :=
  ordering_invariant defaultComparator_isSTO Reachable.new

/-- C2: Put on a present key overwrites the value in place - the second
Put changes no pointer, no header slot, no level and no length, and a
subsequent Get returns the second value. -/
theorem put_overwrite_in_place {s : SkipMap K V} {L : List Nat} (hS : Spine s L)
    (hc : IsSTO s.comparator) (k : K) (v1 v2 : V) (coins1 coins2 : Nat → Bool) :
    ∃ s1 s2 : SkipMap K V,
      s.Put k v1 coins1 = some s1 ∧ s1.Put k v2 coins2 = some s2 ∧
      s2.Get k = some (some v2) ∧
      s2.Len = s1.Len ∧
      s2.level = s1.level ∧ s2.headerF = s1.headerF ∧
      (∀ p i, s2.fwdGet p i = s1.fwdGet p i) := by
  rcases put_spec hS hc k v1 coins1 with
    ⟨s1, L1, hPut1, hS1, hcmp1, hmax1, hmodel1, hhit1, hmiss1⟩
  have hc1 : IsSTO s1.comparator := by
    rw [hcmp1]
    exact hc
  rcases put_spec hS1 hc1 k v2 coins2 with
    ⟨s2, L2, hPut2, hS2, hcmp2, hmax2, hmodel2, hhit2, hmiss2⟩
  have hLook1 : mLookup s1.comparator k (toModel s1 L1) = some v1 := by
    rw [hcmp1, hmodel1]
    exact mLookup_mInsert_self hc k v1 _
  have hhit := hhit2 (by rw [hLook1]; rfl)
  have hc2' : IsSTO s2.comparator := by
    rw [hcmp2, hcmp1]
    exact hc
  have hGet2 : mLookup s2.comparator k (toModel s2 L2) = some v2 := by
    rw [hcmp2, hmodel2]
    exact mLookup_mInsert_self hc1 k v2 _
  refine ⟨s1, s2, hPut1, hPut2, by rw [Get_spec hS2 hc2' k, hGet2], ?_,
    hhit.1, hhit.2.2.1, hhit.2.2.2.1⟩
  show s2.length = s1.length
  exact hhit.2.1

theorem put_overwrite_in_place_witness :
    ∃ s1 s2 : SkipMap Int Int,
      (NewWithComparator defaultComparator : SkipMap Int Int).Put 0 1 (fun _ => false) =
        some s1 ∧
      s1.Put 0 2 (fun _ => false) = some s2 ∧
      s2.Get 0 = some (some 2) ∧
      s2.Len = s1.Len ∧
      s2.level = s1.level ∧ s2.headerF = s1.headerF ∧
      (∀ p i, s2.fwdGet p i = s1.fwdGet p i) :=
  put_overwrite_in_place (spine_new defaultComparator) defaultComparator_isSTO
    0 1 2 (fun _ => false) (fun _ => false)

/-- C3: Remove on an absent key returns false and leaves the state
unchanged; on a present key it returns true, shrinks the length by one,
makes a subsequent Get of that key report not-found, and leaves Get of
every other key unchanged. -/
theorem remove_correct {s : SkipMap K V} {L : List Nat} (hS : Spine s L)
    (hc : IsSTO s.comparator) (key : K) :
    (mLookup s.comparator key (toModel s L) = none →
      s.Remove key = some (s, false)) ∧
    ((mLookup s.comparator key (toModel s L)).isSome →
      ∃ s4 : SkipMap K V, s.Remove key = some (s4, true) ∧
        s4.Len + 1 = s.Len ∧
        s4.Get key = some none ∧
        (∀ k2, ¬ s.comparator k2 key = 0 → s4.Get k2 = s.Get k2)) := by
  rcases remove_spec hS hc key with ⟨habs, hpres⟩
  refine ⟨habs, ?_⟩
  intro hsome
  rcases hpres hsome with ⟨s4, L4, hRem, hS4, hcmp4, hmax4, hlen4, hlev4, hmodel4, htop4⟩
  have hc4 : IsSTO s4.comparator := by
    rw [hcmp4]
    exact hc
  refine ⟨s4, hRem, hlen4, ?_, ?_⟩
  · rw [Get_spec hS4 hc4 key, hcmp4, hmodel4,
      mLookup_mErase_self hc (toModel_pairwise hS hc)]
  · intro k2 hk2
    rw [Get_spec hS4 hc4 k2, hcmp4, hmodel4, mLookup_mErase_ne hc hk2]
    rw [Get_spec hS hc k2]

theorem remove_correct_witness :
    (mLookup (NewWithComparator defaultComparator : SkipMap Int Int).comparator 0
        (toModel (NewWithComparator defaultComparator : SkipMap Int Int) []) = none →
      (NewWithComparator defaultComparator : SkipMap Int Int).Remove 0 =
        some (NewWithComparator defaultComparator, false)) ∧
    ((mLookup (NewWithComparator defaultComparator : SkipMap Int Int).comparator 0
        (toModel (NewWithComparator defaultComparator : SkipMap Int Int) [])).isSome →
      ∃ s4 : SkipMap Int Int,
        (NewWithComparator defaultComparator : SkipMap Int Int).Remove 0 =
          some (s4, true) ∧
        s4.Len + 1 = (NewWithComparator defaultComparator : SkipMap Int Int).Len ∧
        s4.Get 0 = some none ∧
        (∀ k2, ¬ (NewWithComparator defaultComparator : SkipMap Int Int).comparator
            k2 0 = 0 →
          s4.Get k2 = (NewWithComparator defaultComparator : SkipMap Int Int).Get k2)) :=
  remove_correct (spine_new defaultComparator) defaultComparator_isSTO 0

/-- C4: Range returns exactly the values of the model entries whose keys
lie in the closed range, in ascending key order; a backwards range
yields the empty list. -/
theorem range_exact {s : SkipMap K V} {L : List Nat} (hS : Spine s L)
    (hc : IsSTO s.comparator) (start endKey : K) :
    s.Range start endKey =
      some (((toModel s L).filter (inRangeB s.comparator start endKey)).map Prod.snd) ∧
    ((toModel s L).filter (inRangeB s.comparator start endKey)).Pairwise
      (fun p q => s.comparator p.1 q.1 < 0) ∧
    (0 < s.comparator start endKey → s.Range start endKey = some []) := by
  refine ⟨range_spec hS hc start endKey,
    (toModel_pairwise hS hc).sublist (List.filter_sublist _), ?_⟩
  intro hbk
  rw [range_spec hS hc start endKey,
    filter_inRange_nil_of_backwards hc hbk (toModel s L)]
  rfl

theorem range_exact_witness :
    (NewWithComparator defaultComparator : SkipMap Int Int).Range 0 5 =
      some (((toModel (NewWithComparator defaultComparator : SkipMap Int Int) []).filter
        (inRangeB (NewWithComparator defaultComparator :
          SkipMap Int Int).comparator 0 5)).map Prod.snd) ∧
    ((toModel (NewWithComparator defaultComparator : SkipMap Int Int) []).filter
      (inRangeB (NewWithComparator defaultComparator :
        SkipMap Int Int).comparator 0 5)).Pairwise
      (fun p q => (NewWithComparator defaultComparator :
        SkipMap Int Int).comparator p.1 q.1 < 0) ∧
    (0 < (NewWithComparator defaultComparator : SkipMap Int Int).comparator 0 5 →
      (NewWithComparator defaultComparator : SkipMap Int Int).Range 0 5 = some []) :=
  range_exact (spine_new defaultComparator) defaultComparator_isSTO 0 5

/-- C5: RangeFunc performs the same traversal as Range: the visitor
invocation trace is the in-range model entries up to and including the
first rejected one; with an always-true visitor it is invoked once per
in-range entry, in the same order Range reports. -/
theorem rangeFunc_trace {s : SkipMap K V} {L : List Nat} (hS : Spine s L)
    (hc : IsSTO s.comparator) (start endKey : K) (f : K → V → Bool) :
    s.RangeFunc start endKey f =
      some (takeUntil f ((toModel s L).filter (inRangeB s.comparator start endKey))) ∧
    ((∀ k v, f k v = true) →
      s.RangeFunc start endKey f =
        some ((toModel s L).filter (inRangeB s.comparator start endKey)) ∧
      s.Range start endKey =
        some (((toModel s L).filter
          (inRangeB s.comparator start endKey)).map Prod.snd)) := by
  refine ⟨rangeFunc_spec hS hc start endKey f, ?_⟩
  intro hf
  refine ⟨?_, range_spec hS hc start endKey⟩
  rw [rangeFunc_spec hS hc start endKey f, takeUntil_all hf]

theorem rangeFunc_trace_witness :
    (NewWithComparator defaultComparator : SkipMap Int Int).RangeFunc 0 5
        (fun _ _ => true) =
      some (takeUntil (fun _ _ => true)
        ((toModel (NewWithComparator defaultComparator : SkipMap Int Int) []).filter
          (inRangeB (NewWithComparator defaultComparator :
            SkipMap Int Int).comparator 0 5))) ∧
    ((∀ k v : Int, (fun _ _ => true) k v = true) →
      (NewWithComparator defaultComparator : SkipMap Int Int).RangeFunc 0 5
          (fun _ _ => true) =
        some ((toModel (NewWithComparator defaultComparator : SkipMap Int Int) []).filter
          (inRangeB (NewWithComparator defaultComparator :
            SkipMap Int Int).comparator 0 5)) ∧
      (NewWithComparator defaultComparator : SkipMap Int Int).Range 0 5 =
        some (((toModel (NewWithComparator defaultComparator : SkipMap Int Int) []).filter
          (inRangeB (NewWithComparator defaultComparator :
            SkipMap Int Int).comparator 0 5)).map Prod.snd)) :=
  rangeFunc_trace (spine_new defaultComparator) defaultComparator_isSTO 0 5
    (fun _ _ => true)

/-- C6: Min and Max report not-found exactly on the empty engine; on a
non-empty one Min returns the first model entry - the least key - and
Max the last model entry - the greatest key. -/
theorem min_max_extremes {s : SkipMap K V} {L : List Nat} (hS : Spine s L)
    (hc : IsSTO s.comparator) :
    (s.Min = some none ↔ s.Len = 0) ∧
    (s.Max = some none ↔ s.Len = 0) ∧
    s.Min = some ((toModel s L).head?) ∧
    s.Max = some ((toModel s L).getLast?) ∧
    (∀ p, (toModel s L).head? = some p →
      ∀ q ∈ toModel s L, p = q ∨ s.comparator p.1 q.1 < 0) ∧
    (∀ p, (toModel s L).getLast? = some p →
      ∀ q ∈ toModel s L, p = q ∨ s.comparator q.1 p.1 < 0) := by
  have hmin := min_spec hS
  have hmax := max_spec hS hc
  have hlenM : (toModel s L).length = L.length := toModel_length hS.keysEx
  have hpw := toModel_pairwise hS hc
  have hLenEq : s.Len = 0 ↔ toModel s L = [] := by
    show s.length = 0 ↔ _
    rw [hS.len, ← hlenM]
    exact ⟨fun h => List.length_eq_zero.mp h, fun h => by rw [h]; rfl⟩
  refine ⟨?_, ?_, hmin, hmax, ?_, ?_⟩
  · rw [hmin]
    constructor
    · intro h
      injection h with h
      rw [hLenEq]
      exact List.head?_eq_none_iff.mp h
    · intro h
      rw [hLenEq.mp h]
      rfl
  · rw [hmax]
    constructor
    · intro h
      injection h with h
      rw [hLenEq]
      rcases List.eq_nil_or_concat (toModel s L) with hnil | ⟨T, p, hcat⟩
      · exact hnil
      · rw [hcat, List.concat_eq_append, List.getLast?_concat] at h
        exact Option.noConfusion h
    · intro h
      rw [hLenEq.mp h]
      rfl
  · intro p hp q hq
    cases hM : toModel s L with
    | nil =>
      rw [hM] at hq
      exact absurd hq (List.not_mem_nil q)
    | cons p0 t =>
      rw [hM] at hp hq hpw
      injection hp with hp
      subst hp
      rcases List.mem_cons.mp hq with rfl | hq2
      · exact Or.inl rfl
      · exact Or.inr ((List.pairwise_cons.mp hpw).1 q hq2)
  · intro p hp q hq
    rcases List.eq_nil_or_concat (toModel s L) with hnil | ⟨T, pl, hcat⟩
    · rw [hnil] at hq
      exact absurd hq (List.not_mem_nil q)
    · rw [hcat, List.concat_eq_append] at hp hq hpw
      rw [List.getLast?_concat] at hp
      injection hp with hp
      subst hp
      rcases List.mem_append.mp hq with hqT | hql
      · exact Or.inr ((List.pairwise_append.mp hpw).2.2 q hqT pl
          (List.mem_singleton_self pl))
      · rcases List.mem_singleton.mp hql with rfl
        exact Or.inl rfl

theorem min_max_extremes_witness :
    ((NewWithComparator defaultComparator : SkipMap Int Int).Min = some none ↔
      (NewWithComparator defaultComparator : SkipMap Int Int).Len = 0) ∧
    ((NewWithComparator defaultComparator : SkipMap Int Int).Max = some none ↔
      (NewWithComparator defaultComparator : SkipMap Int Int).Len = 0) ∧
    (NewWithComparator defaultComparator : SkipMap Int Int).Min =
      some ((toModel (NewWithComparator defaultComparator : SkipMap Int Int) []).head?) ∧
    (NewWithComparator defaultComparator : SkipMap Int Int).Max =
      some ((toModel (NewWithComparator defaultComparator :
        SkipMap Int Int) []).getLast?) ∧
    (∀ p, (toModel (NewWithComparator defaultComparator :
        SkipMap Int Int) []).head? = some p →
      ∀ q ∈ toModel (NewWithComparator defaultComparator : SkipMap Int Int) [],
        p = q ∨ (NewWithComparator defaultComparator :
          SkipMap Int Int).comparator p.1 q.1 < 0) ∧
    (∀ p, (toModel (NewWithComparator defaultComparator :
        SkipMap Int Int) []).getLast? = some p →
      ∀ q ∈ toModel (NewWithComparator defaultComparator : SkipMap Int Int) [],
        p = q ∨ (NewWithComparator defaultComparator :
          SkipMap Int Int).comparator q.1 p.1 < 0) :=
  min_max_extremes (spine_new defaultComparator) defaultComparator_isSTO

/-- C7, corrected count invariant: after every sequence of operations
the reported length equals the number of nodes reachable along the
level-0 chain. The claimed identity with the number of distinct keys
ever Put minus the distinct keys successfully Removed is refuted by
len_vs_distinct_keys_counterexample: re-inserting a removed key grows
the length without growing either distinct-key count. -/
theorem len_counts_level0_nodes {c : K → K → Int} {s : SkipMap K V}
    (hc : IsSTO c) (hr : Reachable c s) :
    ∃ L : List Nat, chainTo s 0 .header L none ∧ s.Len = L.length := by
  rcases reachable_spine hc hr with ⟨hcmp, L, hS⟩
  have hzero : levelList s L 0 = L := levelList_zero fun j hj => hS.flenPos j hj
  refine ⟨L, ?_, hS.len⟩
  have h := hS.chains 0 (by have := hS.lvl; omega)
  rwa [hzero] at h

theorem len_counts_level0_nodes_witness :
    ∃ L : List Nat,
      chainTo (NewWithComparator defaultComparator : SkipMap Int Int) 0 .header L none ∧
      (NewWithComparator defaultComparator : SkipMap Int Int).Len = L.length :=
  len_counts_level0_nodes defaultComparator_isSTO Reachable.new

/-- C7, counterexample to the literal claim: on the trace Put 0, Remove
0, Put 0 the run succeeds with final length 1, while the number of
distinct keys ever Put minus the number of distinct keys successfully
Removed is 1 - 1 = 0. -/
theorem len_vs_distinct_keys_counterexample :
    (runOpsR (fun _ => false) (NewWithComparator defaultComparator : SkipMap Int Int)
        [Op.put 0 0, Op.remove 0, Op.put 0 1]).map
      (fun r => (r.1.Len,
        (putKeysOf [(Op.put (0 : Int) (0 : Int)), Op.remove 0, Op.put 0 1]).dedup.length -
          r.2.dedup.length)) = some (1, 0) ∧ (1 : Nat) ≠ 0 :=
  ⟨rfl, by omega⟩

/-- C8: in every reachable state the level field marks the top of the
populated header slots - every higher slot is nil and slot level itself
is occupied unless the engine sits at level 0; Put never lowers the
level, and Remove lowers it only when it empties the old top level. -/
theorem level_tracks_top {c : K → K → Int} {s : SkipMap K V}
    (hc : IsSTO c) (hr : Reachable c s) :
    (∀ m, s.level < m → m < s.maxLevel → s.fwdGet .header m = some none) ∧
    (s.level = 0 ∨ ∃ j, s.fwdGet .header s.level = some (some j)) ∧
    (∀ k v coins s3, s.Put k v coins = some s3 → s.level ≤ s3.level) ∧
    (∀ k s4 b, s.Remove k = some (s4, b) →
      s4.level ≤ s.level ∧
      (s4.level < s.level → b = true ∧ s4.headerF[s.level]? = some none)) := by
  rcases reachable_spine hc hr with ⟨hcmp, L, hS⟩
  have hc2 : IsSTO s.comparator := by
    rw [hcmp]
    exact hc
  rcases level_top_char hS with ⟨h1, h2⟩
  refine ⟨h1, h2, ?_, ?_⟩
  · intro k v coins s3 hput
    rcases put_spec hS hc2 k v coins with ⟨s3', L3, hPut, _, _, _, _, hhit, hmiss⟩
    rw [hput] at hPut
    injection hPut with hPut
    subst hPut
    cases hLook : mLookup s.comparator k (toModel s L) with
    | none => exact (hmiss hLook).2
    | some v0 => exact le_of_eq ((hhit (by rw [hLook]; rfl)).1).symm
  · intro k s4 b hrem
    rcases remove_spec hS hc2 k with ⟨habs, hpres⟩
    cases hLook : mLookup s.comparator k (toModel s L) with
    | none =>
      have h := habs hLook
      rw [hrem] at h
      injection h with h
      have h4 : s4 = s := (congrArg Prod.fst h : (s4, b).1 = (s, false).1)
      subst h4
      exact ⟨Nat.le_refl _, fun hlt => absurd hlt (lt_irrefl _)⟩
    | some v0 =>
      rcases hpres (by rw [hLook]; rfl) with
        ⟨s4', L4, hRem, _, _, _, _, hlev, _, htop⟩
      rw [hrem] at hRem
      injection hRem with hRem
      have h4 : s4 = s4' := (congrArg Prod.fst hRem : (s4, b).1 = (s4', true).1)
      have hb : b = true := (congrArg Prod.snd hRem : (s4, b).2 = (s4', true).2)
      subst h4
      exact ⟨hlev, fun hlt => ⟨hb, htop hlt⟩⟩

theorem level_tracks_top_witness :
    (∀ m, (NewWithComparator defaultComparator : SkipMap Int Int).level < m →
      m < (NewWithComparator defaultComparator : SkipMap Int Int).maxLevel →
      (NewWithComparator defaultComparator : SkipMap Int Int).fwdGet .header m =
        some none) ∧
    ((NewWithComparator defaultComparator : SkipMap Int Int).level = 0 ∨
      ∃ j, (NewWithComparator defaultComparator : SkipMap Int Int).fwdGet .header
        (NewWithComparator defaultComparator : SkipMap Int Int).level =
          some (some j)) ∧
    (∀ k v coins s3,
      (NewWithComparator defaultComparator : SkipMap Int Int).Put k v coins = some s3 →
      (NewWithComparator defaultComparator : SkipMap Int Int).level ≤ s3.level) ∧
    (∀ k s4 b,
      (NewWithComparator defaultComparator : SkipMap Int Int).Remove k =
        some (s4, b) →
      s4.level ≤ (NewWithComparator defaultComparator : SkipMap Int Int).level ∧
      (s4.level < (NewWithComparator defaultComparator : SkipMap Int Int).level →
        b = true ∧ s4.headerF[(NewWithComparator defaultComparator :
          SkipMap Int Int).level]? = some none)) :=
  level_tracks_top defaultComparator_isSTO Reachable.new

/-- C9: every coin sequence draws a level in [0, maxLevel - 1], every
stored forward slice stays within maxLevel slots, and no operation
panics on a well-formed state: each one returns a value. -/
theorem no_operation_panics {s : SkipMap K V} {L : List Nat} (hS : Spine s L)
    (hc : IsSTO s.comparator) (coins : Nat → Bool) :
    randomLevel DefaultMaxLevel coins ≤ DefaultMaxLevel - 1 ∧
    (∀ nd ∈ s.arena, nd.forward.length ≤ s.maxLevel) ∧
    (∀ k v, (s.Put k v coins).isSome) ∧
    (∀ k, (s.Get k).isSome) ∧
    (∀ k, (s.Remove k).isSome) ∧
    (∀ a b, (s.Range a b).isSome) ∧
    (∀ a b f, (s.RangeFunc a b f).isSome) ∧
    s.Min.isSome ∧ s.Max.isSome := by
  refine ⟨randomLevel_le DefaultMaxLevel coins,
    fun nd hnd => (hS.flenAll nd hnd).2, ?_, ?_, ?_, ?_, ?_, ?_, ?_⟩
  · intro k v
    rcases put_spec hS hc k v coins with ⟨s3, L3, hPut, _⟩
    rw [hPut]
    rfl
  · intro k
    rw [Get_spec hS hc k]
    rfl
  · intro k
    rcases remove_spec hS hc k with ⟨habs, hpres⟩
    cases hLook : mLookup s.comparator k (toModel s L) with
    | none =>
      rw [habs hLook]
      rfl
    | some v0 =>
      rcases hpres (by rw [hLook]; rfl) with ⟨s4, L4, hRem, _⟩
      rw [hRem]
      rfl
  · intro a b
    rw [range_spec hS hc a b]
    rfl
  · intro a b f
    rw [rangeFunc_spec hS hc a b f]
    rfl
  · rw [min_spec hS]
    rfl
  · rw [max_spec hS hc]
    rfl

theorem no_operation_panics_witness :
    randomLevel DefaultMaxLevel (fun _ => true) ≤ DefaultMaxLevel - 1 ∧
    (∀ nd ∈ (NewWithComparator defaultComparator : SkipMap Int Int).arena,
      nd.forward.length ≤
        (NewWithComparator defaultComparator : SkipMap Int Int).maxLevel) ∧
    (∀ k v, ((NewWithComparator defaultComparator : SkipMap Int Int).Put k v
      (fun _ => true)).isSome) ∧
    (∀ k, ((NewWithComparator defaultComparator : SkipMap Int Int).Get k).isSome) ∧
    (∀ k, ((NewWithComparator defaultComparator : SkipMap Int Int).Remove k).isSome) ∧
    (∀ a b, ((NewWithComparator defaultComparator : SkipMap Int Int).Range a b).isSome) ∧
    (∀ a b f, ((NewWithComparator defaultComparator :
      SkipMap Int Int).RangeFunc a b f).isSome) ∧
    (NewWithComparator defaultComparator : SkipMap Int Int).Min.isSome ∧
    (NewWithComparator defaultComparator : SkipMap Int Int).Max.isSome :=
  no_operation_panics (spine_new defaultComparator) defaultComparator_isSTO
    (fun _ => true)

end SkipVerify
